import Mathlib

/-!
ENBP (End-Node Back Propagation) path selection

A shallow embedding of `graph.h` / `graph.cpp`.

* `cv::Mat` with `CV_32F` entries is a function `Mat := Nat → Nat → ℚ`, read as
  `_weights.at<float>(i, j)`; the side length is carried separately as `numNodes`,
  the member that `Graph::Graph` sets from `_weights.cols`.  Entries are exact rationals.
* `Path::getWeight` has two embeddings: `Path.getWeight` computes with exact rationals,
  `Path.getWeightFloat rnd` rounds every operation with `rnd`, as `float` arithmetic does.
  `Graph` selects by the first, `GraphFloat rnd` by the second; they agree when nothing is
  rounded (`GraphFloat_id`).
* Node ids are the loop indices of the source, which are never negative, so they are `Nat`.
* `Graph::iteration` is recursive and the greedy selection is a `while (true)` loop.  Both
  take a fuel argument and give `none` when it runs out.  `none` is also the result of
  reading `paths[bestPathId]` outside the vector.
-/

set_option linter.dupNamespace false

namespace Graph

/-- Weight matrix: `W i j` is `_weights.at<float>(i, j)`. -/
abbrev Mat := Nat → Nat → ℚ

/-- The class `Graph::Path`: node ids and the weights between consecutive nodes. -/
structure Path where
  nodes : List Nat
  weights : List ℚ
deriving DecidableEq

namespace Path

/-- A default-constructed `Path`. -/
def empty : Path := ⟨[], []⟩

/-- `Path::addNode`: append `id` unless `std::find` reports it present. -/
def addNode (p : Path) (id : Nat) : Path :=
  if id ∈ p.nodes then p else ⟨p.nodes ++ [id], p.weights⟩

/-- `Path::addWeight`: `weights.push_back(w)`. -/
def addWeight (p : Path) (w : ℚ) : Path := ⟨p.nodes, p.weights ++ [w]⟩

/-- `Path::reversePath`: reverse both vectors. -/
def reversePath (p : Path) : Path := ⟨p.nodes.reverse, p.weights.reverse⟩

/-- `Path::addEdge`: both nodes, then the weight. -/
def addEdge (p : Path) (id1 id2 : Nat) (w12 : ℚ) : Path :=
  ((p.addNode id1).addNode id2).addWeight w12

/-- `Path::getWeight`: the sum of the weights, divided by their number when there are any. -/
def getWeight (p : Path) : ℚ :=
  let sum := p.weights.foldl (fun s w => s + w) 0
  if p.weights.length > 0 then sum / (p.weights.length : ℚ) else sum

/-- `Path::getNumNodes`. -/
def getNumNodes (p : Path) : Nat := p.nodes.length

end Path

/-- Entry `i` of `rows` after `reduce(_weights, rows, 1, CV_REDUCE_SUM)`. -/
def rowSum (numNodes : Nat) (W : Mat) (i : Nat) : ℚ :=
  ((List.range numNodes).map (fun j => W i j)).sum

/-- Entry `j` of `cols` after `reduce(_weights, cols, 0, CV_REDUCE_SUM)`. -/
def colSum (numNodes : Nat) (W : Mat) (j : Nat) : ℚ :=
  ((List.range numNodes).map (fun i => W i j)).sum

/-- The vector `finalNodes` of `computePaths`: no departing edge, some incoming edge. -/
def finalNodes (numNodes : Nat) (W : Mat) : List Nat :=
  (List.range numNodes).filter
    (fun i => decide (rowSum numNodes W i = 0 ∧ colSum numNodes W i ≠ 0))

/-- The vector `backConnections` of `iteration`: `j` runs from `_currentNode` down to `0`. -/
def backConnections (W : Mat) (currentNode : Nat) : List Nat :=
  ((List.range (currentNode + 1)).reverse).filter (fun j => decide (W j currentNode > 0))

/-- The `for` loop over `backConnections` in `iteration`.  `call` is the recursive call,
`j` the loop index, `currentPath` the by-value parameter `_currentPath` that the first
round overwrites, `currentPathCopy` the snapshot taken on entry. -/
def iterationLoop (call : Path → Nat → List Path → Option (List Path)) (W : Mat)
    (cols : Nat → ℚ) (currentNode : Nat) (currentPathCopy : Path) :
    List Nat → Nat → Path → List Path → Option (List Path)
  | [], _, _, pathVector => some pathVector
  | b :: rest, j, currentPath, pathVector =>
    if j = 0 then
      let currentPath1 := currentPath.addEdge currentNode b (W b currentNode)
      if cols b = 0 then
        iterationLoop call W cols currentNode currentPathCopy rest (j + 1) currentPath1
          (pathVector ++ [currentPath1])
      else
        match call currentPath1 b pathVector with
        | none => none
        | some pathVector1 =>
          iterationLoop call W cols currentNode currentPathCopy rest (j + 1) currentPath1
            pathVector1
    else
      let path := currentPathCopy.addEdge currentNode b (W b currentNode)
      if cols b = 0 then
        iterationLoop call W cols currentNode currentPathCopy rest (j + 1) currentPath
          (pathVector ++ [path])
      else
        match call path b pathVector with
        | none => none
        | some pathVector1 =>
          iterationLoop call W cols currentNode currentPathCopy rest (j + 1) currentPath
            pathVector1

/-- `Graph::iteration`, with the recursion depth bounded by the first argument. -/
def iteration (W : Mat) (cols : Nat → ℚ) :
    Nat → Path → Nat → List Path → Option (List Path)
  | 0, _, _, _ => none
  | fuel + 1, currentPath, currentNode, pathVector =>
    iterationLoop (iteration W cols fuel) W cols currentNode currentPath
      (backConnections W currentNode) 0 currentPath pathVector

/-- The loop of `computePaths` that starts one recursion per final node. -/
def computeLoop (fuel : Nat) (W : Mat) (cols : Nat → ℚ) :
    List Nat → List Path → Option (List Path)
  | [], paths => some paths
  | t :: rest, paths =>
    match iteration W cols fuel Path.empty t paths with
    | none => none
    | some paths1 => computeLoop fuel W cols rest paths1

/-- `Graph::computePaths`: `paths` is the vector the caller passes in, `numNodes` the member. -/
def computePaths (fuel numNodes : Nat) (W : Mat) (paths : List Path) : Option (List Path) :=
  match computeLoop fuel W (colSum numNodes W) (finalNodes numNodes W) paths with
  | none => none
  | some paths1 => some (paths1.map Path.reversePath)

/-- The scan for the best path: `i` is the loop index, the result is `bestPathId`. -/
def bestScan : List Path → Nat → Int → ℚ → Int
  | [], _, bestPathId, _ => bestPathId
  | p :: rest, i, bestPathId, bestWeight =>
    if p.getWeight > bestWeight then bestScan rest (i + 1) (i : Int) p.getWeight
    else bestScan rest (i + 1) bestPathId bestWeight

/-- The scan as `Graph::Graph` starts it: `bestPathId = -1`, `bestWeight = 0.0f`. -/
def bestPathId (paths : List Path) : Int := bestScan paths 0 (-1) 0

/-- Reading `paths[i]` with an `int` index; outside the vector there is no value. -/
def pathAt (paths : List Path) (i : Int) : Option Path :=
  if 0 ≤ i then paths[i.toNat]? else none

/-- `weightsRe.row(n).setTo(0.0f); weightsRe.col(n).setTo(0.0f)`. -/
def zeroRowCol (W : Mat) (n : Nat) : Mat :=
  fun i j => if i = n ∨ j = n then 0 else W i j

/-- The loop over `nodesBestPath` that composes `weightsRe`. -/
def removeNodes (W : Mat) (nodesBestPath : List Nat) : Mat :=
  nodesBestPath.foldl zeroRowCol W

/-- The `while (true)` loop of `Graph::Graph`; the first argument bounds the rounds,
`fuel` is handed to `computePaths`. -/
def greedyLoop (fuel numNodes : Nat) :
    Nat → List Path → Nat → Int → Mat → List Path → Option (List Path)
  | 0, _, _, _, _, _ => none
  | rounds + 1, currentPaths, numNodesCurrent, currentBestPathId, weightsCurrent, bestPaths =>
    match pathAt currentPaths currentBestPathId with
    | none => none
    | some best =>
      let numNodesBestPath := best.getNumNodes
      if numNodesBestPath ≥ numNodesCurrent then some bestPaths
      else
        let weightsRe := removeNodes weightsCurrent best.nodes
        match computePaths fuel numNodes weightsRe [] with
        | none => none
        | some remainingPaths =>
          if remainingPaths.length > 0 then
            match pathAt remainingPaths (bestPathId remainingPaths) with
            | none => none
            | some next =>
              greedyLoop fuel numNodes rounds remainingPaths
                (numNodesCurrent - numNodesBestPath) (bestPathId remainingPaths) weightsRe
                (bestPaths ++ [next])
          else some bestPaths

/-- The last loop of `Graph::Graph`: a single-node path for every node no best path holds. -/
def addIsolated : List Nat → List Path → List Path
  | [], bestPaths => bestPaths
  | n :: rest, bestPaths =>
    if bestPaths.any (fun p => decide (n ∈ p.nodes)) then addIsolated rest bestPaths
    else addIsolated rest (bestPaths ++ [Path.empty.addNode n])

/-- The constructor `Graph::Graph` followed by `getBestPaths`, for a `numNodes`-square matrix. -/
def Graph (fuel numNodes : Nat) (W : Mat) : Option (List Path) :=
  match computePaths fuel numNodes W [] with
  | none => none
  | some paths =>
    if paths.length > 0 then
      match pathAt paths (bestPathId paths) with
      | none => none
      | some best =>
        match greedyLoop fuel numNodes fuel paths numNodes (bestPathId paths) W [best] with
        | none => none
        | some bestPaths => some (addIsolated (List.range numNodes) bestPaths)
    else some (addIsolated (List.range numNodes) [])

/-- The matrix without edges. -/
def zeroMat : Mat := fun _ _ => 0

/-- The chain `0 → 1 → 2` with both weights `0.5`. -/
def simpleChain : Mat := fun i j =>
  if (i = 0 ∧ j = 1) ∨ (i = 1 ∧ j = 2) then 1 / 2 else 0

/-- Two predecessors of one final node: `0 → 2` with weight `0.3`, `1 → 2` with weight `0.7`. -/
def branchingSink : Mat := fun i j =>
  if i = 0 ∧ j = 2 then 3 / 10 else if i = 1 ∧ j = 2 then 7 / 10 else 0

/-- Test matrix `generateCase2` of `main.cpp`. -/
def generateCase2 : Mat := fun i j =>
  if (i = 0 ∧ j = 2) ∨ (i = 1 ∧ j = 2) ∨ (i = 2 ∧ j = 3) ∨ (i = 2 ∧ j = 4) then 1 / 2 else 0

/-! ## Definitions used to state and prove the properties -/

/-- No self-loop among the first `n` nodes. -/
def NoSelfLoop (n : Nat) (W : Mat) : Prop := ∀ i, i < n → ¬ (W i i > 0)

/-- The path obtained from `p` at node `c` by adding the edges of a backward chain one by
one, as the nested calls of `iteration` do. -/
def extend (W : Mat) : Path → Nat → List Nat → Path
  | p, _, [] => p
  | p, c, b :: rest => extend W (p.addEdge c b (W b c)) b rest

/-- The backward chains that `iteration` follows from node `c`, in the order of the calls:
each chain lists the predecessors visited, and stops at the first one with column sum `0`. -/
def chains (W : Mat) (cols : Nat → ℚ) : Nat → Nat → List (List Nat)
  | 0, _ => []
  | fuel + 1, c =>
    (backConnections W c).flatMap
      (fun b => if cols b = 0 then [[b]] else (chains W cols fuel b).map (List.cons b))

/-- Being a backward chain from `c`: every step is a back connection, the chain stops at
the first node with column sum `0` and not before. -/
def IsBackChain (W : Mat) (cols : Nat → ℚ) : Nat → List Nat → Prop
  | _, [] => False
  | c, b :: rest =>
    b ≤ c ∧ W b c > 0 ∧ (if cols b = 0 then rest = [] else IsBackChain W cols b rest)

/-- The weights along a backward chain from `c`. -/
def chainWeights (W : Mat) : Nat → List Nat → List ℚ
  | _, [] => []
  | c, b :: rest => W b c :: chainWeights W b rest

/-- The finished path of a backward chain `ch` from the final node `t`, after `reversePath`. -/
def backPath (W : Mat) (t : Nat) (ch : List Nat) : Path :=
  ⟨(t :: ch).reverse, (chainWeights W t ch).reverse⟩

/-- The paths `computePaths` appends, when no node has a self-loop: one per backward chain
of each final node, in the order of the calls. -/
def enumerated (fuel numNodes : Nat) (W : Mat) : List Path :=
  (finalNodes numNodes W).flatMap
    (fun t => (chains W (colSum numNodes W) fuel t).map (backPath W t))

/-- The weights of the edges between consecutive nodes of a node list. -/
def walkWeights (W : Mat) : List Nat → List ℚ
  | a :: b :: rest => W a b :: walkWeights W (b :: rest)
  | _ => []

/-- What every enumerated path is: at least two nodes below `n`, in ascending order, joined
by edges of `W`, with the weights of these edges in the same order. -/
structure WalkPath (n : Nat) (W : Mat) (p : Path) : Prop where
  weights_eq : p.weights = walkWeights W p.nodes
  ascending : List.Chain' (fun a b => a < b) p.nodes
  edges : List.Chain' (fun a b => W a b > 0) p.nodes
  lt : ∀ v ∈ p.nodes, v < n
  two_le : 2 ≤ p.nodes.length

/-- The path at position `k` has the largest weight of the list and is the first to have it. -/
def IsFirstMax (ps : List Path) (k : Nat) (best : Path) : Prop :=
  ps[k]? = some best ∧ (∀ q ∈ ps, q.getWeight ≤ best.getWeight) ∧
    ∀ j q, j < k → ps[j]? = some q → q.getWeight < best.getWeight

/-- The path chosen by the round that follows the selections `done`: the enumeration of the
matrix without the nodes of `done`, read at the index the scan gives. -/
def roundChoice (fuel numNodes : Nat) (W : Mat) (done : List Path) : Option Path :=
  pathAt (enumerated fuel numNodes (removeNodes W (done.flatMap Path.nodes)))
    (bestPathId (enumerated fuel numNodes (removeNodes W (done.flatMap Path.nodes))))

/-- Every path of `sel` is the choice of the round that follows the paths before it. -/
def GreedyRounds (fuel numNodes : Nat) (W : Mat) (sel : List Path) : Prop :=
  ∀ pre p post, sel = pre ++ p :: post → roundChoice fuel numNodes W pre = some p

/-- The edge relation of the input graph on the nodes `0, ..., n - 1`. -/
def Edge (n : Nat) (W : Mat) (a b : Nat) : Prop := a < n ∧ b < n ∧ W a b > 0

/-- No directed cycle. -/
def Acyclic (n : Nat) (W : Mat) : Prop := ∀ v, ¬ Relation.TransGen (Edge n W) v v

/-- A valid input: at least one node, every entry `0` or in `(0, 1]`, no directed cycle. -/
structure ValidInput (n : Nat) (W : Mat) : Prop where
  one_le : 1 ≤ n
  entries : ∀ i j, i < n → j < n → W i j = 0 ∨ (0 < W i j ∧ W i j ≤ 1)
  acyclic : Acyclic n W

/-- A walk of the graph from a source to a final node: two or more nodes below `numNodes`,
consecutive ones joined by an edge, the first with column sum `0`, the last with row sum `0`
and column sum other than `0`. -/
def IsSourceFinalWalk (numNodes : Nat) (W : Mat) (l : List Nat) : Prop :=
  2 ≤ l.length ∧ (∀ v ∈ l, v < numNodes) ∧ List.Chain' (fun a b => W a b > 0) l ∧
    (∀ s ∈ l.head?, colSum numNodes W s = 0) ∧
    (∀ t ∈ l.getLast?, rowSum numNodes W t = 0 ∧ colSum numNodes W t ≠ 0)

/-- The state of a path when `iteration` is entered at node `c`: empty, or one more node
than weights, with `c` among the nodes and no node below `c`. -/
def AlignedAt (p : Path) (c : Nat) : Prop :=
  (p.nodes = [] ∧ p.weights = []) ∨
    (p.nodes.length = p.weights.length + 1 ∧ c ∈ p.nodes ∧ ∀ v ∈ p.nodes, c ≤ v)

/-- A call of a public member function that changes a `Path`. -/
inductive PathCall where
  | addNode (id : Nat)
  | addEdge (id1 id2 : Nat) (w12 : ℚ)
  | reversePath

/-- The path after one call. -/
def PathCall.run (p : Path) : PathCall → Path
  | PathCall.addNode id => p.addNode id
  | PathCall.addEdge id1 id2 w12 => p.addEdge id1 id2 w12
  | PathCall.reversePath => p.reversePath

/-- The path after a sequence of calls on a default-constructed `Path`. -/
def runCalls (calls : List PathCall) : Path := calls.foldl PathCall.run Path.empty

/-- What `Graph::Graph` reads of its argument `_weights`: `rows`, `cols`, the value of
`type()`, and the entries. -/
structure CvMat where
  rows : Nat
  cols : Nat
  type : Nat
  data : Mat

/-- The OpenCV constant `CV_32F` (one channel of 32-bit floats). -/
def CV_32F : Nat := 5

/-- `cv::Mat::empty()`: the matrix has no element. -/
def CvMat.empty (m : CvMat) : Bool := decide (m.rows * m.cols = 0)

/-- The `assert` of `Graph::Graph` that failed. -/
inductive AssertFailure where
  | notEmpty
  | square
  | isFloat
deriving DecidableEq

/-- `Graph::Graph` with its three leading `assert`s (assertions enabled): the first one that
fails ends the construction, otherwise `numNodes = _weights.cols` and the paths are
computed. -/
def construct (fuel : Nat) (m : CvMat) : Except AssertFailure (Option (List Path)) :=
  if m.empty then Except.error AssertFailure.notEmpty
  else if m.cols ≠ m.rows then Except.error AssertFailure.square
  else if m.type ≠ CV_32F then Except.error AssertFailure.isFloat
  else Except.ok (Graph fuel m.cols m.data)

/-- The single edge `1 → 0` with weight `0.5`, on two nodes. -/
def backEdge : Mat := fun i j => if i = 1 ∧ j = 0 then 1 / 2 else 0

/-- The `while (true)` loop of `Graph::Graph` once more, keeping a record of its run next to
`bestPaths`: `log` receives the values of `numNodesCurrent` and `numNodesBestPath` at the
start of every round, `calls` counts the calls of `computePaths`. -/
def greedyLoopLog (fuel numNodes : Nat) :
    Nat → List Path → Nat → Int → Mat → List Path → List (Nat × Nat) → Nat →
      Option (List Path × List (Nat × Nat) × Nat)
  | 0, _, _, _, _, _, _, _ => none
  | rounds + 1, currentPaths, numNodesCurrent, currentBestPathId, weightsCurrent, bestPaths,
      log, calls =>
    match pathAt currentPaths currentBestPathId with
    | none => none
    | some best =>
      let numNodesBestPath := best.getNumNodes
      if numNodesBestPath ≥ numNodesCurrent then
        some (bestPaths, log ++ [(numNodesCurrent, numNodesBestPath)], calls)
      else
        let weightsRe := removeNodes weightsCurrent best.nodes
        match computePaths fuel numNodes weightsRe [] with
        | none => none
        | some remainingPaths =>
          if remainingPaths.length > 0 then
            match pathAt remainingPaths (bestPathId remainingPaths) with
            | none => none
            | some next =>
              greedyLoopLog fuel numNodes rounds remainingPaths
                (numNodesCurrent - numNodesBestPath) (bestPathId remainingPaths) weightsRe
                (bestPaths ++ [next]) (log ++ [(numNodesCurrent, numNodesBestPath)])
                (calls + 1)
          else some (bestPaths, log ++ [(numNodesCurrent, numNodesBestPath)], calls + 1)

/-- `Path::getWeight` as the machine computes it, in `float` arithmetic.  `rnd` is the
rounding of the format: the result of a `float` operation is `rnd` of its exact result.
`sum += weights[i]` is a rounded addition; `sum /= weights.size()` converts the size to
`float` and then divides, rounded. -/
def Path.getWeightFloat (rnd : ℚ → ℚ) (p : Path) : ℚ :=
  let sum := p.weights.foldl (fun s w => rnd (s + w)) 0
  if p.weights.length > 0 then rnd (sum / rnd (p.weights.length : ℚ)) else sum

/-- The scan for the best path with the `float` weights. -/
def bestScanFloat (rnd : ℚ → ℚ) : List Path → Nat → Int → ℚ → Int
  | [], _, bestPathId, _ => bestPathId
  | p :: rest, i, bestPathId, bestWeight =>
    if p.getWeightFloat rnd > bestWeight then
      bestScanFloat rnd rest (i + 1) (i : Int) (p.getWeightFloat rnd)
    else bestScanFloat rnd rest (i + 1) bestPathId bestWeight

/-- The scan as `Graph::Graph` starts it, with the `float` weights. -/
def bestPathIdFloat (rnd : ℚ → ℚ) (paths : List Path) : Int := bestScanFloat rnd paths 0 (-1) 0

/-- The `while (true)` loop of `Graph::Graph` with the `float` weights in the scan. -/
def greedyLoopFloat (rnd : ℚ → ℚ) (fuel numNodes : Nat) :
    Nat → List Path → Nat → Int → Mat → List Path → Option (List Path)
  | 0, _, _, _, _, _ => none
  | rounds + 1, currentPaths, numNodesCurrent, currentBestPathId, weightsCurrent, bestPaths =>
    match pathAt currentPaths currentBestPathId with
    | none => none
    | some best =>
      let numNodesBestPath := best.getNumNodes
      if numNodesBestPath ≥ numNodesCurrent then some bestPaths
      else
        let weightsRe := removeNodes weightsCurrent best.nodes
        match computePaths fuel numNodes weightsRe [] with
        | none => none
        | some remainingPaths =>
          if remainingPaths.length > 0 then
            match pathAt remainingPaths (bestPathIdFloat rnd remainingPaths) with
            | none => none
            | some next =>
              greedyLoopFloat rnd fuel numNodes rounds remainingPaths
                (numNodesCurrent - numNodesBestPath) (bestPathIdFloat rnd remainingPaths)
                weightsRe (bestPaths ++ [next])
          else some bestPaths

/-- The constructor `Graph::Graph` with the `float` weights in the scans. -/
def GraphFloat (rnd : ℚ → ℚ) (fuel numNodes : Nat) (W : Mat) : Option (List Path) :=
  match computePaths fuel numNodes W [] with
  | none => none
  | some paths =>
    if paths.length > 0 then
      match pathAt paths (bestPathIdFloat rnd paths) with
      | none => none
      | some best =>
        match greedyLoopFloat rnd fuel numNodes fuel paths numNodes
            (bestPathIdFloat rnd paths) W [best] with
        | none => none
        | some bestPaths => some (addIsolated (List.range numNodes) bestPaths)
    else some (addIsolated (List.range numNodes) [])

/-- The path at position `k` has the largest score of the list and is the first to have it. -/
def IsFirstMaxBy (score : Path → ℚ) (ps : List Path) (k : Nat) (best : Path) : Prop :=
  ps[k]? = some best ∧ (∀ q ∈ ps, score q ≤ score best) ∧
    ∀ j q, j < k → ps[j]? = some q → score q < score best

/-- Four nodes, edges `0 → 1` (weight `1`), `1 → 2` (weight `2^-25`) and `1 → 3` (weight
`2^-24`): the exact means of the two paths differ, their `float` means are both `0.5`. -/
def roundingTie : Mat := fun i j =>
  if i = 0 ∧ j = 1 then 1
  else if i = 1 ∧ j = 2 then 1 / 33554432
  else if i = 1 ∧ j = 3 then 1 / 16777216
  else 0

/-! ## Facts about the enumeration -/

theorem mem_backConnections {W : Mat} {c j : Nat} :
    j ∈ backConnections W c ↔ j ≤ c ∧ W j c > 0 := by
  simp [backConnections, Nat.lt_succ_iff]

theorem nodup_backConnections (W : Mat) (c : Nat) : (backConnections W c).Nodup := by
  unfold backConnections
  exact List.Nodup.filter _ (List.nodup_reverse.2 (List.nodup_range _))

theorem iterationLoop_eq (call : Path → Nat → List Path → Option (List Path)) (W : Mat)
    (cols : Nat → ℚ) (c : Nat) (copy : Path) (F : Path → Nat → List Path) :
    ∀ (bs : List Nat) (j : Nat) (cur : Path) (pv : List Path),
      (j = 0 → cur = copy) →
      (∀ b ∈ bs, cols b ≠ 0 → ∀ p pv, call p b pv = some (pv ++ F p b)) →
      iterationLoop call W cols c copy bs j cur pv =
        some (pv ++ bs.flatMap (fun b =>
          if cols b = 0 then [copy.addEdge c b (W b c)]
          else F (copy.addEdge c b (W b c)) b)) := by
  intro bs
  induction bs with
  | nil => intro j cur pv _ _; simp [iterationLoop]
  | cons b rest ih =>
    intro j cur pv hj hcall
    have hrest : ∀ b ∈ rest, cols b ≠ 0 → ∀ p pv, call p b pv = some (pv ++ F p b) :=
      fun b hb => hcall b (List.mem_cons_of_mem _ hb)
    unfold iterationLoop
    by_cases h0 : j = 0
    · have hc : cur = copy := hj h0
      subst hc
      by_cases hb : cols b = 0
      · simp only [h0, hb, if_true]
        rw [ih _ _ _ (by simp) hrest]
        simp [hb]
      · simp only [h0, hb, if_true, if_false]
        rw [hcall b (List.mem_cons_self _ _) hb]
        simp only []
        rw [ih _ _ _ (by simp) hrest]
        simp [hb]
    · by_cases hb : cols b = 0
      · simp only [h0, hb, if_true, if_false]
        rw [ih _ _ _ (by simp) hrest]
        simp [hb]
      · simp only [h0, hb, if_false]
        rw [hcall b (List.mem_cons_self _ _) hb]
        simp only []
        rw [ih _ _ _ (by simp) hrest]
        simp [hb]

theorem iteration_eq (W : Mat) (cols : Nat → ℚ) :
    ∀ (fuel : Nat) (p : Path) (c : Nat) (pv : List Path),
      NoSelfLoop (c + 1) W → c < fuel →
      iteration W cols fuel p c pv =
        some (pv ++ (chains W cols fuel c).map (extend W p c)) := by
  intro fuel
  induction fuel with
  | zero => intro p c pv _ h; omega
  | succ fuel ih =>
    intro p c pv hns hc
    unfold iteration
    rw [iterationLoop_eq (iteration W cols fuel) W cols c p
      (fun q b => (chains W cols fuel b).map (extend W q b)) _ 0 p pv (fun _ => rfl)]
    · congr 2
      simp only [chains, List.map_flatMap]
      congr 1
      funext b
      by_cases hb : cols b = 0
      · simp [hb, extend]
      · simp [hb, extend, Function.comp_def]
    · intro b hb _ q pv1
      have hb1 := mem_backConnections.1 hb
      have hne : b ≠ c := by
        rintro rfl
        exact hns b (Nat.lt_succ_self _) hb1.2
      have hlt : b < c := lt_of_le_of_ne hb1.1 hne
      exact ih q b pv1 (fun i hi => hns i (by omega)) (by omega)

theorem computeLoop_eq (fuel : Nat) (W : Mat) (cols : Nat → ℚ) :
    ∀ (ts : List Nat) (pv : List Path),
      (∀ t ∈ ts, t < fuel ∧ NoSelfLoop (t + 1) W) →
      computeLoop fuel W cols ts pv =
        some (pv ++ ts.flatMap (fun t => (chains W cols fuel t).map (extend W Path.empty t))) := by
  intro ts
  induction ts with
  | nil => intro pv _; simp [computeLoop]
  | cons t rest ih =>
    intro pv h
    unfold computeLoop
    rw [iteration_eq W cols fuel Path.empty t pv (h t (List.mem_cons_self _ _)).2
      (h t (List.mem_cons_self _ _)).1]
    simp only []
    rw [ih _ (fun t ht => h t (List.mem_cons_of_mem _ ht))]
    simp

theorem mem_chains (W : Mat) (cols : Nat → ℚ) :
    ∀ (fuel c : Nat) (ch : List Nat),
      ch ∈ chains W cols fuel c ↔ IsBackChain W cols c ch ∧ ch.length ≤ fuel := by
  intro fuel
  induction fuel with
  | zero =>
    intro c ch
    cases ch with
    | nil => simp [chains, IsBackChain]
    | cons b rest => simp [chains]
  | succ fuel ih =>
    intro c ch
    simp only [chains, List.mem_flatMap, mem_backConnections]
    constructor
    · rintro ⟨b, ⟨hbc, hw⟩, hmem⟩
      by_cases hb : cols b = 0
      · simp only [hb, if_true, List.mem_singleton] at hmem
        subst hmem
        simp [IsBackChain, hbc, hw, hb]
      · simp only [hb, if_false, List.mem_map] at hmem
        obtain ⟨r, hr, rfl⟩ := hmem
        have := (ih b r).1 hr
        simp [IsBackChain, hbc, hw, hb, this.1, this.2]
    · rintro ⟨hch, hlen⟩
      cases ch with
      | nil => exact absurd hch (by simp [IsBackChain])
      | cons b rest =>
        simp only [IsBackChain] at hch
        obtain ⟨hbc, hw, hrest⟩ := hch
        refine ⟨b, ⟨hbc, hw⟩, ?_⟩
        by_cases hb : cols b = 0
        · simp only [hb, if_true] at hrest
          simp [hb, hrest]
        · simp only [hb, if_false] at hrest
          simp only [hb, if_false, List.mem_map]
          refine ⟨rest, (ih b rest).2 ⟨hrest, ?_⟩, rfl⟩
          simp only [List.length_cons] at hlen
          omega

theorem nodup_chains (W : Mat) (cols : Nat → ℚ) :
    ∀ (fuel c : Nat), (chains W cols fuel c).Nodup := by
  intro fuel
  induction fuel with
  | zero => intro c; simp [chains]
  | succ fuel ih =>
    intro c
    simp only [chains]
    rw [List.nodup_flatMap]
    constructor
    · intro b _
      by_cases hb : cols b = 0
      · simp [hb]
      · simp only [hb, if_false]
        exact (ih b).map (List.cons_injective)
    · refine (nodup_backConnections W c).imp ?_
      intro a b hab x hxa hxb
      have ha : x.head? = some a := by
        by_cases h : cols a = 0
        · simp only [h, if_true, List.mem_singleton] at hxa
          simp [hxa]
        · simp only [h, if_false, List.mem_map] at hxa
          obtain ⟨r, _, rfl⟩ := hxa
          simp
      have hb : x.head? = some b := by
        by_cases h : cols b = 0
        · simp only [h, if_true, List.mem_singleton] at hxb
          simp [hxb]
        · simp only [h, if_false, List.mem_map] at hxb
          obtain ⟨r, _, rfl⟩ := hxb
          simp
      rw [ha] at hb
      exact hab (Option.some.inj hb)

/-- Without self-loops a backward chain from `c` descends strictly below `c`. -/
theorem IsBackChain.descends {W : Mat} {cols : Nat → ℚ} :
    ∀ (ch : List Nat) (c : Nat), NoSelfLoop (c + 1) W → IsBackChain W cols c ch →
      List.Chain (fun a b => b < a) c ch := by
  intro ch
  induction ch with
  | nil => intro c _ _; exact List.Chain.nil
  | cons b rest ih =>
    intro c hns h
    simp only [IsBackChain] at h
    obtain ⟨hbc, hw, hrest⟩ := h
    have hne : b ≠ c := by
      rintro rfl
      exact hns b (Nat.lt_succ_self _) hw
    have hlt : b < c := lt_of_le_of_ne hbc hne
    refine List.Chain.cons hlt ?_
    by_cases hb : cols b = 0
    · simp only [hb, if_true] at hrest
      subst hrest
      exact List.Chain.nil
    · simp only [hb, if_false] at hrest
      exact ih b (fun i hi => hns i (by omega)) hrest

theorem chain_desc_lt {c : Nat} {ch : List Nat} (h : List.Chain (fun a b => b < a) c ch) :
    ∀ x ∈ ch, x < c := by
  induction ch generalizing c with
  | nil => intro x hx; simp at hx
  | cons b rest ih =>
    intro x hx
    rw [List.chain_cons] at h
    rcases List.mem_cons.1 hx with rfl | hx
    · exact h.1
    · exact lt_trans (ih h.2 x hx) h.1

theorem chain_desc_length {c : Nat} {ch : List Nat} (h : List.Chain (fun a b => b < a) c ch) :
    ch.length ≤ c := by
  induction ch generalizing c with
  | nil => simp
  | cons b rest ih =>
    rw [List.chain_cons] at h
    have := ih h.2
    simp only [List.length_cons]
    omega

theorem chainWeights_length (W : Mat) :
    ∀ (ch : List Nat) (c : Nat), (chainWeights W c ch).length = ch.length := by
  intro ch
  induction ch with
  | nil => intro c; rfl
  | cons b rest ih => intro c; simp [chainWeights, ih]

theorem extend_desc (W : Mat) :
    ∀ (ch : List Nat) (c : Nat) (p : Path),
      List.Chain (fun a b => b < a) c ch → c ∈ p.nodes → (∀ n ∈ p.nodes, c ≤ n) →
      extend W p c ch = ⟨p.nodes ++ ch, p.weights ++ chainWeights W c ch⟩ := by
  intro ch
  induction ch with
  | nil => intro c p _ _ _; simp [extend, chainWeights]
  | cons b rest ih =>
    intro c p hch hc hge
    rw [List.chain_cons] at hch
    have hb : b ∉ p.nodes := fun hb => by have := hge b hb; omega
    have hstep : p.addEdge c b (W b c) = ⟨p.nodes ++ [b], p.weights ++ [W b c]⟩ := by
      simp [Path.addEdge, Path.addNode, Path.addWeight, hc, hb]
    simp only [extend, hstep]
    rw [ih b _ hch.2 (by simp) (by
      intro n hn
      simp only [List.mem_append, List.mem_singleton] at hn
      rcases hn with hn | rfl
      · have := hge n hn; omega
      · exact le_refl _)]
    simp [chainWeights]

theorem extend_empty (W : Mat) (t : Nat) (ch : List Nat)
    (hch : List.Chain (fun a b => b < a) t ch) (hne : ch ≠ []) :
    (extend W Path.empty t ch).reversePath = backPath W t ch := by
  cases ch with
  | nil => exact absurd rfl hne
  | cons b rest =>
    rw [List.chain_cons] at hch
    have hbt : t ≠ b := by omega
    have hstep : Path.empty.addEdge t b (W b t) = ⟨[t, b], [W b t]⟩ := by
      simp [Path.addEdge, Path.addNode, Path.addWeight, Path.empty, hbt.symm]
    simp only [extend, hstep]
    rw [extend_desc W rest b _ hch.2 (by simp) (by
      intro n hn
      simp only [List.mem_cons, List.mem_singleton, List.not_mem_nil, or_false] at hn
      rcases hn with rfl | rfl
      · omega
      · exact le_refl _)]
    simp [Path.reversePath, backPath, chainWeights]

theorem mem_finalNodes {numNodes : Nat} {W : Mat} {t : Nat} :
    t ∈ finalNodes numNodes W ↔
      t < numNodes ∧ rowSum numNodes W t = 0 ∧ colSum numNodes W t ≠ 0 := by
  simp [finalNodes]

theorem computePaths_eq (fuel numNodes : Nat) (W : Mat) (hns : NoSelfLoop numNodes W)
    (hf : numNodes ≤ fuel) :
    computePaths fuel numNodes W [] = some (enumerated fuel numNodes W) := by
  unfold computePaths
  rw [computeLoop_eq fuel W (colSum numNodes W) (finalNodes numNodes W) [] (by
    intro t ht
    have := (mem_finalNodes.1 ht).1
    exact ⟨by omega, fun i hi => hns i (by omega)⟩)]
  simp only [List.nil_append, enumerated, List.map_flatMap, List.map_map]
  congr 1
  apply List.flatMap_congr
  intro t ht
  apply List.map_congr_left
  intro ch hch
  have ht1 := (mem_finalNodes.1 ht).1
  have hbc := ((mem_chains W _ fuel t ch).1 hch).1
  have hne : ch ≠ [] := by
    rintro rfl
    simp [IsBackChain] at hbc
  exact extend_empty W t ch (hbc.descends ch t (fun i hi => hns i (by omega))) hne

/-! ## Matrices with removed nodes -/

theorem removeNodes_apply (Z : List Nat) :
    ∀ (W : Mat) (i j : Nat), removeNodes W Z i j = if i ∈ Z ∨ j ∈ Z then 0 else W i j := by
  induction Z with
  | nil => intro W i j; simp [removeNodes]
  | cons z Z ih =>
    intro W i j
    have hstep : removeNodes W (z :: Z) = removeNodes (zeroRowCol W z) Z := rfl
    rw [hstep, ih]
    by_cases h : i ∈ Z ∨ j ∈ Z
    · have h1 : i ∈ z :: Z ∨ j ∈ z :: Z := by
        rcases h with h | h
        · exact Or.inl (List.mem_cons_of_mem _ h)
        · exact Or.inr (List.mem_cons_of_mem _ h)
      rw [if_pos h, if_pos h1]
    · rw [if_neg h]
      simp only [zeroRowCol, List.mem_cons]
      by_cases hz : i = z ∨ j = z
      · have h1 : (i = z ∨ i ∈ Z) ∨ (j = z ∨ j ∈ Z) := by tauto
        rw [if_pos hz, if_pos h1]
      · have h1 : ¬ ((i = z ∨ i ∈ Z) ∨ (j = z ∨ j ∈ Z)) := by tauto
        rw [if_neg hz, if_neg h1]

theorem removeNodes_append (W : Mat) (A B : List Nat) :
    removeNodes (removeNodes W A) B = removeNodes W (A ++ B) := by
  simp [removeNodes, List.foldl_append]

theorem removeNodes_pos {W : Mat} {Z : List Nat} {i j : Nat} (h : removeNodes W Z i j > 0) :
    i ∉ Z ∧ j ∉ Z ∧ removeNodes W Z i j = W i j := by
  rw [removeNodes_apply] at h ⊢
  by_cases hz : i ∈ Z ∨ j ∈ Z
  · rw [if_pos hz] at h
    exact absurd h (lt_irrefl _)
  · rw [if_neg hz]
    exact ⟨fun hi => hz (Or.inl hi), fun hj => hz (Or.inr hj), rfl⟩

theorem NoSelfLoop.removeNodes {n : Nat} {W : Mat} (h : NoSelfLoop n W) (Z : List Nat) :
    NoSelfLoop n (removeNodes W Z) := by
  intro i hi hpos
  have := removeNodes_pos hpos
  rw [this.2.2] at hpos
  exact h i hi hpos

/-! ## Paths that are walks of the matrix -/

theorem walkWeights_snoc (W : Mat) (b a : Nat) :
    ∀ l : List Nat, walkWeights W (l ++ [b, a]) = walkWeights W (l ++ [b]) ++ [W b a] := by
  intro l
  induction l with
  | nil => simp [walkWeights]
  | cons x l ih =>
    cases l with
    | nil => simp [walkWeights]
    | cons y l =>
      have h1 : walkWeights W (x :: y :: l ++ [b, a]) =
          W x y :: walkWeights W (y :: l ++ [b, a]) := rfl
      have h2 : walkWeights W (x :: y :: l ++ [b]) =
          W x y :: walkWeights W (y :: l ++ [b]) := rfl
      rw [h1, h2, ih]
      rfl

theorem chainWeights_reverse (W : Mat) :
    ∀ (ch : List Nat) (t : Nat),
      (chainWeights W t ch).reverse = walkWeights W (t :: ch).reverse := by
  intro ch
  induction ch with
  | nil => intro t; simp [chainWeights, walkWeights]
  | cons b rest ih =>
    intro t
    have h1 : (t :: b :: rest).reverse = rest.reverse ++ [b, t] := by simp
    rw [h1, walkWeights_snoc]
    simp only [chainWeights, List.reverse_cons]
    rw [ih b]
    simp

theorem walkWeights_length (W : Mat) : ∀ l : List Nat, (walkWeights W l).length = l.length - 1 := by
  intro l
  induction l with
  | nil => rfl
  | cons a l ih =>
    cases l with
    | nil => rfl
    | cons b l =>
      simp only [walkWeights, List.length_cons] at ih ⊢
      omega

theorem walkWeights_pos {W : Mat} :
    ∀ l : List Nat, List.Chain' (fun a b => W a b > 0) l → ∀ w ∈ walkWeights W l, w > 0 := by
  intro l
  induction l with
  | nil => intro _ w hw; simp [walkWeights] at hw
  | cons a l ih =>
    cases l with
    | nil => intro _ w hw; simp [walkWeights] at hw
    | cons b l =>
      intro h w hw
      rw [List.chain'_cons] at h
      simp only [walkWeights, List.mem_cons] at hw
      rcases hw with rfl | hw
      · exact h.1
      · exact ih h.2 w hw

theorem walkWeights_le {W : Mat} {n : Nat} {u : ℚ}
    (hu : ∀ i j, i < n → j < n → W i j ≤ u) :
    ∀ l : List Nat, (∀ v ∈ l, v < n) → ∀ w ∈ walkWeights W l, w ≤ u := by
  intro l
  induction l with
  | nil => intro _ w hw; simp [walkWeights] at hw
  | cons a l ih =>
    cases l with
    | nil => intro _ w hw; simp [walkWeights] at hw
    | cons b l =>
      intro h w hw
      simp only [walkWeights, List.mem_cons] at hw
      rcases hw with rfl | hw
      · exact hu a b (h a (by simp)) (h b (by simp))
      · exact ih (fun v hv => h v (List.mem_cons_of_mem _ hv)) w hw

theorem walkWeights_get (W : Mat) :
    ∀ (l : List Nat) (i : Nat), i + 1 < l.length →
      (walkWeights W l)[i]? = some (W (l.getD i 0) (l.getD (i + 1) 0)) := by
  intro l
  induction l with
  | nil => intro i h; simp at h
  | cons a l ih =>
    cases l with
    | nil => intro i h; simp at h
    | cons b l =>
      intro i h
      cases i with
      | zero => simp [walkWeights]
      | succ i =>
        simp only [List.length_cons] at h
        have := ih i (by simp only [List.length_cons]; omega)
        simpa [walkWeights] using this

theorem chain_edge_get {R : Nat → Nat → Prop} :
    ∀ (l : List Nat) (i : Nat), List.Chain' R l → i + 1 < l.length →
      R (l.getD i 0) (l.getD (i + 1) 0) := by
  intro l
  induction l with
  | nil => intro i _ h; simp at h
  | cons a l ih =>
    cases l with
    | nil => intro i _ h; simp at h
    | cons b l =>
      intro i hc h
      rw [List.chain'_cons] at hc
      cases i with
      | zero => simpa using hc.1
      | succ i =>
        simp only [List.length_cons] at h
        have := ih i hc.2 (by simp only [List.length_cons]; omega)
        simpa using this

/-- Every node of a walk with two or more nodes is an end of one of its edges. -/
theorem chain_mem_edge {R : Nat → Nat → Prop} :
    ∀ (l : List Nat), List.Chain' R l → 2 ≤ l.length → ∀ v ∈ l, ∃ m, R v m ∨ R m v := by
  intro l
  induction l with
  | nil => intro _ h; simp at h
  | cons a l ih =>
    cases l with
    | nil => intro _ h; simp at h
    | cons b l =>
      intro hc _ v hv
      rw [List.chain'_cons] at hc
      rcases List.mem_cons.1 hv with rfl | hv
      · exact ⟨b, Or.inl hc.1⟩
      · cases l with
        | nil =>
          simp only [List.mem_singleton] at hv
          subst hv
          exact ⟨a, Or.inr hc.1⟩
        | cons c l => exact ih hc.2 (by simp) v hv

theorem WalkPath.nodup_nodes {n : Nat} {W : Mat} {p : Path} (h : WalkPath n W p) : p.nodes.Nodup :=
  (List.chain'_iff_pairwise.1 h.ascending).nodup

theorem WalkPath.length_weights {n : Nat} {W : Mat} {p : Path} (h : WalkPath n W p) :
    p.weights.length = p.nodes.length - 1 := by
  rw [h.weights_eq, walkWeights_length]

/-- A walk of the matrix without the nodes `Z` is a walk of `W` that avoids `Z`. -/
theorem WalkPath.of_removeNodes {n : Nat} {W : Mat} {Z : List Nat} {p : Path}
    (h : WalkPath n (removeNodes W Z) p) : WalkPath n W p ∧ ∀ v ∈ p.nodes, v ∉ Z := by
  have hedges : List.Chain' (fun a b => W a b > 0) p.nodes :=
    h.edges.imp (fun {a b} hab => by
      have := removeNodes_pos hab
      rw [this.2.2] at hab
      exact hab)
  have hw : ∀ l : List Nat, List.Chain' (fun a b => removeNodes W Z a b > 0) l →
      walkWeights (removeNodes W Z) l = walkWeights W l := by
    intro l
    induction l with
    | nil => intro _; rfl
    | cons a l ih =>
      cases l with
      | nil => intro _; rfl
      | cons b l =>
        intro hc
        rw [List.chain'_cons] at hc
        simp only [walkWeights]
        rw [ih hc.2, (removeNodes_pos hc.1).2.2]
  refine ⟨⟨by rw [h.weights_eq, hw _ h.edges], h.ascending, hedges, h.lt, h.two_le⟩, ?_⟩
  intro v hv hz
  obtain ⟨m, hm | hm⟩ := chain_mem_edge p.nodes h.edges h.two_le v hv
  · exact (removeNodes_pos hm).1 hz
  · exact (removeNodes_pos hm).2.1 hz

theorem IsBackChain.edges {W : Mat} {cols : Nat → ℚ} :
    ∀ (ch : List Nat) (c : Nat), IsBackChain W cols c ch →
      List.Chain (fun a b => W b a > 0) c ch := by
  intro ch
  induction ch with
  | nil => intro c _; exact List.Chain.nil
  | cons b rest ih =>
    intro c h
    simp only [IsBackChain] at h
    obtain ⟨_, hw, hrest⟩ := h
    refine List.Chain.cons hw ?_
    by_cases hb : cols b = 0
    · simp only [hb, if_true] at hrest
      subst hrest
      exact List.Chain.nil
    · simp only [hb, if_false] at hrest
      exact ih b hrest

theorem mem_enumerated {fuel numNodes : Nat} {W : Mat} {p : Path} :
    p ∈ enumerated fuel numNodes W ↔
      ∃ t ch, t ∈ finalNodes numNodes W ∧ IsBackChain W (colSum numNodes W) t ch ∧
        ch.length ≤ fuel ∧ p = backPath W t ch := by
  simp only [enumerated, List.mem_flatMap, List.mem_map, mem_chains]
  constructor
  · rintro ⟨t, ht, ch, ⟨h1, h2⟩, rfl⟩
    exact ⟨t, ch, ht, h1, h2, rfl⟩
  · rintro ⟨t, ch, ht, h1, h2, rfl⟩
    exact ⟨t, ht, ch, ⟨h1, h2⟩, rfl⟩

theorem backPath_walkPath {numNodes : Nat} {W : Mat} {cols : Nat → ℚ} {t : Nat}
    {ch : List Nat} (hns : NoSelfLoop numNodes W) (ht : t < numNodes)
    (hch : IsBackChain W cols t ch) : WalkPath numNodes W (backPath W t ch) := by
  have hdesc := hch.descends ch t (fun i hi => hns i (by omega))
  have hedges := hch.edges ch t
  refine ⟨?_, ?_, ?_, ?_, ?_⟩
  · simp only [backPath]
    exact chainWeights_reverse W ch t
  · simp only [backPath]
    rw [List.chain'_reverse]
    exact hdesc
  · simp only [backPath]
    rw [List.chain'_reverse]
    exact hedges
  · intro v hv
    simp only [backPath, List.mem_reverse, List.mem_cons] at hv
    rcases hv with rfl | hv
    · exact ht
    · exact lt_trans (chain_desc_lt hdesc v hv) ht
  · cases ch with
    | nil => simp [IsBackChain] at hch
    | cons b rest => simp [backPath]

theorem enumerated_walkPath {fuel numNodes : Nat} {W : Mat} {p : Path}
    (hns : NoSelfLoop numNodes W) (hp : p ∈ enumerated fuel numNodes W) :
    WalkPath numNodes W p := by
  obtain ⟨t, ch, ht, hch, _, rfl⟩ := mem_enumerated.1 hp
  exact backPath_walkPath hns (mem_finalNodes.1 ht).1 hch

theorem IsBackChain.ne_nil {W : Mat} {cols : Nat → ℚ} {c : Nat} {ch : List Nat}
    (h : IsBackChain W cols c ch) : ch ≠ [] := by
  rintro rfl
  simp [IsBackChain] at h

/-- A node with column sum `0` can only be the last node of a backward chain. -/
theorem IsBackChain.source_last {W : Mat} {cols : Nat → ℚ} :
    ∀ (ch : List Nat) (c : Nat), IsBackChain W cols c ch →
      ∀ x ∈ ch, cols x = 0 → ch.getLast? = some x := by
  intro ch
  induction ch with
  | nil => intro c _ x hx; simp at hx
  | cons b rest ih =>
    intro c h x hx hx0
    simp only [IsBackChain] at h
    obtain ⟨_, _, hrest⟩ := h
    by_cases hb : cols b = 0
    · simp only [hb, if_true] at hrest
      subst hrest
      simp only [List.mem_singleton] at hx
      subst hx
      rfl
    · simp only [hb, if_false] at hrest
      rcases List.mem_cons.1 hx with rfl | hx
      · exact absurd hx0 hb
      · have := ih b hrest x hx hx0
        cases rest with
        | nil => simp at hx
        | cons r rest => rw [List.getLast?_cons_cons]; exact this

/-- The last node of a backward chain has column sum `0`. -/
theorem IsBackChain.last_source {W : Mat} {cols : Nat → ℚ} :
    ∀ (ch : List Nat) (c : Nat), IsBackChain W cols c ch →
      ∀ s ∈ ch.getLast?, cols s = 0 := by
  intro ch
  induction ch with
  | nil => intro c h; simp [IsBackChain] at h
  | cons b rest ih =>
    intro c h s hs
    simp only [IsBackChain] at h
    obtain ⟨_, _, hrest⟩ := h
    by_cases hb : cols b = 0
    · simp only [hb, if_true] at hrest
      subst hrest
      simp only [List.getLast?_singleton, Option.mem_def, Option.some.injEq] at hs
      subst hs
      exact hb
    · simp only [hb, if_false] at hrest
      cases rest with
      | nil => simp [IsBackChain] at hrest
      | cons r rest =>
        rw [List.getLast?_cons_cons] at hs
        exact ih b hrest s hs

theorem colSum_pos {numNodes : Nat} {W : Mat}
    (hnn : ∀ i j, i < numNodes → j < numNodes → 0 ≤ W i j) {i j : Nat} (hi : i < numNodes)
    (hj : j < numNodes) (hw : W i j > 0) : 0 < colSum numNodes W j := by
  unfold colSum
  have hmem : W i j ∈ (List.range numNodes).map (fun i => W i j) :=
    List.mem_map.2 ⟨i, List.mem_range.2 hi, rfl⟩
  have hle := List.single_le_sum (l := (List.range numNodes).map (fun i => W i j)) (by
    intro x hx
    obtain ⟨k, hk, rfl⟩ := List.mem_map.1 hx
    exact hnn k j (List.mem_range.1 hk) hj) (W i j) hmem
  exact lt_of_lt_of_le hw hle

/-- With non-negative entries and edges that go from a lower to a higher index, every chain
of edges followed backwards from `c` to a node with column sum `0` is a backward chain. -/
theorem isBackChain_of_chain {numNodes : Nat} {W : Mat}
    (hnn : ∀ i j, i < numNodes → j < numNodes → 0 ≤ W i j)
    (hfwd : ∀ i j, i < numNodes → j < numNodes → W i j > 0 → i < j) :
    ∀ (ch : List Nat) (c : Nat), c < numNodes → (∀ v ∈ ch, v < numNodes) →
      List.Chain (fun a b => W b a > 0) c ch → ch ≠ [] →
      (∀ s ∈ ch.getLast?, colSum numNodes W s = 0) →
      IsBackChain W (colSum numNodes W) c ch := by
  intro ch
  induction ch with
  | nil => intro c _ _ _ hne; exact absurd rfl hne
  | cons b rest ih =>
    intro c hc hlt hch _ hlast
    rw [List.chain_cons] at hch
    have hb : b < numNodes := hlt b (List.mem_cons_self _ _)
    simp only [IsBackChain]
    refine ⟨le_of_lt (hfwd b c hb hc hch.1), hch.1, ?_⟩
    cases rest with
    | nil =>
      have : colSum numNodes W b = 0 := hlast b (by simp)
      rw [if_pos this]
    | cons r rest =>
      have hr : r < numNodes := hlt r (by simp)
      have hrb : W r b > 0 := (List.chain_cons.1 hch.2).1
      have hpos := colSum_pos hnn hr hb hrb
      rw [if_neg (ne_of_gt hpos)]
      refine ih b hb (fun v hv => hlt v (List.mem_cons_of_mem _ hv)) hch.2 (by simp) ?_
      intro s hs
      rw [← List.getLast?_cons_cons (a := b)] at hs
      exact hlast s hs

/-! ## Path weight and the selection scan -/

theorem getWeight_eq (p : Path) :
    p.getWeight = if p.weights = [] then 0 else p.weights.sum / (p.weights.length : ℚ) := by
  unfold Path.getWeight
  rw [← List.sum_eq_foldl]
  cases hw : p.weights with
  | nil => simp
  | cons w ws => simp

theorem getWeight_pos {p : Path} (hne : p.weights ≠ []) (hpos : ∀ w ∈ p.weights, w > 0) :
    0 < p.getWeight := by
  rw [getWeight_eq, if_neg hne]
  have hlen : (0 : ℚ) < (p.weights.length : ℚ) := by
    have : 0 < p.weights.length := List.length_pos.2 hne
    exact_mod_cast this
  exact div_pos (List.sum_pos _ hpos hne) hlen

theorem getWeight_le_one {p : Path} (hne : p.weights ≠ []) (hle : ∀ w ∈ p.weights, w ≤ 1) :
    p.getWeight ≤ 1 := by
  rw [getWeight_eq, if_neg hne]
  have hlen : (0 : ℚ) < (p.weights.length : ℚ) := by
    have : 0 < p.weights.length := List.length_pos.2 hne
    exact_mod_cast this
  rw [div_le_one hlen]
  have := List.sum_le_card_nsmul p.weights 1 hle
  simpa using this

theorem WalkPath.weights_ne_nil {n : Nat} {W : Mat} {p : Path} (h : WalkPath n W p) :
    p.weights ≠ [] := by
  intro hnil
  have h1 := h.length_weights
  have h2 := h.two_le
  rw [hnil] at h1
  simp only [List.length_nil] at h1
  omega

theorem WalkPath.weight_pos {n : Nat} {W : Mat} {p : Path} (h : WalkPath n W p) :
    0 < p.getWeight := by
  apply Graph.getWeight_pos h.weights_ne_nil
  rw [h.weights_eq]
  exact walkWeights_pos p.nodes h.edges

theorem bestScan_spec :
    ∀ (ps : List Path) (i : Nat) (bid : Int) (bw : ℚ),
      (bestScan ps i bid bw = bid ∧ ∀ p ∈ ps, p.getWeight ≤ bw) ∨
      (∃ k best, bestScan ps i bid bw = ((i + k : Nat) : Int) ∧ bw < best.getWeight ∧
        IsFirstMax ps k best) := by
  intro ps
  induction ps with
  | nil => intro i bid bw; left; simp [bestScan]
  | cons p rest ih =>
    intro i bid bw
    unfold bestScan
    by_cases hp : p.getWeight > bw
    · rw [if_pos hp]
      right
      rcases ih (i + 1) (i : Int) p.getWeight with ⟨h1, h2⟩ | ⟨k, best, h1, h2, h3, h4, h5⟩
      · refine ⟨0, p, by simpa using h1, hp, by simp, ?_, ?_⟩
        · intro q hq
          rcases List.mem_cons.1 hq with rfl | hq
          · exact le_refl _
          · exact h2 q hq
        · intro j q hj; omega
      · refine ⟨k + 1, best, ?_, lt_trans hp h2, by simpa using h3, ?_, ?_⟩
        · rw [h1]; congr 1; omega
        · intro q hq
          rcases List.mem_cons.1 hq with rfl | hq
          · exact le_of_lt h2
          · exact h4 q hq
        · intro j q hj hq
          cases j with
          | zero =>
            simp only [List.getElem?_cons_zero, Option.some.injEq] at hq
            subst hq
            exact h2
          | succ j =>
            simp only [List.getElem?_cons_succ] at hq
            exact h5 j q (by omega) hq
    · rw [if_neg hp]
      have hp1 : p.getWeight ≤ bw := not_lt.1 hp
      rcases ih (i + 1) bid bw with ⟨h1, h2⟩ | ⟨k, best, h1, h2, h3, h4, h5⟩
      · left
        refine ⟨h1, ?_⟩
        intro q hq
        rcases List.mem_cons.1 hq with rfl | hq
        · exact hp1
        · exact h2 q hq
      · right
        refine ⟨k + 1, best, ?_, h2, by simpa using h3, ?_, ?_⟩
        · rw [h1]; congr 1; omega
        · intro q hq
          rcases List.mem_cons.1 hq with rfl | hq
          · exact le_of_lt (lt_of_le_of_lt hp1 h2)
          · exact h4 q hq
        · intro j q hj hq
          cases j with
          | zero =>
            simp only [List.getElem?_cons_zero, Option.some.injEq] at hq
            subst hq
            exact lt_of_le_of_lt hp1 h2
          | succ j =>
            simp only [List.getElem?_cons_succ] at hq
            exact h5 j q (by omega) hq

theorem bestPathId_spec (ps : List Path) (h : ∃ p ∈ ps, 0 < p.getWeight) :
    ∃ (k : Nat) (best : Path), bestPathId ps = (k : Int) ∧
      pathAt ps (bestPathId ps) = some best ∧ IsFirstMax ps k best := by
  unfold bestPathId
  rcases bestScan_spec ps 0 (-1) 0 with ⟨_, h2⟩ | ⟨k, best, h1, _, h3⟩
  · obtain ⟨p, hp, hpos⟩ := h
    exact absurd (h2 p hp) (not_le.2 hpos)
  · refine ⟨k, best, by simpa using h1, ?_, h3⟩
    rw [h1]
    simp [pathAt, h3.1]

theorem pathAt_mem {ps : List Path} {i : Int} {p : Path} (h : pathAt ps i = some p) :
    p ∈ ps := by
  unfold pathAt at h
  by_cases hi : 0 ≤ i
  · rw [if_pos hi] at h
    exact List.getElem?_mem h
  · rw [if_neg hi] at h
    exact absurd h (by simp)

/-! ## The greedy rounds -/

theorem enumerated_choice {fuel numNodes : Nat} {W : Mat} (hns : NoSelfLoop numNodes W)
    (hne : enumerated fuel numNodes W ≠ []) :
    ∃ (k : Nat) (best : Path), bestPathId (enumerated fuel numNodes W) = (k : Int) ∧
      pathAt (enumerated fuel numNodes W) (bestPathId (enumerated fuel numNodes W)) =
        some best ∧
      IsFirstMax (enumerated fuel numNodes W) k best := by
  obtain ⟨p, hp⟩ := List.exists_mem_of_ne_nil _ hne
  exact bestPathId_spec _ ⟨p, hp, (enumerated_walkPath hns hp).weight_pos⟩

theorem greedyLoop_spec (fuel numNodes : Nat) (W : Mat) (hns : NoSelfLoop numNodes W)
    (hf : numNodes ≤ fuel) :
    ∀ (rounds : Nat) (cp : List Path) (cur : Nat) (bid : Int) (prev : List Path)
      (best : Path),
      cur < rounds → pathAt cp bid = some best → 1 ≤ best.nodes.length →
      ∃ extra,
        greedyLoop fuel numNodes rounds cp cur bid
            (removeNodes W (prev.flatMap Path.nodes)) (prev ++ [best]) =
          some (prev ++ [best] ++ extra) ∧
        ∀ pre p post, extra = pre ++ p :: post →
          roundChoice fuel numNodes W (prev ++ [best] ++ pre) = some p := by
  intro rounds
  induction rounds with
  | zero => intro cp cur bid prev best h; omega
  | succ rounds ih =>
    intro cp cur bid prev best hcur hat hlen
    have hW : removeNodes (removeNodes W (prev.flatMap Path.nodes)) best.nodes =
        removeNodes W ((prev ++ [best]).flatMap Path.nodes) := by
      rw [removeNodes_append]; simp
    have hE := computePaths_eq fuel numNodes _
      (hns.removeNodes ((prev ++ [best]).flatMap Path.nodes)) hf
    simp only [greedyLoop, hat]
    by_cases hstop : best.getNumNodes ≥ cur
    · refine ⟨[], ?_, ?_⟩
      · simp [hstop]
      · intro pre p post h
        exact absurd h (by simp)
    · rw [if_neg hstop, hW, hE]
      simp only []
      by_cases hne : (enumerated fuel numNodes
          (removeNodes W ((prev ++ [best]).flatMap Path.nodes))).length > 0
      · rw [if_pos hne]
        obtain ⟨k, next, _, hnext, _⟩ := enumerated_choice
          (hns.removeNodes ((prev ++ [best]).flatMap Path.nodes))
          (List.length_pos.1 hne)
        have hwalk := enumerated_walkPath
          (hns.removeNodes ((prev ++ [best]).flatMap Path.nodes)) (pathAt_mem hnext)
        rw [hnext]
        simp only []
        have hnum : 1 ≤ best.getNumNodes := hlen
        obtain ⟨extra, hres, hsel⟩ := ih _ (cur - best.getNumNodes) _ (prev ++ [best]) next
          (by omega) hnext (by have := hwalk.two_le; omega)
        refine ⟨next :: extra, ?_, ?_⟩
        · rw [hres]; simp
        · intro pre p post h
          cases pre with
          | nil =>
            simp only [List.nil_append, List.cons.injEq] at h
            rw [← h.1]
            simpa [roundChoice] using hnext
          | cons a pre =>
            simp only [List.cons_append, List.cons.injEq] at h
            have := hsel pre p post h.2
            rw [← h.1]
            simpa using this
      · rw [if_neg hne]
        refine ⟨[], by simp, ?_⟩
        intro pre p post h
        exact absurd h (by simp)

/-- Without self-loops, and with more fuel than nodes, the constructor returns: the greedy
selections `sel`, each the choice of its round, followed by the isolated nodes. -/
theorem Graph_eq (fuel numNodes : Nat) (W : Mat) (hns : NoSelfLoop numNodes W)
    (hf : numNodes < fuel) :
    ∃ sel, Graph fuel numNodes W = some (addIsolated (List.range numNodes) sel) ∧
      GreedyRounds fuel numNodes W sel ∧
      (sel = [] → enumerated fuel numNodes W = []) := by
  have hE := computePaths_eq fuel numNodes W hns (le_of_lt hf)
  unfold Graph
  rw [hE]
  simp only []
  by_cases hne : (enumerated fuel numNodes W).length > 0
  · rw [if_pos hne]
    obtain ⟨k, best, _, hbest, _⟩ := enumerated_choice hns (List.length_pos.1 hne)
    have hwalk := enumerated_walkPath hns (pathAt_mem hbest)
    rw [hbest]
    simp only []
    obtain ⟨extra, hres, hsel⟩ := greedyLoop_spec fuel numNodes W hns (le_of_lt hf) fuel
      (enumerated fuel numNodes W) numNodes (bestPathId (enumerated fuel numNodes W)) []
      best hf hbest (by have := hwalk.two_le; omega)
    simp only [List.flatMap_nil, List.nil_append] at hres hsel
    have h0 : removeNodes W [] = W := rfl
    rw [h0] at hres
    rw [hres]
    refine ⟨best :: extra, by simp, ?_, by simp⟩
    intro pre p post h
    cases pre with
    | nil =>
      simp only [List.nil_append, List.cons.injEq] at h
      rw [← h.1]
      simpa [roundChoice, h0] using hbest
    | cons a pre =>
      simp only [List.cons_append, List.cons.injEq] at h
      have := hsel pre p post h.2
      rw [← h.1]
      simpa using this
  · rw [if_neg hne]
    refine ⟨[], rfl, ?_, ?_⟩
    · intro pre p post h
      exact absurd h (by simp)
    · intro _
      exact List.length_eq_zero.1 (by omega)

theorem GreedyRounds.mem {fuel numNodes : Nat} {W : Mat} {sel : List Path}
    (h : GreedyRounds fuel numNodes W sel) {p : Path} (hp : p ∈ sel) :
    ∃ pre post, sel = pre ++ p :: post ∧
      p ∈ enumerated fuel numNodes (removeNodes W (pre.flatMap Path.nodes)) := by
  obtain ⟨pre, post, hsplit⟩ := List.append_of_mem hp
  exact ⟨pre, post, hsplit, pathAt_mem (h pre p post hsplit)⟩

theorem GreedyRounds.walkPath {fuel numNodes : Nat} {W : Mat} {sel : List Path}
    (hns : NoSelfLoop numNodes W) (h : GreedyRounds fuel numNodes W sel) {p : Path}
    (hp : p ∈ sel) : WalkPath numNodes W p := by
  obtain ⟨pre, post, _, hmem⟩ := h.mem hp
  exact (enumerated_walkPath (hns.removeNodes _) hmem).of_removeNodes.1

theorem pairwise_of_splits {α : Type} {R : α → α → Prop} :
    ∀ l : List α, (∀ pre p post, l = pre ++ p :: post → ∀ q ∈ pre, R q p) →
      l.Pairwise R := by
  intro l
  induction l using List.reverseRecOn with
  | nil => intro _; exact List.Pairwise.nil
  | append_singleton l a ih =>
    intro h
    rw [List.pairwise_append]
    refine ⟨ih ?_, List.pairwise_singleton _ _, ?_⟩
    · intro pre p post hl q hq
      exact h pre p (post ++ [a]) (by rw [hl]; simp) q hq
    · intro q hq b hb
      simp only [List.mem_singleton] at hb
      subst hb
      exact h l b [] rfl q hq

/-- The greedy selections share no node. -/
theorem GreedyRounds.disjoint_nodes {fuel numNodes : Nat} {W : Mat} {sel : List Path}
    (hns : NoSelfLoop numNodes W) (h : GreedyRounds fuel numNodes W sel) :
    (sel.flatMap Path.nodes).Nodup := by
  rw [List.nodup_flatMap]
  refine ⟨fun p hp => (h.walkPath hns hp).nodup_nodes, ?_⟩
  apply pairwise_of_splits
  intro pre p post hsplit q hq v hvq hvp
  have hmem := pathAt_mem (h pre p post hsplit)
  have hout := (enumerated_walkPath (hns.removeNodes _) hmem).of_removeNodes.2 v hvp
  exact hout (List.mem_flatMap.2 ⟨q, hq, hvq⟩)

/-! ## The isolated nodes -/

theorem addNode_empty (n : Nat) : Path.empty.addNode n = ⟨[n], []⟩ := by
  simp [Path.empty, Path.addNode]

theorem addIsolated_eq :
    ∀ (ns : List Nat) (bp : List Path), ns.Nodup →
      addIsolated ns bp =
        bp ++ (ns.filter (fun n => !(bp.any (fun p => decide (n ∈ p.nodes))))).map
          (fun n => (⟨[n], []⟩ : Path)) := by
  intro ns
  induction ns with
  | nil => intro bp _; simp [addIsolated]
  | cons n rest ih =>
    intro bp hnd
    rw [List.nodup_cons] at hnd
    unfold addIsolated
    by_cases hany : bp.any (fun p => decide (n ∈ p.nodes)) = true
    · rw [if_pos hany, ih bp hnd.2]
      simp [List.filter_cons, hany]
    · rw [if_neg hany, ih _ hnd.2, addNode_empty]
      have hcongr : rest.filter (fun m =>
            !((bp ++ [(⟨[n], []⟩ : Path)]).any (fun p => decide (m ∈ p.nodes)))) =
          rest.filter (fun m => !(bp.any (fun p => decide (m ∈ p.nodes)))) := by
        apply List.filter_congr
        intro m hm
        have hmn : m ≠ n := fun e => hnd.1 (e ▸ hm)
        simp [List.any_append, hmn]
      rw [hcongr]
      simp only [Bool.not_eq_true] at hany
      simp [List.filter_cons, hany]

theorem flatMap_addIsolated (numNodes : Nat) (sel : List Path) :
    (addIsolated (List.range numNodes) sel).flatMap Path.nodes =
      sel.flatMap Path.nodes ++
        (List.range numNodes).filter (fun n => decide (n ∉ sel.flatMap Path.nodes)) := by
  rw [addIsolated_eq _ _ (List.nodup_range _), List.flatMap_append]
  congr 1
  rw [List.flatMap_map]
  have h1 : ∀ l : List Nat, l.flatMap (fun n => [n]) = l := by
    intro l
    induction l with
    | nil => rfl
    | cons a l ih => simp [List.flatMap_cons, ih]
  simp only []
  rw [h1]
  apply List.filter_congr
  intro m _
  by_cases hm : m ∈ sel.flatMap Path.nodes
  · have hany : sel.any (fun p => decide (m ∈ p.nodes)) = true := by
      rw [List.any_eq_true]
      obtain ⟨p, hp, hmp⟩ := List.mem_flatMap.1 hm
      exact ⟨p, hp, by simpa using hmp⟩
    rw [hany]
    simpa using hm
  · have hany : sel.any (fun p => decide (m ∈ p.nodes)) = false := by
      rw [Bool.eq_false_iff]
      intro h
      rw [List.any_eq_true] at h
      obtain ⟨p, hp, hmp⟩ := h
      exact hm (List.mem_flatMap.2 ⟨p, hp, by simpa using hmp⟩)
    rw [hany]
    simpa using hm

/-- The node lists of the result, one after the other, are `0, ..., numNodes - 1` in some
order, as soon as the greedy selections are walks that share no node. -/
theorem perm_addIsolated {numNodes : Nat} {sel : List Path}
    (hnd : (sel.flatMap Path.nodes).Nodup)
    (hlt : ∀ v ∈ sel.flatMap Path.nodes, v < numNodes) :
    ((addIsolated (List.range numNodes) sel).flatMap Path.nodes).Perm
      (List.range numNodes) := by
  rw [flatMap_addIsolated]
  rw [List.perm_ext_iff_of_nodup _ (List.nodup_range _)]
  · intro v
    simp only [List.mem_append, List.mem_filter, List.mem_range, decide_eq_true_eq]
    constructor
    · rintro (h | h)
      · exact hlt v h
      · exact h.1
    · intro h
      by_cases hv : v ∈ sel.flatMap Path.nodes
      · exact Or.inl hv
      · exact Or.inr ⟨h, hv⟩
  · rw [List.nodup_append]
    refine ⟨hnd, (List.nodup_range _).filter _, ?_⟩
    intro v hv hv2
    simp only [List.mem_filter, decide_eq_true_eq] at hv2
    exact hv2.2 hv

theorem mem_addIsolated {numNodes : Nat} {sel : List Path} {p : Path} :
    p ∈ addIsolated (List.range numNodes) sel ↔
      p ∈ sel ∨ ∃ v, v < numNodes ∧ v ∉ sel.flatMap Path.nodes ∧ p = ⟨[v], []⟩ := by
  rw [addIsolated_eq _ _ (List.nodup_range _)]
  simp only [List.mem_append, List.mem_map, List.mem_filter, List.mem_range]
  constructor
  · rintro (h | ⟨v, ⟨hv, hany⟩, rfl⟩)
    · exact Or.inl h
    · refine Or.inr ⟨v, hv, ?_, rfl⟩
      intro hmem
      obtain ⟨q, hq, hvq⟩ := List.mem_flatMap.1 hmem
      have : sel.any (fun p => decide (v ∈ p.nodes)) = true :=
        List.any_eq_true.2 ⟨q, hq, by simpa using hvq⟩
      rw [this] at hany
      exact absurd hany (by simp)
  · rintro (h | ⟨v, hv, hout, rfl⟩)
    · exact Or.inl h
    · refine Or.inr ⟨v, ⟨hv, ?_⟩, rfl⟩
      have : sel.any (fun p => decide (v ∈ p.nodes)) = false := by
        rw [Bool.eq_false_iff]
        intro h
        obtain ⟨q, hq, hvq⟩ := List.any_eq_true.1 h
        exact hout (List.mem_flatMap.2 ⟨q, hq, by simpa using hvq⟩)
      rw [this]
      rfl

/-! ## More fuel gives the same result -/

theorem iterationLoop_mono {call call1 : Path → Nat → List Path → Option (List Path)}
    (hcall : ∀ p b pv r, call p b pv = some r → call1 p b pv = some r) (W : Mat)
    (cols : Nat → ℚ) (c : Nat) (copy : Path) :
    ∀ (bs : List Nat) (j : Nat) (cur : Path) (pv r : List Path),
      iterationLoop call W cols c copy bs j cur pv = some r →
      iterationLoop call1 W cols c copy bs j cur pv = some r := by
  intro bs
  induction bs with
  | nil => intro j cur pv r h; simpa [iterationLoop] using h
  | cons b rest ih =>
    intro j cur pv r h
    unfold iterationLoop at h ⊢
    by_cases h0 : j = 0
    · rw [if_pos h0] at h ⊢
      by_cases hb : cols b = 0
      · simp only [hb, if_true] at h ⊢
        exact ih _ _ _ _ h
      · simp only [hb, if_false] at h ⊢
        cases hc : call (cur.addEdge c b (W b c)) b pv with
        | none => rw [hc] at h; exact absurd h (by simp)
        | some pv1 =>
          rw [hc] at h
          rw [hcall _ _ _ _ hc]
          exact ih _ _ _ _ h
    · rw [if_neg h0] at h ⊢
      by_cases hb : cols b = 0
      · simp only [hb, if_true] at h ⊢
        exact ih _ _ _ _ h
      · simp only [hb, if_false] at h ⊢
        cases hc : call (copy.addEdge c b (W b c)) b pv with
        | none => rw [hc] at h; exact absurd h (by simp)
        | some pv1 =>
          rw [hc] at h
          rw [hcall _ _ _ _ hc]
          exact ih _ _ _ _ h

theorem iteration_succ (W : Mat) (cols : Nat → ℚ) :
    ∀ (fuel : Nat) (p : Path) (c : Nat) (pv r : List Path),
      iteration W cols fuel p c pv = some r → iteration W cols (fuel + 1) p c pv = some r := by
  intro fuel
  induction fuel with
  | zero => intro p c pv r h; exact absurd h (by simp [iteration])
  | succ fuel ih =>
    intro p c pv r h
    unfold iteration at h ⊢
    exact iterationLoop_mono ih W cols c p _ _ _ _ _ h

theorem iteration_mono (W : Mat) (cols : Nat → ℚ) {fuel fuel1 : Nat} (hle : fuel ≤ fuel1)
    (p : Path) (c : Nat) (pv r : List Path) (h : iteration W cols fuel p c pv = some r) :
    iteration W cols fuel1 p c pv = some r := by
  induction hle with
  | refl => exact h
  | step _ ih => exact iteration_succ W cols _ p c pv r ih

theorem computeLoop_mono (W : Mat) (cols : Nat → ℚ) {fuel fuel1 : Nat} (hle : fuel ≤ fuel1) :
    ∀ (ts : List Nat) (pv r : List Path),
      computeLoop fuel W cols ts pv = some r → computeLoop fuel1 W cols ts pv = some r := by
  intro ts
  induction ts with
  | nil => intro pv r h; simpa [computeLoop] using h
  | cons t rest ih =>
    intro pv r h
    unfold computeLoop at h ⊢
    cases hc : iteration W cols fuel Path.empty t pv with
    | none => rw [hc] at h; exact absurd h (by simp)
    | some pv1 =>
      rw [hc] at h
      rw [iteration_mono W cols hle _ _ _ _ hc]
      exact ih _ _ h

theorem computePaths_mono {fuel fuel1 : Nat} (hle : fuel ≤ fuel1) (numNodes : Nat) (W : Mat)
    (pv r : List Path) (h : computePaths fuel numNodes W pv = some r) :
    computePaths fuel1 numNodes W pv = some r := by
  unfold computePaths at h ⊢
  cases hc : computeLoop fuel W (colSum numNodes W) (finalNodes numNodes W) pv with
  | none => rw [hc] at h; exact absurd h (by simp)
  | some pv1 =>
    rw [hc] at h
    rw [computeLoop_mono W _ hle _ _ _ hc]
    exact h

theorem greedyLoop_mono {fuel fuel1 : Nat} (hle : fuel ≤ fuel1) (numNodes : Nat) :
    ∀ (rounds rounds1 : Nat) (cp : List Path) (cur : Nat) (bid : Int) (Wc : Mat)
      (bp r : List Path), rounds ≤ rounds1 →
      greedyLoop fuel numNodes rounds cp cur bid Wc bp = some r →
      greedyLoop fuel1 numNodes rounds1 cp cur bid Wc bp = some r := by
  intro rounds
  induction rounds with
  | zero => intro rounds1 cp cur bid Wc bp r _ h; exact absurd h (by simp [greedyLoop])
  | succ rounds ih =>
    intro rounds1 cp cur bid Wc bp r hr h
    cases rounds1 with
    | zero => omega
    | succ rounds1 =>
      simp only [greedyLoop] at h ⊢
      cases hat : pathAt cp bid with
      | none => rw [hat] at h; exact absurd h (by simp)
      | some best =>
        rw [hat] at h
        simp only [] at h ⊢
        by_cases hstop : best.getNumNodes ≥ cur
        · rw [if_pos hstop] at h ⊢
          exact h
        · rw [if_neg hstop] at h ⊢
          cases hc : computePaths fuel numNodes (removeNodes Wc best.nodes) [] with
          | none => rw [hc] at h; exact absurd h (by simp)
          | some rp =>
            rw [hc] at h
            rw [computePaths_mono hle _ _ _ _ hc]
            simp only [] at h ⊢
            by_cases hne : rp.length > 0
            · rw [if_pos hne] at h ⊢
              cases hn : pathAt rp (bestPathId rp) with
              | none => rw [hn] at h; exact absurd h (by simp)
              | some next =>
                rw [hn] at h
                simp only [] at h ⊢
                exact ih _ _ _ _ _ _ _ (by omega) h
            · rw [if_neg hne] at h ⊢
              exact h

/-- A result of the constructor stays the result with any larger fuel. -/
theorem Graph_mono {fuel fuel1 : Nat} (hle : fuel ≤ fuel1) (numNodes : Nat) (W : Mat)
    (r : List Path) (h : Graph fuel numNodes W = some r) :
    Graph fuel1 numNodes W = some r := by
  unfold Graph at h ⊢
  cases hc : computePaths fuel numNodes W [] with
  | none => rw [hc] at h; exact absurd h (by simp)
  | some paths =>
    rw [hc] at h
    rw [computePaths_mono hle _ _ _ _ hc]
    simp only [] at h ⊢
    by_cases hne : paths.length > 0
    · rw [if_pos hne] at h ⊢
      cases hn : pathAt paths (bestPathId paths) with
      | none => rw [hn] at h; exact absurd h (by simp)
      | some best =>
        rw [hn] at h
        simp only [] at h ⊢
        cases hg : greedyLoop fuel numNodes fuel paths numNodes (bestPathId paths) W [best] with
        | none => rw [hg] at h; exact absurd h (by simp)
        | some bp =>
          rw [hg] at h
          rw [greedyLoop_mono hle numNodes _ _ _ _ _ _ _ _ hle hg]
          exact h
    · rw [if_neg hne] at h ⊢
      exact h

/-! ## Valid inputs -/

theorem ValidInput.noSelfLoop {n : Nat} {W : Mat} (h : ValidInput n W) : NoSelfLoop n W :=
  fun i hi hpos => h.acyclic i (Relation.TransGen.single ⟨hi, hi, hpos⟩)

theorem ValidInput.le_one {n : Nat} {W : Mat} (h : ValidInput n W) :
    ∀ i j, i < n → j < n → W i j ≤ 1 := by
  intro i j hi hj
  rcases h.entries i j hi hj with h0 | h1
  · rw [h0]; exact zero_le_one
  · exact h1.2

/-- A graph whose edges all raise a rank has no cycle. -/
theorem acyclic_of_rank {n : Nat} {W : Mat} (r : Nat → Nat)
    (h : ∀ i j, i < n → j < n → W i j > 0 → r i < r j) : Acyclic n W := by
  intro v hv
  have key : ∀ a b, Relation.TransGen (Edge n W) a b → r a < r b := by
    intro a b hab
    induction hab with
    | single e => exact h _ _ e.1 e.2.1 e.2.2
    | tail _ e ih => exact lt_trans ih (h _ _ e.1 e.2.1 e.2.2)
  exact lt_irrefl _ (key v v hv)

theorem validInput_generateCase2 : ValidInput 5 generateCase2 := by
  refine ⟨by decide, ?_, acyclic_of_rank id ?_⟩
  · intro i j _ _
    unfold generateCase2
    split_ifs
    · right; norm_num
    · left; rfl
  · intro i j _ _
    unfold generateCase2
    split_ifs with h
    · intro _
      simp only [id]
      omega
    · intro h0
      exact absurd h0 (lt_irrefl _)

/-! ## Results -/

/-- Without self-loops the constructor returns a rearrangement of the node indices, cut
into paths. -/
theorem Graph_perm (fuel numNodes : Nat) (W : Mat) (hns : NoSelfLoop numNodes W)
    (hf : numNodes < fuel) :
    ∃ res, Graph fuel numNodes W = some res ∧
      (res.flatMap Path.nodes).Perm (List.range numNodes) := by
  obtain ⟨sel, hres, hsel, _⟩ := Graph_eq fuel numNodes W hns hf
  refine ⟨_, hres, perm_addIsolated (hsel.disjoint_nodes hns) ?_⟩
  intro v hv1
  obtain ⟨p, hp, hvp⟩ := List.mem_flatMap.1 hv1
  exact (hsel.walkPath hns hp).lt v hvp

/-- C1 (partition): on a valid input (at least one node, entries `0` or in `(0, 1]`, no
cycle) the constructor returns, and the node lists of the returned paths, written one after
the other, are a rearrangement of `0, 1, ..., numNodes - 1`: every node index is in exactly
one returned path, exactly once, and nothing else is in any path. -/
theorem partition_of_valid (fuel numNodes : Nat) (W : Mat) (hv : ValidInput numNodes W)
    (hf : numNodes < fuel) :
    ∃ res, Graph fuel numNodes W = some res ∧
      (res.flatMap Path.nodes).Perm (List.range numNodes) := by
  exact Graph_perm fuel numNodes W hv.noSelfLoop hf

theorem partition_of_valid_witness :
    ValidInput 5 generateCase2 ∧
      ∃ res, Graph 6 5 generateCase2 = some res ∧
        (res.flatMap Path.nodes).Perm (List.range 5) :=
  ⟨validInput_generateCase2,
    partition_of_valid 6 5 generateCase2 validInput_generateCase2 (by decide)⟩

/-- C2 (edge alignment): on a valid input the constructor returns, and in every returned path
with nodes `n[0..k-1]` the weight list has `k - 1` entries and, for every `i` with
`i + 1 < k`, entry `i` is the entry `W (n[i]) (n[i+1])` of the original input matrix, which is
positive: the path is a directed walk of the input graph read from start to end. -/
theorem edge_alignment (fuel numNodes : Nat) (W : Mat) (hv : ValidInput numNodes W)
    (hf : numNodes < fuel) :
    ∃ res, Graph fuel numNodes W = some res ∧
      ∀ p ∈ res, p.weights.length = p.nodes.length - 1 ∧
        ∀ i, i + 1 < p.nodes.length →
          p.weights[i]? = some (W (p.nodes.getD i 0) (p.nodes.getD (i + 1) 0)) ∧
            W (p.nodes.getD i 0) (p.nodes.getD (i + 1) 0) > 0 := by
  obtain ⟨sel, hres, hsel, _⟩ := Graph_eq fuel numNodes W hv.noSelfLoop hf
  refine ⟨_, hres, ?_⟩
  intro p hp
  rcases mem_addIsolated.1 hp with hp | ⟨v, _, _, rfl⟩
  · have hw := hsel.walkPath hv.noSelfLoop hp
    refine ⟨hw.length_weights, ?_⟩
    intro i hi
    rw [hw.weights_eq]
    exact ⟨walkWeights_get W p.nodes i hi, chain_edge_get p.nodes i hw.edges hi⟩
  · refine ⟨rfl, ?_⟩
    intro i hi
    simp at hi

theorem edge_alignment_witness :
    ValidInput 5 generateCase2 ∧
      ∃ res, Graph 6 5 generateCase2 = some res ∧
        ∀ p ∈ res, p.weights.length = p.nodes.length - 1 ∧
          ∀ i, i + 1 < p.nodes.length →
            p.weights[i]? =
                some (generateCase2 (p.nodes.getD i 0) (p.nodes.getD (i + 1) 0)) ∧
              generateCase2 (p.nodes.getD i 0) (p.nodes.getD (i + 1) 0) > 0 :=
  ⟨validInput_generateCase2,
    edge_alignment 6 5 generateCase2 validInput_generateCase2 (by decide)⟩

theorem getWeight_single (v : Nat) : (⟨[v], []⟩ : Path).getWeight = 0 := by
  simp [getWeight_eq]

/-- C5 (greedy removal): for a valid matrix `W` and a path `P` (in particular one selected by
a greedy round), the enumeration of `W` with the rows and columns of the nodes of `P` set
to `0` returns, and none of its paths contains a node of `P`; and the paths that the
constructor returns are pairwise node-disjoint. -/
theorem greedy_removal (fuel numNodes : Nat) (W : Mat) (hv : ValidInput numNodes W)
    (hf : numNodes < fuel) (P : Path) :
    (∃ paths, computePaths fuel numNodes (removeNodes W P.nodes) [] = some paths ∧
      ∀ p ∈ paths, ∀ v ∈ P.nodes, v ∉ p.nodes) ∧
    (∃ res, Graph fuel numNodes W = some res ∧
      res.Pairwise (fun p q => ∀ v ∈ p.nodes, v ∉ q.nodes)) := by
  constructor
  · refine ⟨_, computePaths_eq fuel numNodes _ (hv.noSelfLoop.removeNodes P.nodes)
      (le_of_lt hf), ?_⟩
    intro p hp v hvP hvp
    exact (enumerated_walkPath (hv.noSelfLoop.removeNodes P.nodes) hp).of_removeNodes.2
      v hvp hvP
  · obtain ⟨res, hres, hperm⟩ := Graph_perm fuel numNodes W hv.noSelfLoop hf
    refine ⟨res, hres, ?_⟩
    have hnd : (res.flatMap Path.nodes).Nodup := hperm.nodup_iff.2 (List.nodup_range _)
    rw [List.nodup_flatMap] at hnd
    exact hnd.2.imp (fun {p q} hpq v hvp hvq => hpq hvp hvq)

theorem greedy_removal_witness :
    ValidInput 5 generateCase2 ∧
      ((∃ paths, computePaths 6 5 (removeNodes generateCase2 [1, 2, 3]) [] = some paths ∧
        ∀ p ∈ paths, ∀ v ∈ [1, 2, 3], v ∉ p.nodes) ∧
      (∃ res, Graph 6 5 generateCase2 = some res ∧
        res.Pairwise (fun p q => ∀ v ∈ p.nodes, v ∉ q.nodes))) :=
  ⟨validInput_generateCase2,
    greedy_removal 6 5 generateCase2 validInput_generateCase2 (by decide)
      ⟨[1, 2, 3], [1 / 2, 1 / 2]⟩⟩

/-- C6 (weight bounds): on a valid input, whose entries are `0` or in `(0, 1]`, the
constructor returns, every returned path with two or more nodes has a weight in `(0, 1]`,
and every returned path with a single node has weight `0`. -/
theorem weight_bounds (fuel numNodes : Nat) (W : Mat) (hv : ValidInput numNodes W)
    (hf : numNodes < fuel) :
    ∃ res, Graph fuel numNodes W = some res ∧
      ∀ p ∈ res, (2 ≤ p.nodes.length → 0 < p.getWeight ∧ p.getWeight ≤ 1) ∧
        (p.nodes.length = 1 → p.getWeight = 0) := by
  obtain ⟨sel, hres, hsel, _⟩ := Graph_eq fuel numNodes W hv.noSelfLoop hf
  refine ⟨_, hres, ?_⟩
  intro p hp
  rcases mem_addIsolated.1 hp with hp | ⟨v, _, _, rfl⟩
  · have hw := hsel.walkPath hv.noSelfLoop hp
    constructor
    · intro _
      refine ⟨hw.weight_pos, getWeight_le_one hw.weights_ne_nil ?_⟩
      rw [hw.weights_eq]
      exact walkWeights_le hv.le_one p.nodes hw.lt
    · intro h1
      have := hw.two_le
      omega
  · constructor
    · intro h2
      simp at h2
    · intro _
      exact getWeight_single v

theorem weight_bounds_witness :
    ValidInput 5 generateCase2 ∧
      ∃ res, Graph 6 5 generateCase2 = some res ∧
        ∀ p ∈ res, (2 ≤ p.nodes.length → 0 < p.getWeight ∧ p.getWeight ≤ 1) ∧
          (p.nodes.length = 1 → p.getWeight = 0) :=
  ⟨validInput_generateCase2,
    weight_bounds 6 5 generateCase2 validInput_generateCase2 (by decide)⟩

theorem noSelfLoop_generateCase2 : NoSelfLoop 5 generateCase2 :=
  validInput_generateCase2.noSelfLoop

theorem computePaths_generateCase2 :
    computePaths 5 5 generateCase2 [] =
      some [⟨[1, 2, 3], [1 / 2, 1 / 2]⟩, ⟨[0, 2, 3], [1 / 2, 1 / 2]⟩,
        ⟨[1, 2, 4], [1 / 2, 1 / 2]⟩, ⟨[0, 2, 4], [1 / 2, 1 / 2]⟩] := by
  with_unfolding_all decide

theorem Graph_generateCase2 :
    Graph 6 5 generateCase2 = some [⟨[1, 2, 3], [1 / 2, 1 / 2]⟩, ⟨[0], []⟩, ⟨[4], []⟩] := by
  with_unfolding_all decide

theorem getWeightFloat_id (p : Path) : p.getWeightFloat (fun x => x) = p.getWeight := rfl

theorem bestScanFloat_id :
    ∀ (ps : List Path) (i : Nat) (bid : Int) (bw : ℚ),
      bestScanFloat (fun x => x) ps i bid bw = bestScan ps i bid bw := by
  intro ps
  induction ps with
  | nil => intro i bid bw; rfl
  | cons p rest ih =>
    intro i bid bw
    simp only [bestScanFloat, bestScan, getWeightFloat_id, ih]

theorem bestPathIdFloat_id (ps : List Path) : bestPathIdFloat (fun x => x) ps = bestPathId ps :=
  bestScanFloat_id ps 0 (-1) 0

theorem greedyLoopFloat_id (fuel numNodes : Nat) :
    ∀ (rounds : Nat) (cp : List Path) (cur : Nat) (bid : Int) (Wc : Mat) (bp : List Path),
      greedyLoopFloat (fun x => x) fuel numNodes rounds cp cur bid Wc bp =
        greedyLoop fuel numNodes rounds cp cur bid Wc bp := by
  intro rounds
  induction rounds with
  | zero => intro cp cur bid Wc bp; rfl
  | succ rounds ih =>
    intro cp cur bid Wc bp
    simp only [greedyLoopFloat, greedyLoop, bestPathIdFloat_id, ih]

/-- With exact arithmetic in place of the rounding, the constructor with `float` weights is
the constructor with exact weights. -/
theorem GraphFloat_id (fuel numNodes : Nat) (W : Mat) :
    GraphFloat (fun x => x) fuel numNodes W = Graph fuel numNodes W := by
  simp only [GraphFloat, Graph, bestPathIdFloat_id, greedyLoopFloat_id]

theorem bestScanFloat_spec (rnd : ℚ → ℚ) :
    ∀ (ps : List Path) (i : Nat) (bid : Int) (bw : ℚ),
      (bestScanFloat rnd ps i bid bw = bid ∧ ∀ p ∈ ps, p.getWeightFloat rnd ≤ bw) ∨
      (∃ (k : Nat) (best : Path), bestScanFloat rnd ps i bid bw = ((i + k : Nat) : Int) ∧
        bw < best.getWeightFloat rnd ∧ IsFirstMaxBy (Path.getWeightFloat rnd) ps k best) := by
  intro ps
  induction ps with
  | nil => intro i bid bw; left; simp [bestScanFloat]
  | cons p rest ih =>
    intro i bid bw
    unfold bestScanFloat
    by_cases hp : p.getWeightFloat rnd > bw
    · rw [if_pos hp]
      right
      rcases ih (i + 1) (i : Int) (p.getWeightFloat rnd) with
        ⟨h1, h2⟩ | ⟨k, best, h1, h2, h3, h4, h5⟩
      · refine ⟨0, p, by simpa using h1, hp, by simp, ?_, ?_⟩
        · intro q hq
          rcases List.mem_cons.1 hq with rfl | hq
          · exact le_refl _
          · exact h2 q hq
        · intro j q hj; omega
      · refine ⟨k + 1, best, ?_, lt_trans hp h2, by simpa using h3, ?_, ?_⟩
        · rw [h1]; congr 1; omega
        · intro q hq
          rcases List.mem_cons.1 hq with rfl | hq
          · exact le_of_lt h2
          · exact h4 q hq
        · intro j q hj hq
          cases j with
          | zero =>
            simp only [List.getElem?_cons_zero, Option.some.injEq] at hq
            subst hq
            exact h2
          | succ j =>
            simp only [List.getElem?_cons_succ] at hq
            exact h5 j q (by omega) hq
    · rw [if_neg hp]
      have hp1 : p.getWeightFloat rnd ≤ bw := not_lt.1 hp
      rcases ih (i + 1) bid bw with ⟨h1, h2⟩ | ⟨k, best, h1, h2, h3, h4, h5⟩
      · left
        refine ⟨h1, ?_⟩
        intro q hq
        rcases List.mem_cons.1 hq with rfl | hq
        · exact hp1
        · exact h2 q hq
      · right
        refine ⟨k + 1, best, ?_, h2, by simpa using h3, ?_, ?_⟩
        · rw [h1]; congr 1; omega
        · intro q hq
          rcases List.mem_cons.1 hq with rfl | hq
          · exact le_of_lt (lt_of_le_of_lt hp1 h2)
          · exact h4 q hq
        · intro j q hj hq
          cases j with
          | zero =>
            simp only [List.getElem?_cons_zero, Option.some.injEq] at hq
            subst hq
            exact lt_of_le_of_lt hp1 h2
          | succ j =>
            simp only [List.getElem?_cons_succ] at hq
            exact h5 j q (by omega) hq

theorem bestPathIdFloat_spec (rnd : ℚ → ℚ) (ps : List Path)
    (h : ∃ p ∈ ps, 0 < p.getWeightFloat rnd) :
    ∃ (k : Nat) (best : Path), bestPathIdFloat rnd ps = (k : Int) ∧
      pathAt ps (bestPathIdFloat rnd ps) = some best ∧
      IsFirstMaxBy (Path.getWeightFloat rnd) ps k best := by
  unfold bestPathIdFloat
  rcases bestScanFloat_spec rnd ps 0 (-1) 0 with ⟨_, h2⟩ | ⟨k, best, h1, _, h3⟩
  · obtain ⟨p, hp, hpos⟩ := h
    exact absurd (h2 p hp) (not_le.2 hpos)
  · refine ⟨k, best, by simpa using h1, ?_, h3⟩
    rw [h1]
    simp [pathAt, h3.1]

/-- The greedy loop with `float` weights on a matrix without self-loops, when every
enumerated path of every round has a positive `float` weight: it returns, every path it
appends is the first maximum of the enumeration of its round, and it stops because the
selections hold `numNodes` nodes or more or because that enumeration is empty. -/
theorem greedyLoopFloat_spec (rnd : ℚ → ℚ) (fuel numNodes : Nat) (W : Mat)
    (hns : NoSelfLoop numNodes W) (hf : numNodes ≤ fuel)
    (hpos : ∀ Z, ∀ p ∈ enumerated fuel numNodes (removeNodes W Z), 0 < p.getWeightFloat rnd) :
    ∀ (rounds : Nat) (cp : List Path) (cur : Nat) (bid : Int) (prev : List Path)
      (best : Path),
      cur < rounds → pathAt cp bid = some best → 1 ≤ best.nodes.length →
      cur + (prev.flatMap Path.nodes).length = numNodes →
      ∃ extra,
        greedyLoopFloat rnd fuel numNodes rounds cp cur bid
            (removeNodes W (prev.flatMap Path.nodes)) (prev ++ [best]) =
          some (prev ++ [best] ++ extra) ∧
        (∀ pre p post, extra = pre ++ p :: post →
          ∃ k, IsFirstMaxBy (Path.getWeightFloat rnd)
            (enumerated fuel numNodes
              (removeNodes W ((prev ++ [best] ++ pre).flatMap Path.nodes))) k p) ∧
        (numNodes ≤ ((prev ++ [best] ++ extra).flatMap Path.nodes).length ∨
          enumerated fuel numNodes
            (removeNodes W ((prev ++ [best] ++ extra).flatMap Path.nodes)) = []) := by
  intro rounds
  induction rounds with
  | zero => intro cp cur bid prev best h; omega
  | succ rounds ih =>
    intro cp cur bid prev best hcur hat hlen hsum
    have hW : removeNodes (removeNodes W (prev.flatMap Path.nodes)) best.nodes =
        removeNodes W ((prev ++ [best]).flatMap Path.nodes) := by
      rw [removeNodes_append]; simp
    have hns1 := hns.removeNodes ((prev ++ [best]).flatMap Path.nodes)
    have hE := computePaths_eq fuel numNodes _ hns1 hf
    have hnum : best.getNumNodes = best.nodes.length := rfl
    have hlen1 : ((prev ++ [best]).flatMap Path.nodes).length =
        (prev.flatMap Path.nodes).length + best.nodes.length := by
      simp
    simp only [greedyLoopFloat, hat]
    by_cases hstop : best.getNumNodes ≥ cur
    · refine ⟨[], by simp [hstop], ?_, Or.inl ?_⟩
      · intro pre p post h
        exact absurd h (by simp)
      · rw [List.append_nil, hlen1]
        omega
    · rw [if_neg hstop, hW, hE]
      simp only []
      by_cases hne : (enumerated fuel numNodes
          (removeNodes W ((prev ++ [best]).flatMap Path.nodes))).length > 0
      · rw [if_pos hne]
        obtain ⟨p0, hp0⟩ := List.exists_mem_of_ne_nil _ (List.length_pos.1 hne)
        obtain ⟨k, next, _, hnext, hmax⟩ := bestPathIdFloat_spec rnd _
          ⟨p0, hp0, hpos _ p0 hp0⟩
        have hwalk := enumerated_walkPath hns1 (pathAt_mem hnext)
        rw [hnext]
        simp only []
        obtain ⟨extra, hres, hsel, hstopc⟩ := ih _ (cur - best.getNumNodes) _ (prev ++ [best])
          next (by omega) hnext (by have := hwalk.two_le; omega) (by rw [hlen1]; omega)
        have hassoc : prev ++ [best] ++ next :: extra = prev ++ [best] ++ [next] ++ extra := by
          simp
        refine ⟨next :: extra, ?_, ?_, ?_⟩
        · rw [hres]; simp
        · intro pre p post h
          cases pre with
          | nil =>
            simp only [List.nil_append, List.cons.injEq] at h
            rw [← h.1, List.append_nil]
            exact ⟨k, hmax⟩
          | cons a pre =>
            simp only [List.cons_append, List.cons.injEq] at h
            obtain ⟨k1, hk1⟩ := hsel pre p post h.2
            rw [← h.1]
            refine ⟨k1, ?_⟩
            have hassoc1 : prev ++ [best] ++ next :: pre = prev ++ [best] ++ [next] ++ pre := by
              simp
            rw [hassoc1]
            exact hk1
        · rw [hassoc]
          exact hstopc
      · rw [if_neg hne]
        refine ⟨[], by simp, ?_, Or.inr ?_⟩
        · intro pre p post h
          exact absurd h (by simp)
        · rw [List.append_nil]
          exact List.length_eq_zero.1 (by omega)

/-- The constructor with `float` weights, under the same hypotheses: the result is the
greedy selections followed by the isolated nodes. -/
theorem GraphFloat_spec (rnd : ℚ → ℚ) (fuel numNodes : Nat) (W : Mat)
    (hns : NoSelfLoop numNodes W) (hf : numNodes < fuel)
    (hpos : ∀ Z, ∀ p ∈ enumerated fuel numNodes (removeNodes W Z), 0 < p.getWeightFloat rnd) :
    ∃ sel, GraphFloat rnd fuel numNodes W = some (addIsolated (List.range numNodes) sel) ∧
      (∀ pre p post, sel = pre ++ p :: post →
        ∃ k, IsFirstMaxBy (Path.getWeightFloat rnd)
          (enumerated fuel numNodes (removeNodes W (pre.flatMap Path.nodes))) k p) ∧
      (numNodes ≤ (sel.flatMap Path.nodes).length ∨
        enumerated fuel numNodes (removeNodes W (sel.flatMap Path.nodes)) = []) := by
  have hE := computePaths_eq fuel numNodes W hns (le_of_lt hf)
  have h0 : removeNodes W [] = W := rfl
  unfold GraphFloat
  rw [hE]
  simp only []
  by_cases hne : (enumerated fuel numNodes W).length > 0
  · rw [if_pos hne]
    obtain ⟨p0, hp0⟩ := List.exists_mem_of_ne_nil _ (List.length_pos.1 hne)
    have hp0pos : 0 < p0.getWeightFloat rnd := hpos [] p0 (by rw [h0]; exact hp0)
    obtain ⟨k, best, _, hbest, hmax⟩ := bestPathIdFloat_spec rnd _ ⟨p0, hp0, hp0pos⟩
    have hwalk := enumerated_walkPath hns (pathAt_mem hbest)
    rw [hbest]
    simp only []
    obtain ⟨extra, hres, hsel, hstop⟩ := greedyLoopFloat_spec rnd fuel numNodes W hns
      (le_of_lt hf) hpos fuel (enumerated fuel numNodes W) numNodes
      (bestPathIdFloat rnd (enumerated fuel numNodes W)) [] best hf hbest
      (by have := hwalk.two_le; omega) (by simp)
    simp only [List.flatMap_nil, List.nil_append] at hres hsel hstop
    rw [h0] at hres
    rw [hres]
    refine ⟨best :: extra, by simp, ?_, by simpa using hstop⟩
    intro pre p post h
    cases pre with
    | nil =>
      simp only [List.nil_append, List.cons.injEq] at h
      rw [← h.1]
      simp only [List.flatMap_nil]
      rw [h0]
      exact ⟨k, hmax⟩
    | cons a pre =>
      simp only [List.cons_append, List.cons.injEq] at h
      obtain ⟨k1, hk1⟩ := hsel pre p post h.2
      rw [← h.1]
      exact ⟨k1, by simpa using hk1⟩
  · rw [if_neg hne]
    refine ⟨[], rfl, ?_, Or.inr ?_⟩
    · intro pre p post h
      exact absurd h (by simp)
    · simp only [List.flatMap_nil]
      rw [h0]
      exact List.length_eq_zero.1 (by omega)

theorem foldl_round_nonneg (rnd : ℚ → ℚ) (hrnd : ∀ x, 0 < x → 0 < rnd x) :
    ∀ (ws : List ℚ) (s : ℚ), (∀ w ∈ ws, 0 < w) → (0 < s ∨ (s = 0 ∧ ws = [])) ∨ (0 ≤ s ∧ ws ≠ []) →
      (ws ≠ [] → 0 < ws.foldl (fun s w => rnd (s + w)) s) := by
  intro ws
  induction ws with
  | nil => intro s _ _ h; exact absurd rfl h
  | cons w rest ih =>
    intro s hw hs _
    have hw0 : 0 < w := hw w (List.mem_cons_self _ _)
    have hs0 : 0 ≤ s := by
      rcases hs with (h | h) | h
      · exact le_of_lt h
      · exact le_of_eq h.1.symm
      · exact h.1
    have hpos : 0 < rnd (s + w) := hrnd _ (by linarith)
    simp only [List.foldl_cons]
    cases rest with
    | nil => simpa using hpos
    | cons r rest =>
      exact ih (rnd (s + w)) (fun x hx => hw x (List.mem_cons_of_mem _ hx))
        (Or.inr ⟨le_of_lt hpos, by simp⟩) (by simp)

/-- When the rounding never turns a positive value into zero, the `float` weight of a path
with positive weights is positive. -/
theorem getWeightFloat_pos (rnd : ℚ → ℚ) (hrnd : ∀ x, 0 < x → 0 < rnd x) {p : Path}
    (hne : p.weights ≠ []) (hpos : ∀ w ∈ p.weights, 0 < w) : 0 < p.getWeightFloat rnd := by
  unfold Path.getWeightFloat
  have hlen : 0 < p.weights.length := List.length_pos.2 hne
  have hsum := foldl_round_nonneg rnd hrnd p.weights 0 hpos (Or.inr ⟨le_refl _, hne⟩) hne
  simp only [gt_iff_lt, hlen, if_true]
  apply hrnd
  apply div_pos hsum
  apply hrnd
  exact_mod_cast hlen

theorem enumerated_float_pos (rnd : ℚ → ℚ) (hrnd : ∀ x, 0 < x → 0 < rnd x)
    {fuel numNodes : Nat} {W : Mat} (hns : NoSelfLoop numNodes W) (hf : numNodes ≤ fuel) :
    ∀ Z paths, computePaths fuel numNodes (removeNodes W Z) [] = some paths →
      ∀ p ∈ paths, 0 < p.getWeightFloat rnd := by
  intro Z paths hpaths p hp
  rw [computePaths_eq fuel numNodes _ (hns.removeNodes Z) hf] at hpaths
  rw [← Option.some.inj hpaths] at hp
  have hw := enumerated_walkPath (hns.removeNodes Z) hp
  refine getWeightFloat_pos rnd hrnd hw.weights_ne_nil ?_
  rw [hw.weights_eq]
  exact walkWeights_pos p.nodes hw.edges

theorem getWeightFloat_halves (rnd : ℚ → ℚ) (h12 : rnd (1 / 2) = 1 / 2) (h1 : rnd 1 = 1)
    (h2 : rnd 2 = 2) (nodes : List Nat) :
    (⟨nodes, [1 / 2, 1 / 2]⟩ : Path).getWeightFloat rnd = 1 / 2 := by
  have e1 : rnd (0 + 1 / 2) = 1 / 2 := by rw [zero_add]; exact h12
  have e2 : rnd (1 / 2 + 1 / 2) = 1 := by
    have : (1 / 2 + 1 / 2 : ℚ) = 1 := by norm_num
    rw [this]; exact h1
  have e3 : rnd ((2 : ℕ) : ℚ) = 2 := by
    have : ((2 : ℕ) : ℚ) = 2 := by norm_num
    rw [this]; exact h2
  have e4 : rnd (1 / 2 : ℚ) = 1 / 2 := h12
  show (if (2 : ℕ) > 0 then
    rnd (rnd (rnd (0 + 1 / 2) + 1 / 2) / rnd ((2 : ℕ) : ℚ))
    else rnd (rnd (0 + 1 / 2) + 1 / 2)) = 1 / 2
  rw [if_pos (by decide), e1, e2, e3, e4]

theorem computePaths_removed_generateCase2 :
    computePaths 5 5 (removeNodes generateCase2 [1, 2, 3]) [] = some [] := by
  with_unfolding_all decide

theorem addIsolated_generateCase2 :
    addIsolated (List.range 5) [⟨[1, 2, 3], [1 / 2, 1 / 2]⟩] =
      [⟨[1, 2, 3], [1 / 2, 1 / 2]⟩, ⟨[0], []⟩, ⟨[4], []⟩] := by
  with_unfolding_all decide

theorem GraphFloat_generateCase2 (rnd : ℚ → ℚ) (h12 : rnd (1 / 2) = 1 / 2) (h1 : rnd 1 = 1)
    (h2 : rnd 2 = 2) (fuel : Nat) (hf : 5 < fuel) :
    GraphFloat rnd fuel 5 generateCase2 =
      some [⟨[1, 2, 3], [1 / 2, 1 / 2]⟩, ⟨[0], []⟩, ⟨[4], []⟩] := by
  have hw := getWeightFloat_halves rnd h12 h1 h2
  have hc := computePaths_mono (show 5 ≤ fuel by omega) 5 generateCase2 [] _
    computePaths_generateCase2
  have hrem := computePaths_mono (show 5 ≤ fuel by omega) 5
    (removeNodes generateCase2 [1, 2, 3]) [] _ computePaths_removed_generateCase2
  have hbid : bestPathIdFloat rnd
      [⟨[1, 2, 3], [1 / 2, 1 / 2]⟩, ⟨[0, 2, 3], [1 / 2, 1 / 2]⟩,
        ⟨[1, 2, 4], [1 / 2, 1 / 2]⟩, ⟨[0, 2, 4], [1 / 2, 1 / 2]⟩] = 0 := by
    simp only [bestPathIdFloat, bestScanFloat, hw]
    norm_num
  obtain ⟨k, rfl⟩ : ∃ k, fuel = k + 1 := ⟨fuel - 1, by omega⟩
  unfold GraphFloat
  rw [hc]
  simp only [hbid]
  have hat : pathAt
      [(⟨[1, 2, 3], [1 / 2, 1 / 2]⟩ : Path), ⟨[0, 2, 3], [1 / 2, 1 / 2]⟩,
        ⟨[1, 2, 4], [1 / 2, 1 / 2]⟩, ⟨[0, 2, 4], [1 / 2, 1 / 2]⟩] 0 =
      some ⟨[1, 2, 3], [1 / 2, 1 / 2]⟩ := rfl
  simp only [List.length_cons, List.length_nil, gt_iff_lt, Nat.zero_lt_succ, if_true, hat,
    greedyLoopFloat]
  have hnum : (⟨[1, 2, 3], [1 / 2, 1 / 2]⟩ : Path).getNumNodes = 3 := rfl
  simp only [hnum, ge_iff_le, show ¬ (5 ≤ 3) by decide, if_false, hrem, List.length_nil,
    lt_self_iff_false, addIsolated_generateCase2]

theorem getWeightFloat_one_small (rnd : ℚ → ℚ) (h12 : rnd (1 / 2) = 1 / 2) (h1 : rnd 1 = 1)
    (h2 : rnd 2 = 2) (w : ℚ) (hw : rnd (1 + w) = 1) (nodes : List Nat) :
    (⟨nodes, [1, w]⟩ : Path).getWeightFloat rnd = 1 / 2 := by
  have e1 : rnd (0 + 1) = 1 := by rw [zero_add]; exact h1
  have e3 : rnd ((2 : ℕ) : ℚ) = 2 := by
    have : ((2 : ℕ) : ℚ) = 2 := by norm_num
    rw [this]; exact h2
  show (if (2 : ℕ) > 0 then
    rnd (rnd (rnd (0 + 1) + w) / rnd ((2 : ℕ) : ℚ))
    else rnd (rnd (0 + 1) + w)) = 1 / 2
  rw [if_pos (by decide), e1, hw, e3, h12]

theorem computePaths_roundingTie :
    computePaths 4 4 roundingTie [] =
      some [⟨[0, 1, 2], [1, 1 / 33554432]⟩, ⟨[0, 1, 3], [1, 1 / 16777216]⟩] := by
  with_unfolding_all rfl

theorem computePaths_removed_roundingTie :
    computePaths 4 4 (removeNodes roundingTie [0, 1, 2]) [] = some [] := by
  with_unfolding_all rfl

theorem addIsolated_roundingTie :
    addIsolated (List.range 4) [⟨[0, 1, 2], [1, 1 / 33554432]⟩] =
      [⟨[0, 1, 2], [1, 1 / 33554432]⟩, ⟨[3], []⟩] := by
  with_unfolding_all rfl

/-- On `roundingTie` the exact means differ (the second path is the larger), so the
constructor with exact weights selects `[0,1,3]`. -/
theorem Graph_roundingTie :
    Graph 5 4 roundingTie = some [⟨[0, 1, 3], [1, 1 / 16777216]⟩, ⟨[2], []⟩] := by
  with_unfolding_all rfl

/-- On `roundingTie`, when `1 + 2^-25` and `1 + 2^-24` both round to `1` (as they do in
binary32), both `float` weights are `0.5` and the first path, `[0,1,2]`, is selected. -/
theorem GraphFloat_roundingTie (rnd : ℚ → ℚ) (h12 : rnd (1 / 2) = 1 / 2) (h1 : rnd 1 = 1)
    (h2 : rnd 2 = 2) (ha : rnd (1 + 1 / 33554432) = 1) (hb : rnd (1 + 1 / 16777216) = 1)
    (fuel : Nat) (hf : 4 < fuel) :
    GraphFloat rnd fuel 4 roundingTie = some [⟨[0, 1, 2], [1, 1 / 33554432]⟩, ⟨[3], []⟩] := by
  have hwa := getWeightFloat_one_small rnd h12 h1 h2 _ ha
  have hwb := getWeightFloat_one_small rnd h12 h1 h2 _ hb
  have hc := computePaths_mono (show 4 ≤ fuel by omega) 4 roundingTie [] _
    computePaths_roundingTie
  have hrem := computePaths_mono (show 4 ≤ fuel by omega) 4
    (removeNodes roundingTie [0, 1, 2]) [] _ computePaths_removed_roundingTie
  have hbid : bestPathIdFloat rnd
      [⟨[0, 1, 2], [1, 1 / 33554432]⟩, ⟨[0, 1, 3], [1, 1 / 16777216]⟩] = 0 := by
    simp only [bestPathIdFloat, bestScanFloat, hwa, hwb]
    norm_num
  obtain ⟨k, rfl⟩ : ∃ k, fuel = k + 1 := ⟨fuel - 1, by omega⟩
  unfold GraphFloat
  rw [hc]
  simp only [hbid]
  have hat : pathAt
      [(⟨[0, 1, 2], [1, 1 / 33554432]⟩ : Path), ⟨[0, 1, 3], [1, 1 / 16777216]⟩] 0 =
      some ⟨[0, 1, 2], [1, 1 / 33554432]⟩ := rfl
  simp only [List.length_cons, List.length_nil, gt_iff_lt, Nat.zero_lt_succ, if_true, hat,
    greedyLoopFloat]
  have hnum : (⟨[0, 1, 2], [1, 1 / 33554432]⟩ : Path).getNumNodes = 3 := rfl
  simp only [hnum, ge_iff_le, show ¬ (4 ≤ 3) by decide, if_false, hrem, List.length_nil,
    lt_self_iff_false, addIsolated_roundingTie]

/-- C4 (greedy choice, first-seen tie-break), for the weights as the machine computes them:
`getWeightFloat rnd` is `getWeight` in `float` arithmetic with rounding `rnd`, whatever the
rounding.  On a matrix without self-loops (so on every valid input), when the `float`
weight of every enumerated path of every round is positive, the constructor returns the
selected paths `sel` followed by the isolated nodes; every selected path `p`, coming after
the selections `pre`, stands at a position `k` of the enumeration of its round (the matrix
without the nodes of `pre`), no path of that enumeration has a larger `float` weight, and
every path at a smaller position has a strictly smaller one; and the selection ends only
when the selected paths hold `numNodes` nodes or when the enumeration of the round is
empty, so every round with a non-empty enumeration appends a path.  For `generateCase2`,
with a rounding that keeps `1/2`, `1` and `2`, the four enumerated paths all weigh `1/2`,
the first one, `[1,2,3]`, is selected, and the result is `[1,2,3], [0], [4]`.  For
`roundingTie`, with a rounding that takes `1 + 2^-25` and `1 + 2^-24` to `1`, the two paths
tie and the first one, `[0,1,2]`, is selected. -/
theorem greedy_choice :
    (∀ (rnd : ℚ → ℚ) (fuel numNodes : Nat) (W : Mat), NoSelfLoop numNodes W →
      numNodes < fuel →
      (∀ Z paths, computePaths fuel numNodes (removeNodes W Z) [] = some paths →
        ∀ p ∈ paths, 0 < p.getWeightFloat rnd) →
      ∃ sel, GraphFloat rnd fuel numNodes W = some (addIsolated (List.range numNodes) sel) ∧
        (∀ pre p post, sel = pre ++ p :: post →
          ∃ paths k,
            computePaths fuel numNodes (removeNodes W (pre.flatMap Path.nodes)) [] =
              some paths ∧
            IsFirstMaxBy (Path.getWeightFloat rnd) paths k p) ∧
        (numNodes ≤ (sel.flatMap Path.nodes).length ∨
          computePaths fuel numNodes (removeNodes W (sel.flatMap Path.nodes)) [] =
            some [])) ∧
    (∀ rnd : ℚ → ℚ, rnd (1 / 2) = 1 / 2 → rnd 1 = 1 → rnd 2 = 2 →
      (∀ nodes ∈ [[1, 2, 3], [0, 2, 3], [1, 2, 4], [0, 2, 4]],
        (⟨nodes, [1 / 2, 1 / 2]⟩ : Path).getWeightFloat rnd = 1 / 2) ∧
      ∀ fuel, 5 < fuel →
        computePaths fuel 5 generateCase2 [] =
          some [⟨[1, 2, 3], [1 / 2, 1 / 2]⟩, ⟨[0, 2, 3], [1 / 2, 1 / 2]⟩,
            ⟨[1, 2, 4], [1 / 2, 1 / 2]⟩, ⟨[0, 2, 4], [1 / 2, 1 / 2]⟩] ∧
        GraphFloat rnd fuel 5 generateCase2 =
          some [⟨[1, 2, 3], [1 / 2, 1 / 2]⟩, ⟨[0], []⟩, ⟨[4], []⟩]) ∧
    (∀ rnd : ℚ → ℚ, rnd (1 / 2) = 1 / 2 → rnd 1 = 1 → rnd 2 = 2 →
      rnd (1 + 1 / 33554432) = 1 → rnd (1 + 1 / 16777216) = 1 →
      ∀ fuel, 4 < fuel →
        computePaths fuel 4 roundingTie [] =
          some [⟨[0, 1, 2], [1, 1 / 33554432]⟩, ⟨[0, 1, 3], [1, 1 / 16777216]⟩] ∧
        GraphFloat rnd fuel 4 roundingTie =
          some [⟨[0, 1, 2], [1, 1 / 33554432]⟩, ⟨[3], []⟩]) := by
  refine ⟨?_, ?_, ?_⟩
  · intro rnd fuel numNodes W hns hf hpos
    have hpos1 : ∀ Z, ∀ p ∈ enumerated fuel numNodes (removeNodes W Z),
        0 < p.getWeightFloat rnd := by
      intro Z p hp
      exact hpos Z _ (computePaths_eq fuel numNodes _ (hns.removeNodes Z) (le_of_lt hf)) p hp
    obtain ⟨sel, hres, hsel, hstop⟩ := GraphFloat_spec rnd fuel numNodes W hns hf hpos1
    refine ⟨sel, hres, ?_, ?_⟩
    · intro pre p post hsplit
      obtain ⟨k, hk⟩ := hsel pre p post hsplit
      exact ⟨_, k, computePaths_eq fuel numNodes _ (hns.removeNodes _) (le_of_lt hf), hk⟩
    · rcases hstop with h | h
      · exact Or.inl h
      · right
        rw [computePaths_eq fuel numNodes _ (hns.removeNodes _) (le_of_lt hf), h]
  · intro rnd h12 h1 h2
    refine ⟨fun nodes _ => getWeightFloat_halves rnd h12 h1 h2 nodes, ?_⟩
    intro fuel hf
    exact ⟨computePaths_mono (by omega) 5 generateCase2 [] _ computePaths_generateCase2,
      GraphFloat_generateCase2 rnd h12 h1 h2 fuel hf⟩
  · intro rnd h12 h1 h2 ha hb fuel hf
    exact ⟨computePaths_mono (by omega) 4 roundingTie [] _ computePaths_roundingTie,
      GraphFloat_roundingTie rnd h12 h1 h2 ha hb fuel hf⟩

theorem greedy_choice_witness :
    NoSelfLoop 5 generateCase2 ∧
      (∀ Z paths, computePaths 6 5 (removeNodes generateCase2 Z) [] = some paths →
        ∀ p ∈ paths, 0 < p.getWeightFloat (fun x => x)) ∧
      ∃ sel,
        GraphFloat (fun x => x) 6 5 generateCase2 = some (addIsolated (List.range 5) sel) ∧
        (∀ pre p post, sel = pre ++ p :: post →
          ∃ paths k,
            computePaths 6 5 (removeNodes generateCase2 (pre.flatMap Path.nodes)) [] =
              some paths ∧
            IsFirstMaxBy (Path.getWeightFloat (fun x => x)) paths k p) ∧
        (5 ≤ (sel.flatMap Path.nodes).length ∨
          computePaths 6 5 (removeNodes generateCase2 (sel.flatMap Path.nodes)) [] =
            some []) :=
  ⟨noSelfLoop_generateCase2,
    enumerated_float_pos (fun x => x) (fun _ h => h) noSelfLoop_generateCase2 (by decide),
    greedy_choice.1 (fun x => x) 6 5 generateCase2 noSelfLoop_generateCase2 (by decide)
      (enumerated_float_pos (fun x => x) (fun _ h => h) noSelfLoop_generateCase2
        (by decide))⟩

theorem finalNodes_zeroMat (numNodes : Nat) : finalNodes numNodes zeroMat = [] := by
  unfold finalNodes
  rw [List.filter_eq_nil_iff]
  intro i _
  simp [colSum, zeroMat]

/-- C8 (isolated nodes): for every `numNodes ≥ 1` the matrix without edges gives exactly
`numNodes` paths, and the path at position `i` has the node list `[i]`, no weight, and
weight `0`. -/
theorem isolated_nodes (fuel numNodes : Nat) (hn : 1 ≤ numNodes) :
    ∃ res, Graph fuel numNodes zeroMat = some res ∧ res.length = numNodes ∧
      ∀ i, i < numNodes → res[i]? = some ⟨[i], []⟩ ∧ (⟨[i], []⟩ : Path).getWeight = 0 := by
  have _ := hn
  have hG : Graph fuel numNodes zeroMat =
      some ((List.range numNodes).map (fun n => (⟨[n], []⟩ : Path))) := by
    unfold Graph computePaths
    rw [finalNodes_zeroMat]
    simp only [computeLoop, List.map_nil, List.length_nil, gt_iff_lt, lt_self_iff_false,
      if_false]
    rw [addIsolated_eq _ _ (List.nodup_range _)]
    simp
  refine ⟨_, hG, by simp, ?_⟩
  intro i hi
  refine ⟨?_, getWeight_single i⟩
  simp [List.getElem?_map, List.getElem?_range hi]

theorem isolated_nodes_witness :
    ∃ res, Graph 0 3 zeroMat = some res ∧ res.length = 3 ∧
      ∀ i, i < 3 → res[i]? = some ⟨[i], []⟩ ∧ (⟨[i], []⟩ : Path).getWeight = 0 :=
  isolated_nodes 0 3 (by decide)

theorem Graph_simpleChain :
    Graph 4 3 simpleChain = some [⟨[0, 1, 2], [1 / 2, 1 / 2]⟩] := by
  with_unfolding_all decide

/-- C9 (simple chain): for the chain `0 → 1 → 2` with both weights `0.5` the constructor
returns exactly one path, with nodes `[0,1,2]`, weights `[0.5, 0.5]` and weight `0.5`. -/
theorem simple_chain (fuel : Nat) (hf : 3 < fuel) :
    Graph fuel 3 simpleChain = some [⟨[0, 1, 2], [1 / 2, 1 / 2]⟩] ∧
      (⟨[0, 1, 2], [1 / 2, 1 / 2]⟩ : Path).getWeight = 1 / 2 := by
  refine ⟨Graph_mono (by omega) 3 simpleChain _ Graph_simpleChain, ?_⟩
  rw [getWeight_eq, if_neg (List.cons_ne_nil _ _)]
  norm_num

theorem simple_chain_witness :
    Graph 4 3 simpleChain = some [⟨[0, 1, 2], [1 / 2, 1 / 2]⟩] ∧
      (⟨[0, 1, 2], [1 / 2, 1 / 2]⟩ : Path).getWeight = 1 / 2 :=
  simple_chain 4 (by decide)

theorem nodup_finalNodes (numNodes : Nat) (W : Mat) : (finalNodes numNodes W).Nodup :=
  (List.nodup_range _).filter _

theorem nodup_enumerated_nodes (fuel numNodes : Nat) (W : Mat) :
    ((enumerated fuel numNodes W).map Path.nodes).Nodup := by
  simp only [enumerated, List.map_flatMap, List.map_map]
  rw [List.nodup_flatMap]
  constructor
  · intro t _
    refine (nodup_chains W _ fuel t).map ?_
    intro a b hab
    simp only [Function.comp, backPath, List.reverse_cons] at hab
    have := List.append_cancel_right hab
    exact List.reverse_injective this
  · refine (nodup_finalNodes numNodes W).imp ?_
    intro t t1 hne x hx hx1
    obtain ⟨ch, _, rfl⟩ := List.mem_map.1 hx
    obtain ⟨ch1, _, h1⟩ := List.mem_map.1 hx1
    simp only [Function.comp, backPath, List.reverse_cons] at h1
    have := List.append_inj_right' h1 rfl
    simp only [List.cons.injEq, and_true] at this
    exact hne this.symm

theorem mem_enumerated_nodes {fuel numNodes : Nat} {W : Mat}
    (hnn : ∀ i j, i < numNodes → j < numNodes → 0 ≤ W i j)
    (hfwd : ∀ i j, i < numNodes → j < numNodes → W i j > 0 → i < j)
    (hf : numNodes ≤ fuel) (l : List Nat) :
    l ∈ (enumerated fuel numNodes W).map Path.nodes ↔ IsSourceFinalWalk numNodes W l := by
  have hns : NoSelfLoop numNodes W := fun i hi hpos => lt_irrefl _ (hfwd i i hi hi hpos)
  constructor
  · intro hl
    obtain ⟨p, hp, rfl⟩ := List.mem_map.1 hl
    have hw := enumerated_walkPath hns hp
    obtain ⟨t, ch, ht, hch, _, rfl⟩ := mem_enumerated.1 hp
    refine ⟨hw.two_le, hw.lt, hw.edges, ?_, ?_⟩
    · intro s hs
      simp only [backPath, List.head?_reverse] at hs
      obtain ⟨b, rest, rfl⟩ := List.exists_cons_of_ne_nil hch.ne_nil
      rw [List.getLast?_cons_cons] at hs
      exact hch.last_source _ t s hs
    · intro t1 ht1
      simp only [backPath, List.getLast?_reverse, List.head?_cons, Option.mem_def,
        Option.some.injEq] at ht1
      subst ht1
      exact (mem_finalNodes.1 ht).2
  · rintro ⟨h2, hlt, hedges, hsrc, hfin⟩
    obtain ⟨t, ch, hrev⟩ : ∃ t ch, l.reverse = t :: ch := by
      cases hr : l.reverse with
      | nil =>
        have : l = [] := by simpa using hr
        rw [this] at h2
        simp at h2
      | cons t ch => exact ⟨t, ch, rfl⟩
    have hl : l = (t :: ch).reverse := by rw [← hrev, List.reverse_reverse]
    subst hl
    have htN : t < numNodes := hlt t (by simp)
    have hchne : ch ≠ [] := by
      rintro rfl
      simp at h2
    have htf : t ∈ finalNodes numNodes W := by
      refine mem_finalNodes.2 ⟨htN, hfin t ?_⟩
      simp [List.getLast?_reverse]
    have hchain : List.Chain (fun a b => W b a > 0) t ch := by
      have := List.chain'_reverse.1 hedges
      exact this
    have hlast : ∀ s ∈ ch.getLast?, colSum numNodes W s = 0 := by
      intro s hs
      apply hsrc s
      obtain ⟨b, rest, rfl⟩ := List.exists_cons_of_ne_nil hchne
      rw [List.head?_reverse, List.getLast?_cons_cons]
      exact hs
    have hbc := isBackChain_of_chain hnn hfwd ch t htN
      (fun v hv => hlt v (by simp [hv])) hchain hchne hlast
    have hlen : ch.length ≤ fuel := by
      have := chain_desc_length (hbc.descends ch t (fun i hi => hns i (by omega)))
      omega
    exact List.mem_map.2 ⟨backPath W t ch, mem_enumerated.2 ⟨t, ch, htf, hbc, hlen, rfl⟩, rfl⟩

/-- C3 (enumeration completeness and uniqueness): for a matrix with non-negative entries
whose edges all go from a lower to a higher index, `computePaths` returns a list without
duplicates, no two paths of which have the same node list, and whose node lists are exactly
the walks `v0, ..., vk` (`k ≥ 1`) along edges from a source `v0` (column sum `0`) to a final
node `vk` (row sum `0`, column sum other than `0`). -/
theorem enumeration_complete (fuel numNodes : Nat) (W : Mat)
    (hnn : ∀ i j, i < numNodes → j < numNodes → 0 ≤ W i j)
    (hfwd : ∀ i j, i < numNodes → j < numNodes → W i j > 0 → i < j)
    (hf : numNodes ≤ fuel) :
    ∃ paths, computePaths fuel numNodes W [] = some paths ∧ paths.Nodup ∧
      (paths.map Path.nodes).Nodup ∧
      ∀ l, l ∈ paths.map Path.nodes ↔ IsSourceFinalWalk numNodes W l := by
  have hns : NoSelfLoop numNodes W := fun i hi hpos => lt_irrefl _ (hfwd i i hi hi hpos)
  refine ⟨_, computePaths_eq fuel numNodes W hns hf, ?_, nodup_enumerated_nodes _ _ _,
    mem_enumerated_nodes hnn hfwd hf⟩
  exact List.Nodup.of_map _ (nodup_enumerated_nodes fuel numNodes W)

theorem generateCase2_nonneg : ∀ i j, i < 5 → j < 5 → 0 ≤ generateCase2 i j := by
  intro i j _ _
  unfold generateCase2
  split_ifs <;> norm_num

theorem generateCase2_forward : ∀ i j, i < 5 → j < 5 → generateCase2 i j > 0 → i < j := by
  intro i j _ _
  unfold generateCase2
  split_ifs with h
  · intro _; omega
  · intro h0; exact absurd h0 (lt_irrefl _)

theorem enumeration_complete_witness :
    ∃ paths, computePaths 5 5 generateCase2 [] = some paths ∧ paths.Nodup ∧
      (paths.map Path.nodes).Nodup ∧
      ∀ l, l ∈ paths.map Path.nodes ↔ IsSourceFinalWalk 5 generateCase2 l :=
  enumeration_complete 5 5 generateCase2 generateCase2_nonneg generateCase2_forward
    (by decide)

/-! ## Alignment on every input on which the construction returns -/

theorem addEdge_aligned {p : Path} {c b : Nat} (w : ℚ) (hp : AlignedAt p c) (hb : b < c) :
    (p.addEdge c b w).nodes.length = (p.addEdge c b w).weights.length + 1 ∧
      AlignedAt (p.addEdge c b w) b := by
  rcases hp with ⟨hn, hw⟩ | ⟨hlen, hc, hge⟩
  · have hbc : b ≠ c := by omega
    have hq : p.addEdge c b w = ⟨[c, b], [w]⟩ := by
      simp [Path.addEdge, Path.addNode, Path.addWeight, hn, hw, hbc]
    rw [hq]
    refine ⟨rfl, Or.inr ⟨rfl, by simp, ?_⟩⟩
    intro v hv
    simp only [List.mem_cons, List.mem_singleton, List.not_mem_nil, or_false] at hv
    rcases hv with rfl | rfl
    · omega
    · exact le_refl _
  · have hbn : b ∉ p.nodes := fun h => by have := hge b h; omega
    have hq : p.addEdge c b w = ⟨p.nodes ++ [b], p.weights ++ [w]⟩ := by
      simp [Path.addEdge, Path.addNode, Path.addWeight, hc, hbn]
    rw [hq]
    refine ⟨by simp [hlen], Or.inr ⟨by simp [hlen], by simp, ?_⟩⟩
    intro v hv
    simp only [List.mem_append, List.mem_singleton] at hv
    rcases hv with hv | rfl
    · have := hge v hv; omega
    · exact le_refl _

theorem backConnections_self {W : Mat} {c : Nat} (h : W c c > 0) :
    ∃ rest, backConnections W c = c :: rest := by
  unfold backConnections
  rw [List.range_succ, List.reverse_append, List.reverse_singleton, List.singleton_append,
    List.filter_cons_of_pos (by simpa using h)]
  exact ⟨_, rfl⟩

/-- Entered at a node with a self-loop and a column sum other than `0`, the recursion calls
itself on the same node, whatever the fuel. -/
theorem iteration_self_loop (W : Mat) (cols : Nat → ℚ) {c : Nat} (h : W c c > 0)
    (hc : cols c ≠ 0) :
    ∀ (fuel : Nat) (p : Path) (pv : List Path), iteration W cols fuel p c pv = none := by
  intro fuel
  induction fuel with
  | zero => intro p pv; rfl
  | succ fuel ih =>
    intro p pv
    obtain ⟨rest, hrest⟩ := backConnections_self h
    unfold iteration
    rw [hrest]
    unfold iterationLoop
    simp [hc, ih]

theorem iterationLoop_aligned {call : Path → Nat → List Path → Option (List Path)}
    (W : Mat) (cols : Nat → ℚ) (c : Nat) (copy : Path)
    (hcall : ∀ b p pv r, cols b ≠ 0 → AlignedAt p b → call p b pv = some r →
      ∃ new, r = pv ++ new ∧ ∀ q ∈ new, q.nodes.length = q.weights.length + 1)
    (hcopy : AlignedAt copy c) :
    ∀ (bs : List Nat) (j : Nat) (cur : Path) (pv r : List Path),
      (∀ b ∈ bs, b < c) → (j = 0 → cur = copy) →
      iterationLoop call W cols c copy bs j cur pv = some r →
      ∃ new, r = pv ++ new ∧ ∀ q ∈ new, q.nodes.length = q.weights.length + 1 := by
  intro bs
  induction bs with
  | nil =>
    intro j cur pv r _ _ h
    simp only [iterationLoop, Option.some.injEq] at h
    exact ⟨[], by simp [h], by simp⟩
  | cons b rest ih =>
    intro j cur pv r hlt hj h
    have hb : b < c := hlt b (List.mem_cons_self _ _)
    have hrest : ∀ b ∈ rest, b < c := fun x hx => hlt x (List.mem_cons_of_mem _ hx)
    have hq := addEdge_aligned (W b c) hcopy hb
    unfold iterationLoop at h
    by_cases h0 : j = 0
    · have hcur : cur = copy := hj h0
      subst hcur
      rw [if_pos h0] at h
      by_cases hcb : cols b = 0
      · simp only [hcb, if_true] at h
        obtain ⟨new, hnew, hall⟩ := ih _ _ _ _ hrest (by simp) h
        refine ⟨cur.addEdge c b (W b c) :: new, by simp [hnew], ?_⟩
        intro q hq1
        rcases List.mem_cons.1 hq1 with rfl | hq1
        · exact hq.1
        · exact hall q hq1
      · simp only [hcb, if_false] at h
        cases hc : call (cur.addEdge c b (W b c)) b pv with
        | none => rw [hc] at h; exact absurd h (by simp)
        | some pv1 =>
          rw [hc] at h
          obtain ⟨new1, hnew1, hall1⟩ := hcall _ _ _ _ hcb hq.2 hc
          obtain ⟨new, hnew, hall⟩ := ih _ _ _ _ hrest (by simp) h
          refine ⟨new1 ++ new, by simp [hnew, hnew1], ?_⟩
          intro q hq1
          rcases List.mem_append.1 hq1 with hq1 | hq1
          · exact hall1 q hq1
          · exact hall q hq1
    · rw [if_neg h0] at h
      by_cases hcb : cols b = 0
      · simp only [hcb, if_true] at h
        obtain ⟨new, hnew, hall⟩ := ih _ _ _ _ hrest (by simp) h
        refine ⟨copy.addEdge c b (W b c) :: new, by simp [hnew], ?_⟩
        intro q hq1
        rcases List.mem_cons.1 hq1 with rfl | hq1
        · exact hq.1
        · exact hall q hq1
      · simp only [hcb, if_false] at h
        cases hc : call (copy.addEdge c b (W b c)) b pv with
        | none => rw [hc] at h; exact absurd h (by simp)
        | some pv1 =>
          rw [hc] at h
          obtain ⟨new1, hnew1, hall1⟩ := hcall _ _ _ _ hcb hq.2 hc
          obtain ⟨new, hnew, hall⟩ := ih _ _ _ _ hrest (by simp) h
          refine ⟨new1 ++ new, by simp [hnew, hnew1], ?_⟩
          intro q hq1
          rcases List.mem_append.1 hq1 with hq1 | hq1
          · exact hall1 q hq1
          · exact hall q hq1

theorem iteration_aligned (W : Mat) (cols : Nat → ℚ) :
    ∀ (fuel c : Nat) (p : Path) (pv r : List Path), cols c ≠ 0 → AlignedAt p c →
      iteration W cols fuel p c pv = some r →
      ∃ new, r = pv ++ new ∧ ∀ q ∈ new, q.nodes.length = q.weights.length + 1 := by
  intro fuel
  induction fuel with
  | zero => intro c p pv r _ _ h; exact absurd h (by simp [iteration])
  | succ fuel ih =>
    intro c p pv r hc hp h
    have hself : ¬ (W c c > 0) := by
      intro hpos
      rw [iteration_self_loop W cols hpos hc] at h
      exact absurd h (by simp)
    unfold iteration at h
    refine iterationLoop_aligned W cols c p (fun b q pv1 r1 hb hq hr => ih b q pv1 r1 hb hq hr)
      hp _ 0 p pv r ?_ (fun _ => rfl) h
    intro b hb
    have hb1 := mem_backConnections.1 hb
    have hne : b ≠ c := by
      rintro rfl
      exact hself hb1.2
    exact lt_of_le_of_ne hb1.1 hne

theorem computeLoop_aligned (fuel : Nat) (W : Mat) (cols : Nat → ℚ) :
    ∀ (ts : List Nat) (pv r : List Path), (∀ t ∈ ts, cols t ≠ 0) →
      computeLoop fuel W cols ts pv = some r →
      ∃ new, r = pv ++ new ∧ ∀ q ∈ new, q.nodes.length = q.weights.length + 1 := by
  intro ts
  induction ts with
  | nil =>
    intro pv r _ h
    simp only [computeLoop, Option.some.injEq] at h
    exact ⟨[], by simp [h], by simp⟩
  | cons t rest ih =>
    intro pv r hts h
    unfold computeLoop at h
    cases hc : iteration W cols fuel Path.empty t pv with
    | none => rw [hc] at h; exact absurd h (by simp)
    | some pv1 =>
      rw [hc] at h
      obtain ⟨new1, hnew1, hall1⟩ := iteration_aligned W cols fuel t Path.empty pv pv1
        (hts t (List.mem_cons_self _ _)) (Or.inl ⟨rfl, rfl⟩) hc
      obtain ⟨new, hnew, hall⟩ := ih pv1 r (fun x hx => hts x (List.mem_cons_of_mem _ hx)) h
      refine ⟨new1 ++ new, by simp [hnew, hnew1], ?_⟩
      intro q hq1
      rcases List.mem_append.1 hq1 with hq1 | hq1
      · exact hall1 q hq1
      · exact hall q hq1

theorem computePaths_aligned {fuel numNodes : Nat} {W : Mat} {paths : List Path}
    (h : computePaths fuel numNodes W [] = some paths) :
    ∀ p ∈ paths, p.weights.length = p.nodes.length - 1 := by
  unfold computePaths at h
  cases hc : computeLoop fuel W (colSum numNodes W) (finalNodes numNodes W) [] with
  | none => rw [hc] at h; exact absurd h (by simp)
  | some pv1 =>
    rw [hc] at h
    simp only [Option.some.injEq] at h
    obtain ⟨new, hnew, hall⟩ := computeLoop_aligned fuel W _ _ [] pv1
      (fun t ht => (mem_finalNodes.1 ht).2.2) hc
    intro p hp
    rw [← h] at hp
    obtain ⟨q, hq, rfl⟩ := List.mem_map.1 hp
    have := hall q (by simpa [hnew] using hq)
    simp only [Path.reversePath, List.length_reverse]
    omega

theorem greedyLoop_mem (fuel numNodes : Nat) :
    ∀ (rounds : Nat) (cp : List Path) (cur : Nat) (bid : Int) (Wc : Mat)
      (bp r : List Path),
      greedyLoop fuel numNodes rounds cp cur bid Wc bp = some r →
      ∀ p ∈ r, p ∈ bp ∨
        ∃ W1 paths, computePaths fuel numNodes W1 [] = some paths ∧ p ∈ paths := by
  intro rounds
  induction rounds with
  | zero => intro cp cur bid Wc bp r h; exact absurd h (by simp [greedyLoop])
  | succ rounds ih =>
    intro cp cur bid Wc bp r h
    simp only [greedyLoop] at h
    cases hat : pathAt cp bid with
    | none => rw [hat] at h; exact absurd h (by simp)
    | some best =>
      rw [hat] at h
      simp only [] at h
      by_cases hstop : best.getNumNodes ≥ cur
      · rw [if_pos hstop] at h
        simp only [Option.some.injEq] at h
        intro p hp
        rw [← h] at hp
        exact Or.inl hp
      · rw [if_neg hstop] at h
        cases hc : computePaths fuel numNodes (removeNodes Wc best.nodes) [] with
        | none => rw [hc] at h; exact absurd h (by simp)
        | some rp =>
          rw [hc] at h
          simp only [] at h
          by_cases hne : rp.length > 0
          · rw [if_pos hne] at h
            cases hn : pathAt rp (bestPathId rp) with
            | none => rw [hn] at h; exact absurd h (by simp)
            | some next =>
              rw [hn] at h
              simp only [] at h
              intro p hp
              rcases ih _ _ _ _ _ _ h p hp with hp1 | hp1
              · rcases List.mem_append.1 hp1 with hp2 | hp2
                · exact Or.inl hp2
                · simp only [List.mem_singleton] at hp2
                  subst hp2
                  exact Or.inr ⟨_, rp, hc, pathAt_mem hn⟩
              · exact Or.inr hp1
          · rw [if_neg hne] at h
            simp only [Option.some.injEq] at h
            intro p hp
            rw [← h] at hp
            exact Or.inl hp

/-- Every path of a result of the constructor is a single node without weight or a path of
some enumeration. -/
theorem Graph_mem {fuel numNodes : Nat} {W : Mat} {res : List Path}
    (h : Graph fuel numNodes W = some res) :
    ∀ p ∈ res, (∃ v, p = ⟨[v], []⟩) ∨
      ∃ W1 paths, computePaths fuel numNodes W1 [] = some paths ∧ p ∈ paths := by
  unfold Graph at h
  cases hc : computePaths fuel numNodes W [] with
  | none => rw [hc] at h; exact absurd h (by simp)
  | some paths =>
    rw [hc] at h
    simp only [] at h
    by_cases hne : paths.length > 0
    · rw [if_pos hne] at h
      cases hn : pathAt paths (bestPathId paths) with
      | none => rw [hn] at h; exact absurd h (by simp)
      | some best =>
        rw [hn] at h
        simp only [] at h
        cases hg : greedyLoop fuel numNodes fuel paths numNodes (bestPathId paths) W [best] with
        | none => rw [hg] at h; exact absurd h (by simp)
        | some bp =>
          rw [hg] at h
          simp only [Option.some.injEq] at h
          intro p hp
          rw [← h] at hp
          rcases mem_addIsolated.1 hp with hp1 | ⟨v, _, _, rfl⟩
          · rcases greedyLoop_mem fuel numNodes _ _ _ _ _ _ _ hg p hp1 with hp2 | hp2
            · simp only [List.mem_singleton] at hp2
              subst hp2
              exact Or.inr ⟨W, paths, hc, pathAt_mem hn⟩
            · exact Or.inr hp2
          · exact Or.inl ⟨v, rfl⟩
    · rw [if_neg hne] at h
      simp only [Option.some.injEq] at h
      intro p hp
      rw [← h] at hp
      rcases mem_addIsolated.1 hp with hp1 | ⟨v, _, _, rfl⟩
      · simp at hp1
      · exact Or.inl ⟨v, rfl⟩

/-- C7 (alignment invariant): on every input, valid or not, on which the constructor
returns, every path of the result with `k` nodes has exactly `k - 1` weights (`0` for `k = 0`,
subtraction on the naturals); the same holds for every path that `computePaths` returns. -/
theorem alignment_invariant (fuel numNodes : Nat) (W : Mat) :
    (∀ res, Graph fuel numNodes W = some res →
      ∀ p ∈ res, p.weights.length = p.nodes.length - 1) ∧
    (∀ paths, computePaths fuel numNodes W [] = some paths →
      ∀ p ∈ paths, p.weights.length = p.nodes.length - 1) := by
  constructor
  · intro res h p hp
    rcases Graph_mem h p hp with ⟨v, rfl⟩ | ⟨W1, paths, hc, hmem⟩
    · rfl
    · exact computePaths_aligned hc p hmem
  · intro paths h
    exact computePaths_aligned h

theorem alignment_invariant_witness :
    Graph 6 5 generateCase2 = some [⟨[1, 2, 3], [1 / 2, 1 / 2]⟩, ⟨[0], []⟩, ⟨[4], []⟩] ∧
      ∀ p ∈ [(⟨[1, 2, 3], [1 / 2, 1 / 2]⟩ : Path), ⟨[0], []⟩, ⟨[4], []⟩],
        p.weights.length = p.nodes.length - 1 :=
  ⟨Graph_generateCase2, (alignment_invariant 6 5 generateCase2).1 _ Graph_generateCase2⟩

theorem getWeight_one_weight (nodes : List Nat) (w : ℚ) :
    (⟨nodes, [w]⟩ : Path).getWeight = w := by
  rw [getWeight_eq, if_neg (List.cons_ne_nil _ _)]
  simp

theorem computePaths_branchingSink :
    computePaths 3 3 branchingSink [] = some [⟨[1, 2], [7 / 10]⟩, ⟨[0, 2], [3 / 10]⟩] := by
  with_unfolding_all decide

/-- C10 (branching sink): in a matrix without self-loops, let the final node `t` have two
distinct predecessors `p1` and `p2` of smaller index, both with column sum `0`.  Then
`computePaths` returns, the paths `[p1, t]` with the single weight `W p1 t` and `[p2, t]`
with the single weight `W p2 t` are both in the result, they differ, each has its own
weight as score, and no path of the result contains both `p1` and `p2`: the branch of the
second predecessor starts from the path as it was on entry.  For the three nodes with
`W 0 2 = 0.3` and `W 1 2 = 0.7` the result is `[1, 2]` (0.7), then `[0, 2]` (0.3). -/
theorem branching_sink :
    (∀ (fuel numNodes : Nat) (W : Mat) (t p1 p2 : Nat), NoSelfLoop numNodes W →
      numNodes ≤ fuel → t < numNodes → p1 < t → p2 < t → p1 ≠ p2 →
      W p1 t > 0 → W p2 t > 0 → rowSum numNodes W t = 0 → colSum numNodes W t ≠ 0 →
      colSum numNodes W p1 = 0 → colSum numNodes W p2 = 0 →
      ∃ paths, computePaths fuel numNodes W [] = some paths ∧
        (⟨[p1, t], [W p1 t]⟩ : Path) ∈ paths ∧ (⟨[p2, t], [W p2 t]⟩ : Path) ∈ paths ∧
        (⟨[p1, t], [W p1 t]⟩ : Path) ≠ ⟨[p2, t], [W p2 t]⟩ ∧
        (⟨[p1, t], [W p1 t]⟩ : Path).getWeight = W p1 t ∧
        (⟨[p2, t], [W p2 t]⟩ : Path).getWeight = W p2 t ∧
        ∀ q ∈ paths, p1 ∈ q.nodes → p2 ∉ q.nodes) ∧
    (∀ fuel, 3 ≤ fuel →
      computePaths fuel 3 branchingSink [] =
        some [⟨[1, 2], [7 / 10]⟩, ⟨[0, 2], [3 / 10]⟩]) ∧
    (⟨[1, 2], [7 / 10]⟩ : Path).getWeight = 7 / 10 ∧
    (⟨[0, 2], [3 / 10]⟩ : Path).getWeight = 3 / 10 := by
  refine ⟨?_, ?_, getWeight_one_weight _ _, getWeight_one_weight _ _⟩
  · intro fuel numNodes W t p1 p2 hns hf ht h1 h2 hne hw1 hw2 hrow hcol hc1 hc2
    have htf : t ∈ finalNodes numNodes W := mem_finalNodes.2 ⟨ht, hrow, hcol⟩
    have hmem : ∀ b, b < t → W b t > 0 → colSum numNodes W b = 0 →
        (⟨[b, t], [W b t]⟩ : Path) ∈ enumerated fuel numNodes W := by
      intro b hb hw hc
      refine mem_enumerated.2 ⟨t, [b], htf, ?_, ?_, ?_⟩
      · simp [IsBackChain, le_of_lt hb, hw, hc]
      · simp only [List.length_singleton]
        omega
      · simp [backPath, chainWeights]
    refine ⟨_, computePaths_eq fuel numNodes W hns hf, hmem p1 h1 hw1 hc1, hmem p2 h2 hw2 hc2,
      ?_, getWeight_one_weight _ _, getWeight_one_weight _ _, ?_⟩
    · intro heq
      have hn := congrArg Path.nodes heq
      simp only [List.cons.injEq, and_true] at hn
      exact hne hn
    · intro q hq hq1 hq2
      obtain ⟨t1, ch, ht1, hch, _, rfl⟩ := mem_enumerated.1 hq
      have hcol1 := (mem_finalNodes.1 ht1).2.2
      have hin : ∀ b, colSum numNodes W b = 0 → b ∈ (backPath W t1 ch).nodes →
          ch.getLast? = some b := by
        intro b hb hbq
        simp only [backPath, List.mem_reverse, List.mem_cons] at hbq
        rcases hbq with rfl | hbq
        · exact absurd hb hcol1
        · exact hch.source_last ch t1 b hbq hb
      have e1 := hin p1 hc1 hq1
      have e2 := hin p2 hc2 hq2
      rw [e1] at e2
      exact hne (Option.some.inj e2)
  · intro fuel hf
    exact computePaths_mono hf 3 branchingSink [] _ computePaths_branchingSink

theorem noSelfLoop_branchingSink : NoSelfLoop 3 branchingSink := by
  intro i _
  unfold branchingSink
  split_ifs with h1 h2
  · omega
  · omega
  · exact lt_irrefl _

theorem branching_sink_witness :
    ∃ paths, computePaths 3 3 branchingSink [] = some paths ∧
      (⟨[0, 2], [branchingSink 0 2]⟩ : Path) ∈ paths ∧
      (⟨[1, 2], [branchingSink 1 2]⟩ : Path) ∈ paths ∧
      (⟨[0, 2], [branchingSink 0 2]⟩ : Path) ≠ ⟨[1, 2], [branchingSink 1 2]⟩ ∧
      (⟨[0, 2], [branchingSink 0 2]⟩ : Path).getWeight = branchingSink 0 2 ∧
      (⟨[1, 2], [branchingSink 1 2]⟩ : Path).getWeight = branchingSink 1 2 ∧
      ∀ q ∈ paths, 0 ∈ q.nodes → 1 ∉ q.nodes :=
  branching_sink.1 3 3 branchingSink 2 0 1 noSelfLoop_branchingSink (by decide) (by decide)
    (by decide) (by decide) (by decide)
    (by norm_num [branchingSink]) (by norm_num [branchingSink])
    (by norm_num [rowSum, branchingSink, List.range_succ])
    (by norm_num [colSum, branchingSink, List.range_succ])
    (by norm_num [colSum, branchingSink, List.range_succ])
    (by norm_num [colSum, branchingSink, List.range_succ])

/-! ## Path calls, the filler, the assertions, termination -/

/-- C13 (path score): `getWeight` is `0` for a path without weights and otherwise the sum of
the weights divided by their number, the arithmetic mean (exact rationals). -/
theorem path_score (p : Path) :
    (p.weights = [] → p.getWeight = 0) ∧
      (p.weights ≠ [] → p.getWeight = p.weights.sum / (p.weights.length : ℚ)) := by
  constructor
  · intro h
    rw [getWeight_eq, if_pos h]
  · intro h
    rw [getWeight_eq, if_neg h]

theorem path_score_witness :
    ((⟨[0, 1, 2], [1 / 2, 1 / 4]⟩ : Path).weights ≠ []) ∧
      (⟨[0, 1, 2], [1 / 2, 1 / 4]⟩ : Path).getWeight =
        ([1 / 2, 1 / 4] : List ℚ).sum / (([1 / 2, 1 / 4] : List ℚ).length : ℚ) :=
  ⟨List.cons_ne_nil _ _, (path_score ⟨[0, 1, 2], [1 / 2, 1 / 4]⟩).2 (List.cons_ne_nil _ _)⟩

theorem addNode_nodup {p : Path} (h : p.nodes.Nodup) (id : Nat) : (p.addNode id).nodes.Nodup := by
  unfold Path.addNode
  by_cases hid : id ∈ p.nodes
  · rw [if_pos hid]
    exact h
  · rw [if_neg hid]
    simp only []
    rw [List.nodup_append]
    refine ⟨h, List.nodup_singleton _, ?_⟩
    intro v hv hv1
    simp only [List.mem_singleton] at hv1
    subst hv1
    exact hid hv

theorem run_nodup {p : Path} (h : p.nodes.Nodup) (c : PathCall) : (c.run p).nodes.Nodup := by
  cases c with
  | addNode id => exact addNode_nodup h id
  | addEdge id1 id2 w12 =>
    simp only [PathCall.run, Path.addEdge, Path.addWeight]
    exact addNode_nodup (addNode_nodup h id1) id2
  | reversePath =>
    simp only [PathCall.run, Path.reversePath]
    exact List.nodup_reverse.2 h

theorem foldl_run_nodup :
    ∀ (calls : List PathCall) (p : Path), p.nodes.Nodup →
      (calls.foldl PathCall.run p).nodes.Nodup := by
  intro calls
  induction calls with
  | nil => intro p h; exact h
  | cons c rest ih =>
    intro p h
    exact ih _ (run_nodup h c)

/-- C14 (node uniqueness): after any sequence of `addNode`, `addEdge` and `reversePath`
calls on an empty path the node list has no duplicate; `addNode id` appends `id` when it
is absent, leaves the path as it is when `id` is present, and applied twice gives the same
path as applied once.  Node ids are natural numbers. -/
theorem node_uniqueness :
    (∀ calls : List PathCall, (runCalls calls).nodes.Nodup) ∧
    (∀ (p : Path) (id : Nat), id ∉ p.nodes → p.addNode id = ⟨p.nodes ++ [id], p.weights⟩) ∧
    (∀ (p : Path) (id : Nat), id ∈ p.nodes → p.addNode id = p) ∧
    (∀ (p : Path) (id : Nat), (p.addNode id).addNode id = p.addNode id) := by
  refine ⟨?_, ?_, ?_, ?_⟩
  · intro calls
    exact foldl_run_nodup calls Path.empty List.nodup_nil
  · intro p id h
    simp [Path.addNode, h]
  · intro p id h
    simp [Path.addNode, h]
  · intro p id
    by_cases h : id ∈ p.nodes
    · simp [Path.addNode, h]
    · simp [Path.addNode, h]

theorem node_uniqueness_witness :
    (runCalls [PathCall.addNode 3, PathCall.addEdge 3 1 (1 / 2), PathCall.reversePath,
        PathCall.addNode 1, PathCall.addEdge 1 3 (1 / 4)]).nodes.Nodup ∧
      (⟨[3], []⟩ : Path).addNode 3 = ⟨[3], []⟩ :=
  ⟨node_uniqueness.1 _, node_uniqueness.2.2.1 ⟨[3], []⟩ 3 (by simp)⟩

theorem NoSelfLoop.of_diagonal {n : Nat} {W : Mat} (hd : ∀ i, i < n → W i i = 0) :
    NoSelfLoop n W := by
  intro i hi hpos
  rw [hd i hi] at hpos
  exact lt_irrefl _ hpos

/-- C11 (isolated-node filler): without self-loops (so on every valid input) the result is
the list `sel` of the greedy-selected paths, all with two or more nodes, followed by one
path `[n]` without weights for each `n` of `singles`; `singles` is strictly ascending and
holds exactly the nodes `n < numNodes` that are in no path of `sel`. -/
theorem isolated_filler (fuel numNodes : Nat) (W : Mat) (hns : NoSelfLoop numNodes W)
    (hf : numNodes < fuel) :
    ∃ (sel : List Path) (singles : List Nat),
      Graph fuel numNodes W = some (sel ++ singles.map (fun n => (⟨[n], []⟩ : Path))) ∧
      (∀ p ∈ sel, 2 ≤ p.nodes.length) ∧
      singles.Pairwise (fun a b => a < b) ∧
      ∀ n, n ∈ singles ↔ n < numNodes ∧ ∀ p ∈ sel, n ∉ p.nodes := by
  obtain ⟨sel, hres, hsel, _⟩ := Graph_eq fuel numNodes W hns hf
  refine ⟨sel, (List.range numNodes).filter
    (fun n => !(sel.any (fun p => decide (n ∈ p.nodes)))), ?_, ?_, ?_, ?_⟩
  · rw [hres, addIsolated_eq _ _ (List.nodup_range _)]
  · intro p hp
    exact (hsel.walkPath hns hp).two_le
  · exact (List.pairwise_lt_range numNodes).filter _
  · intro n
    simp only [List.mem_filter, List.mem_range, Bool.not_eq_true', List.any_eq_false,
      decide_eq_true_eq]

theorem isolated_filler_witness :
    NoSelfLoop 5 generateCase2 ∧
      ∃ (sel : List Path) (singles : List Nat),
        Graph 6 5 generateCase2 = some (sel ++ singles.map (fun n => (⟨[n], []⟩ : Path))) ∧
        (∀ p ∈ sel, 2 ≤ p.nodes.length) ∧
        singles.Pairwise (fun a b => a < b) ∧
        ∀ n, n ∈ singles ↔ n < 5 ∧ ∀ p ∈ sel, n ∉ p.nodes :=
  ⟨noSelfLoop_generateCase2,
    isolated_filler 6 5 generateCase2 noSelfLoop_generateCase2 (by decide)⟩

/-- C12 (precondition failure): with assertions enabled, the construction ends in a failed
assertion exactly when the matrix is empty, or not square, or its `type()` is not `CV_32F`;
then the outcome is the same whatever the entries and the fuel, no path is computed; in
every other case no failure is reported and the outcome is that of the path computation on
`cols` nodes. -/
theorem precondition_failure (fuel : Nat) (m : CvMat) :
    ((∃ e, construct fuel m = Except.error e) ↔
      (m.rows * m.cols = 0 ∨ m.rows ≠ m.cols ∨ m.type ≠ CV_32F)) ∧
    (∀ e, construct fuel m = Except.error e →
      ∀ (fuel1 : Nat) (data1 : Mat),
        construct fuel1 ⟨m.rows, m.cols, m.type, data1⟩ = Except.error e) ∧
    (¬ (m.rows * m.cols = 0 ∨ m.rows ≠ m.cols ∨ m.type ≠ CV_32F) →
      construct fuel m = Except.ok (Graph fuel m.cols m.data)) := by
  have key : ∀ (f : Nat) (d : Mat),
      construct f ⟨m.rows, m.cols, m.type, d⟩ =
        if m.rows * m.cols = 0 then Except.error AssertFailure.notEmpty
        else if m.cols ≠ m.rows then Except.error AssertFailure.square
        else if m.type ≠ CV_32F then Except.error AssertFailure.isFloat
        else Except.ok (Graph f m.cols d) := by
    intro f d
    simp [construct, CvMat.empty]
  have key0 : construct fuel m = construct fuel ⟨m.rows, m.cols, m.type, m.data⟩ := rfl
  rw [key0, key]
  by_cases h1 : m.rows * m.cols = 0
  · simp only [if_pos h1]
    refine ⟨⟨fun _ => Or.inl h1, fun _ => ⟨_, rfl⟩⟩, ?_, fun h => absurd (Or.inl h1) h⟩
    intro e he fuel1 data1
    rw [key, if_pos h1]
    exact he
  · simp only [if_neg h1]
    by_cases h2 : m.cols ≠ m.rows
    · simp only [if_pos h2]
      refine ⟨⟨fun _ => Or.inr (Or.inl (Ne.symm h2)), fun _ => ⟨_, rfl⟩⟩, ?_,
        fun h => absurd (Or.inr (Or.inl (Ne.symm h2))) h⟩
      intro e he fuel1 data1
      rw [key, if_neg h1, if_pos h2]
      exact he
    · simp only [if_neg h2]
      by_cases h3 : m.type ≠ CV_32F
      · simp only [if_pos h3]
        refine ⟨⟨fun _ => Or.inr (Or.inr h3), fun _ => ⟨_, rfl⟩⟩, ?_,
          fun h => absurd (Or.inr (Or.inr h3)) h⟩
        intro e he fuel1 data1
        rw [key, if_neg h1, if_neg h2, if_pos h3]
        exact he
      · simp only [if_neg h3]
        have hnot : ¬ (m.rows * m.cols = 0 ∨ m.rows ≠ m.cols ∨ m.type ≠ CV_32F) := by
          rintro (h | h | h)
          · exact h1 h
          · exact h2 (Ne.symm h)
          · exact h3 h
        refine ⟨⟨?_, fun h => absurd h hnot⟩, ?_, fun _ => trivial⟩
        · rintro ⟨e, he⟩
          exact absurd he (by simp)
        · intro e he
          exact absurd he (by simp)

theorem precondition_failure_witness :
    (2 : Nat) ≠ 3 ∧ ∃ e, construct 0 ⟨2, 3, CV_32F, zeroMat⟩ = Except.error e :=
  ⟨by decide,
    (precondition_failure 0 ⟨2, 3, CV_32F, zeroMat⟩).1.2 (Or.inr (Or.inl (by decide)))⟩

theorem length_le_of_nodup_lt {l : List Nat} {n : Nat} (hnd : l.Nodup)
    (hlt : ∀ v ∈ l, v < n) : l.length ≤ n := by
  have hsub : l ⊆ List.range n := fun v hv => List.mem_range.2 (hlt v hv)
  have := (List.subperm_of_subset hnd hsub).length_le
  simpa using this

/-- The first node of an enumerated path is a source and its last node a final node. -/
theorem enumerated_ends {fuel numNodes : Nat} {W : Mat} {p : Path}
    (hp : p ∈ enumerated fuel numNodes W) :
    (∀ s ∈ p.nodes.head?, colSum numNodes W s = 0) ∧
      (∀ t ∈ p.nodes.getLast?, rowSum numNodes W t = 0 ∧ colSum numNodes W t ≠ 0) := by
  obtain ⟨t, ch, ht, hch, _, rfl⟩ := mem_enumerated.1 hp
  constructor
  · intro s hs
    simp only [backPath, List.head?_reverse] at hs
    obtain ⟨b, rest, rfl⟩ := List.exists_cons_of_ne_nil hch.ne_nil
    rw [List.getLast?_cons_cons] at hs
    exact hch.last_source _ t s hs
  · intro t1 ht1
    simp only [backPath, List.getLast?_reverse, List.head?_cons, Option.mem_def,
      Option.some.injEq] at ht1
    subst ht1
    exact (mem_finalNodes.1 ht).2

theorem generateCase2_diagonal : ∀ i, i < 5 → generateCase2 i i = 0 := by
  intro i _
  unfold generateCase2
  rw [if_neg (by omega)]

/-- C16 (recursion termination): for a matrix with an all-zero diagonal, every back
connection of a node `c` has a strictly smaller index; so `iteration`, started at any node
`c < numNodes` with any path, returns with recursion depth `c + 1`, hence with depth
`numNodes`; and every path that `computePaths` returns has at most `numNodes` nodes.  The
first argument of `iteration` is the number of nested calls it may use. -/
theorem recursion_terminates (numNodes : Nat) (W : Mat) (cols : Nat → ℚ)
    (hd : ∀ i, i < numNodes → W i i = 0) :
    (∀ c, c < numNodes → ∀ b ∈ backConnections W c, b < c) ∧
    (∀ c, c < numNodes → ∀ (p : Path) (pv : List Path),
      (∃ r, iteration W cols (c + 1) p c pv = some r) ∧
        ∃ r, iteration W cols numNodes p c pv = some r) ∧
    (∀ fuel, numNodes ≤ fuel →
      ∃ paths, computePaths fuel numNodes W [] = some paths ∧
        ∀ p ∈ paths, p.nodes.length ≤ numNodes) := by
  have hns : NoSelfLoop numNodes W := NoSelfLoop.of_diagonal hd
  refine ⟨?_, ?_, ?_⟩
  · intro c hc b hb
    have hb1 := mem_backConnections.1 hb
    have hne : b ≠ c := by
      rintro rfl
      exact hns b hc hb1.2
    exact lt_of_le_of_ne hb1.1 hne
  · intro c hc p pv
    have hns1 : NoSelfLoop (c + 1) W := fun i hi => hns i (by omega)
    exact ⟨⟨_, iteration_eq W cols (c + 1) p c pv hns1 (Nat.lt_succ_self c)⟩,
      ⟨_, iteration_eq W cols numNodes p c pv hns1 hc⟩⟩
  · intro fuel hf
    refine ⟨_, computePaths_eq fuel numNodes W hns hf, ?_⟩
    intro p hp
    have hw := enumerated_walkPath hns hp
    exact length_le_of_nodup_lt hw.nodup_nodes hw.lt

theorem recursion_terminates_witness :
    (∀ i, i < 5 → generateCase2 i i = 0) ∧
      ∃ paths, computePaths 5 5 generateCase2 [] = some paths ∧
        ∀ p ∈ paths, p.nodes.length ≤ 5 :=
  ⟨generateCase2_diagonal,
    (recursion_terminates 5 generateCase2 (colSum 5 generateCase2) generateCase2_diagonal).2.2 5 (le_refl _)⟩

theorem acyclic_backEdge : Acyclic 2 backEdge := by
  refine acyclic_of_rank (fun i => 2 - i) ?_
  intro i j _ _
  unfold backEdge
  split_ifs with h
  · intro _
    simp only []
    omega
  · intro h0
    exact absurd h0 (lt_irrefl _)

theorem Graph_backEdge : Graph 1 2 backEdge = some [⟨[0], []⟩, ⟨[1], []⟩] := by
  with_unfolding_all decide

theorem computePaths_backEdge : computePaths 1 2 backEdge [] = some [] := by
  with_unfolding_all decide

theorem finalNodes_backEdge : finalNodes 2 backEdge = [0] := by
  with_unfolding_all decide

/-- C17 (dead end): when no index `j ≤ c` has `W j c > 0`, `iteration` entered at `c`
(with fuel for one call) returns the path vector unchanged, whatever the path so far and
whatever the matrix; this holds in particular at a final node whose incoming edges all come
from nodes of higher index.  The matrix with the single edge `1 → 0` is acyclic, node `0` is
its only final node, its enumeration is empty, and the result is `[0], [1]`. -/
theorem dead_end :
    (∀ (W : Mat) (cols : Nat → ℚ) (fuel : Nat) (p : Path) (c : Nat) (pv : List Path),
      (∀ j, j ≤ c → ¬ (W j c > 0)) → iteration W cols (fuel + 1) p c pv = some pv) ∧
    Acyclic 2 backEdge ∧ finalNodes 2 backEdge = [0] ∧
    (∀ fuel, 1 ≤ fuel →
      computePaths fuel 2 backEdge [] = some [] ∧
        Graph fuel 2 backEdge = some [⟨[0], []⟩, ⟨[1], []⟩]) := by
  refine ⟨?_, acyclic_backEdge, finalNodes_backEdge, ?_⟩
  · intro W cols fuel p c pv h
    have hbc : backConnections W c = [] := by
      rw [List.eq_nil_iff_forall_not_mem]
      intro j hj
      have := mem_backConnections.1 hj
      exact h j this.1 this.2
    unfold iteration
    rw [hbc]
    rfl
  · intro fuel hf
    exact ⟨computePaths_mono hf 2 backEdge [] _ computePaths_backEdge,
      Graph_mono hf 2 backEdge _ Graph_backEdge⟩

theorem dead_end_witness :
    (∀ j, j ≤ 0 → ¬ (backEdge j 0 > 0)) ∧
      iteration backEdge (colSum 2 backEdge) 1 Path.empty 0 [] = some [] :=
  have h : ∀ j, j ≤ 0 → ¬ (backEdge j 0 > 0) := by
    intro j _
    unfold backEdge
    split_ifs with h1
    · omega
    · exact lt_irrefl _
  ⟨h, dead_end.1 backEdge (colSum 2 backEdge) 0 Path.empty 0 [] h⟩

/-- C18 (selected index is valid): for a matrix with zero diagonal (non-negative entries
are not needed), in every round, that is for the matrix without the nodes `Z` selected so
far, the enumeration returns, every enumerated path has at least one weight and only
positive weights, and when the enumeration is not empty the scan ends with
`0 ≤ bestPathId < paths.size()`, so the read of `paths[bestPathId]` succeeds; and the
constructor returns. -/
theorem selected_index_valid (fuel numNodes : Nat) (W : Mat)
    (hd : ∀ i, i < numNodes → W i i = 0) (hf : numNodes < fuel) :
    (∀ Z : List Nat,
      ∃ paths, computePaths fuel numNodes (removeNodes W Z) [] = some paths ∧
        (∀ p ∈ paths, p.weights ≠ [] ∧ ∀ w ∈ p.weights, 0 < w) ∧
        (paths ≠ [] →
          0 ≤ bestPathId paths ∧ bestPathId paths < (paths.length : Int) ∧
            ∃ p, pathAt paths (bestPathId paths) = some p)) ∧
    ∃ res, Graph fuel numNodes W = some res := by
  have hns : NoSelfLoop numNodes W := NoSelfLoop.of_diagonal hd
  constructor
  · intro Z
    have hns1 := hns.removeNodes Z
    refine ⟨_, computePaths_eq fuel numNodes _ hns1 (le_of_lt hf), ?_, ?_⟩
    · intro p hp
      have hw := enumerated_walkPath hns1 hp
      refine ⟨hw.weights_ne_nil, ?_⟩
      rw [hw.weights_eq]
      exact walkWeights_pos p.nodes hw.edges
    · intro hne
      obtain ⟨k, best, hk, hbest, hmax⟩ := enumerated_choice hns1 hne
      refine ⟨by rw [hk]; exact Int.natCast_nonneg k, ?_, best, hbest⟩
      rw [hk]
      have hlt : k < (enumerated fuel numNodes (removeNodes W Z)).length := by
        have := hmax.1
        exact (List.getElem?_eq_some.1 this).1
      exact_mod_cast hlt
  · obtain ⟨sel, hres, _, _⟩ := Graph_eq fuel numNodes W hns hf
    exact ⟨_, hres⟩

theorem selected_index_valid_witness :
    (∀ i, i < 5 → generateCase2 i i = 0) ∧
      ∃ res, Graph 6 5 generateCase2 = some res :=
  ⟨generateCase2_diagonal,
    (selected_index_valid 6 5 generateCase2 generateCase2_diagonal (by decide)).2⟩

/-- C20 (ascending node ids): for a matrix with zero diagonal, every path that
`computePaths` returns lists its nodes in strictly increasing order, its first node has
column sum `0` and its last node has row sum `0` and a column sum other than `0`.  The
result of the constructor is the selected paths `sel` followed by the isolated nodes; its
paths with two or more nodes are those of `sel`, and each path `p` of `sel`, selected after
`pre`, is strictly increasing, with a source first and a final node last in the working
matrix of its round, the matrix without the nodes of `pre`. -/
theorem ascending_nodes (fuel numNodes : Nat) (W : Mat)
    (hd : ∀ i, i < numNodes → W i i = 0) (hf : numNodes < fuel) :
    (∃ paths, computePaths fuel numNodes W [] = some paths ∧
      ∀ p ∈ paths, List.Chain' (fun a b => a < b) p.nodes ∧
        (∀ s ∈ p.nodes.head?, colSum numNodes W s = 0) ∧
        (∀ t ∈ p.nodes.getLast?, rowSum numNodes W t = 0 ∧ colSum numNodes W t ≠ 0)) ∧
    (∃ sel, Graph fuel numNodes W = some (addIsolated (List.range numNodes) sel) ∧
      (∀ p ∈ addIsolated (List.range numNodes) sel, 2 ≤ p.nodes.length → p ∈ sel) ∧
      ∀ pre p post, sel = pre ++ p :: post →
        List.Chain' (fun a b => a < b) p.nodes ∧
        (∀ s ∈ p.nodes.head?,
          colSum numNodes (removeNodes W (pre.flatMap Path.nodes)) s = 0) ∧
        (∀ t ∈ p.nodes.getLast?,
          rowSum numNodes (removeNodes W (pre.flatMap Path.nodes)) t = 0 ∧
            colSum numNodes (removeNodes W (pre.flatMap Path.nodes)) t ≠ 0)) := by
  have hns : NoSelfLoop numNodes W := NoSelfLoop.of_diagonal hd
  constructor
  · refine ⟨_, computePaths_eq fuel numNodes W hns (le_of_lt hf), ?_⟩
    intro p hp
    exact ⟨(enumerated_walkPath hns hp).ascending, enumerated_ends hp⟩
  · obtain ⟨sel, hres, hsel, _⟩ := Graph_eq fuel numNodes W hns hf
    refine ⟨sel, hres, ?_, ?_⟩
    · intro p hp h2
      rcases mem_addIsolated.1 hp with hp1 | ⟨v, _, _, rfl⟩
      · exact hp1
      · simp at h2
    · intro pre p post hsplit
      have hmem := pathAt_mem (hsel pre p post hsplit)
      exact ⟨(enumerated_walkPath (hns.removeNodes _) hmem).ascending, enumerated_ends hmem⟩

theorem ascending_nodes_witness :
    (∀ i, i < 5 → generateCase2 i i = 0) ∧
      ∃ paths, computePaths 6 5 generateCase2 [] = some paths ∧
        ∀ p ∈ paths, List.Chain' (fun a b => a < b) p.nodes ∧
          (∀ s ∈ p.nodes.head?, colSum 5 generateCase2 s = 0) ∧
          (∀ t ∈ p.nodes.getLast?,
            rowSum 5 generateCase2 t = 0 ∧ colSum 5 generateCase2 t ≠ 0) :=
  ⟨generateCase2_diagonal,
    (ascending_nodes 6 5 generateCase2 generateCase2_diagonal (by decide)).1⟩

/-- The loop with a record returns the same `bestPaths` as the loop without. -/
theorem greedyLoopLog_fst (fuel numNodes : Nat) :
    ∀ (rounds : Nat) (cp : List Path) (cur : Nat) (bid : Int) (Wc : Mat) (bp : List Path)
      (log : List (Nat × Nat)) (calls : Nat),
      (greedyLoopLog fuel numNodes rounds cp cur bid Wc bp log calls).map Prod.fst =
        greedyLoop fuel numNodes rounds cp cur bid Wc bp := by
  intro rounds
  induction rounds with
  | zero => intro cp cur bid Wc bp log calls; rfl
  | succ rounds ih =>
    intro cp cur bid Wc bp log calls
    simp only [greedyLoopLog, greedyLoop]
    cases pathAt cp bid with
    | none => rfl
    | some best =>
      simp only []
      by_cases hstop : best.getNumNodes ≥ cur
      · rw [if_pos hstop, if_pos hstop]
        rfl
      · rw [if_neg hstop, if_neg hstop]
        cases computePaths fuel numNodes (removeNodes Wc best.nodes) [] with
        | none => rfl
        | some rp =>
          simp only []
          by_cases hne : rp.length > 0
          · rw [if_pos hne, if_pos hne]
            cases pathAt rp (bestPathId rp) with
            | none => rfl
            | some next =>
              simp only []
              exact ih _ _ _ _ _ _ _
          · rw [if_neg hne, if_neg hne]
            rfl

/-- The run of the greedy loop on a matrix without self-loops: it returns, the record
starts with the current counter, every recorded path has two or more nodes, every recorded
counter is positive, from one round to the next the counter drops by the node count of the
path of the earlier round, which is smaller than the counter, and twice the number of
enumerations stays below the counter at the start. -/
theorem greedyLoopLog_spec (fuel numNodes : Nat) (hf : numNodes ≤ fuel) :
    ∀ (rounds : Nat) (cp : List Path) (cur : Nat) (bid : Int) (Wc : Mat) (bp : List Path)
      (best : Path) (log : List (Nat × Nat)) (calls : Nat),
      NoSelfLoop numNodes Wc → cur < rounds → 0 < cur → pathAt cp bid = some best →
      2 ≤ best.nodes.length →
      ∃ (res : List Path) (log1 : List (Nat × Nat)) (calls1 : Nat),
        greedyLoopLog fuel numNodes rounds cp cur bid Wc bp log calls =
          some (res, log ++ log1, calls + calls1) ∧
        log1.head? = some (cur, best.nodes.length) ∧
        (∀ e ∈ log1, 2 ≤ e.2 ∧ 0 < e.1) ∧
        List.Chain' (fun e e1 => e.2 < e.1 ∧ e1.1 = e.1 - e.2) log1 ∧
        2 * calls1 < cur := by
  intro rounds
  induction rounds with
  | zero => intro cp cur bid Wc bp best log calls _ h; omega
  | succ rounds ih =>
    intro cp cur bid Wc bp best log calls hns hcur hpos hat hlen
    have hE := computePaths_eq fuel numNodes _ (hns.removeNodes best.nodes) hf
    simp only [greedyLoopLog, hat]
    have hnum : best.getNumNodes = best.nodes.length := rfl
    by_cases hstop : best.getNumNodes ≥ cur
    · rw [if_pos hstop]
      refine ⟨bp, [(cur, best.nodes.length)], 0, rfl, rfl, ?_, List.chain'_singleton _, by omega⟩
      intro e he
      simp only [List.mem_singleton] at he
      subst he
      exact ⟨hlen, hpos⟩
    · rw [if_neg hstop, hE]
      simp only []
      by_cases hne : (enumerated fuel numNodes (removeNodes Wc best.nodes)).length > 0
      · rw [if_pos hne]
        obtain ⟨k, next, _, hnext, _⟩ := enumerated_choice (hns.removeNodes best.nodes)
          (List.length_pos.1 hne)
        have hwalk := enumerated_walkPath (hns.removeNodes best.nodes) (pathAt_mem hnext)
        rw [hnext]
        simp only []
        obtain ⟨res, log1, calls1, hres, hhead, hall, hchain, hcalls⟩ :=
          ih _ (cur - best.getNumNodes) _ _ (bp ++ [next]) next
            (log ++ [(cur, best.getNumNodes)]) (calls + 1)
            (hns.removeNodes best.nodes) (by omega) (by omega) hnext hwalk.two_le
        refine ⟨res, (cur, best.nodes.length) :: log1, calls1 + 1, ?_, rfl, ?_, ?_, by omega⟩
        · rw [hres, hnum]
          simp only [List.append_assoc, List.singleton_append]
          congr 3
          omega
        · intro e he
          rcases List.mem_cons.1 he with rfl | he
          · exact ⟨hlen, hpos⟩
          · exact hall e he
        · rw [List.chain'_cons']
          refine ⟨?_, hchain⟩
          intro e he
          rw [hhead] at he
          simp only [Option.mem_def, Option.some.injEq] at he
          subst he
          simp only []
          rw [hnum] at hstop ⊢
          exact ⟨by omega, rfl⟩
      · rw [if_neg hne]
        refine ⟨bp, [(cur, best.nodes.length)], 1, rfl, rfl, ?_, List.chain'_singleton _,
          by omega⟩
        intro e he
        simp only [List.mem_singleton] at he
        subst he
        exact ⟨hlen, hpos⟩

/-- C15 (greedy loop termination): on a valid input the first enumeration returns; when it
is empty the loop is not entered; otherwise the loop, started as the constructor starts it
(counter `numNodes`), returns, and the constructor returns its paths followed by the
isolated nodes.  The record of the run shows: the counter starts at `numNodes`; every
selected path has two or more nodes; every round that is followed by another one has a
path with fewer nodes than the counter and lowers the counter by exactly that number; the
counter is positive in every round; and twice the number of re-enumerations is below
`numNodes`, which is "fewer than `N / 2`". -/
theorem greedy_loop_terminates (fuel numNodes : Nat) (W : Mat) (hv : ValidInput numNodes W)
    (hf : numNodes < fuel) :
    ∃ paths, computePaths fuel numNodes W [] = some paths ∧
      (paths = [] → Graph fuel numNodes W = some (addIsolated (List.range numNodes) [])) ∧
      (paths ≠ [] →
        ∃ (best : Path) (res : List Path) (log : List (Nat × Nat)) (calls : Nat),
          pathAt paths (bestPathId paths) = some best ∧
          greedyLoopLog fuel numNodes fuel paths numNodes (bestPathId paths) W [best] [] 0 =
            some (res, log, calls) ∧
          greedyLoop fuel numNodes fuel paths numNodes (bestPathId paths) W [best] =
            some res ∧
          Graph fuel numNodes W = some (addIsolated (List.range numNodes) res) ∧
          log.head? = some (numNodes, best.nodes.length) ∧
          (∀ e ∈ log, 2 ≤ e.2 ∧ 0 < e.1) ∧
          List.Chain' (fun e e1 => e.2 < e.1 ∧ e1.1 = e.1 - e.2) log ∧
          2 * calls < numNodes) := by
  have hns := hv.noSelfLoop
  have hE := computePaths_eq fuel numNodes W hns (le_of_lt hf)
  refine ⟨_, hE, ?_, ?_⟩
  · intro hnil
    unfold Graph
    rw [hE, hnil]
    rfl
  · intro hne
    obtain ⟨k, best, _, hbest, _⟩ := enumerated_choice hns hne
    have hwalk := enumerated_walkPath hns (pathAt_mem hbest)
    obtain ⟨res, log1, calls1, hres, hhead, hall, hchain, hcalls⟩ :=
      greedyLoopLog_spec fuel numNodes (le_of_lt hf) fuel (enumerated fuel numNodes W)
        numNodes (bestPathId (enumerated fuel numNodes W)) W [best] best [] 0 hns hf
        hv.one_le hbest hwalk.two_le
    simp only [List.nil_append, Nat.zero_add] at hres
    have hloop := greedyLoopLog_fst fuel numNodes fuel (enumerated fuel numNodes W) numNodes
      (bestPathId (enumerated fuel numNodes W)) W [best] [] 0
    rw [hres] at hloop
    simp only [Option.map_some'] at hloop
    refine ⟨best, res, log1, calls1, hbest, hres, hloop.symm, ?_, hhead, hall, hchain, hcalls⟩
    unfold Graph
    rw [hE]
    simp only []
    rw [if_pos (List.length_pos.2 hne), hbest]
    simp only []
    rw [← hloop]

theorem greedy_loop_terminates_witness :
    ValidInput 5 generateCase2 ∧
      ∃ paths, computePaths 6 5 generateCase2 [] = some paths ∧
        (paths = [] → Graph 6 5 generateCase2 = some (addIsolated (List.range 5) [])) ∧
        (paths ≠ [] →
          ∃ (best : Path) (res : List Path) (log : List (Nat × Nat)) (calls : Nat),
            pathAt paths (bestPathId paths) = some best ∧
            greedyLoopLog 6 5 6 paths 5 (bestPathId paths) generateCase2 [best] [] 0 =
              some (res, log, calls) ∧
            greedyLoop 6 5 6 paths 5 (bestPathId paths) generateCase2 [best] = some res ∧
            Graph 6 5 generateCase2 = some (addIsolated (List.range 5) res) ∧
            log.head? = some (5, best.nodes.length) ∧
            (∀ e ∈ log, 2 ≤ e.2 ∧ 0 < e.1) ∧
            List.Chain' (fun e e1 => e.2 < e.1 ∧ e1.1 = e.1 - e.2) log ∧
            2 * calls < 5) :=
  ⟨validInput_generateCase2,
    greedy_loop_terminates 6 5 generateCase2 validInput_generateCase2 (by decide)⟩

theorem mem_of_nodup_lt_length {l : List Nat} {n : Nat} (hnd : l.Nodup)
    (hlt : ∀ v ∈ l, v < n) (hlen : n ≤ l.length) : ∀ a, a < n → a ∈ l := by
  intro a ha
  have hsub : l.toFinset ⊆ Finset.range n := by
    intro v hv
    exact Finset.mem_range.2 (hlt v (List.mem_toFinset.1 hv))
  have hcard : (Finset.range n).card ≤ l.toFinset.card := by
    rw [List.toFinset_card_of_nodup hnd, Finset.card_range]
    exact hlen
  have heq := Finset.eq_of_subset_of_card_le hsub hcard
  have : a ∈ l.toFinset := by
    rw [heq]
    exact Finset.mem_range.2 ha
  exact List.mem_toFinset.1 this

theorem exists_pos_of_colSum_ne_zero {numNodes : Nat} {W : Mat}
    (hnn : ∀ i j, i < numNodes → j < numNodes → 0 ≤ W i j) {j : Nat} (hj : j < numNodes)
    (h : colSum numNodes W j ≠ 0) : ∃ i, i < numNodes ∧ W i j > 0 := by
  unfold colSum at h
  obtain ⟨x, hx, hx0⟩ := List.exists_mem_ne_zero_of_sum_ne_zero h
  obtain ⟨i, hi, rfl⟩ := List.mem_map.1 hx
  have hi1 := List.mem_range.1 hi
  exact ⟨i, hi1, lt_of_le_of_ne (hnn i j hi1 hj) (Ne.symm hx0)⟩

theorem exists_pos_of_rowSum_ne_zero {numNodes : Nat} {W : Mat}
    (hnn : ∀ i j, i < numNodes → j < numNodes → 0 ≤ W i j) {i : Nat} (hi : i < numNodes)
    (h : rowSum numNodes W i ≠ 0) : ∃ j, j < numNodes ∧ W i j > 0 := by
  unfold rowSum at h
  obtain ⟨x, hx, hx0⟩ := List.exists_mem_ne_zero_of_sum_ne_zero h
  obtain ⟨j, hj, rfl⟩ := List.mem_map.1 hx
  have hj1 := List.mem_range.1 hj
  exact ⟨j, hj1, lt_of_le_of_ne (hnn i j hi hj1) (Ne.symm hx0)⟩

/-- Every node is the end of a walk that starts at a source. -/
theorem exists_walk_from_source {numNodes : Nat} {W : Mat}
    (hnn : ∀ i j, i < numNodes → j < numNodes → 0 ≤ W i j)
    (hfwd : ∀ i j, i < numNodes → j < numNodes → W i j > 0 → i < j) :
    ∀ a, a < numNodes →
      ∃ l : List Nat, (∀ v ∈ l, v < numNodes) ∧ List.Chain' (fun x y => W x y > 0) l ∧
        l.getLast? = some a ∧ ∃ s, l.head? = some s ∧ colSum numNodes W s = 0 := by
  intro a
  induction a using Nat.strong_induction_on with
  | _ a ih =>
    intro ha
    by_cases hc : colSum numNodes W a = 0
    · refine ⟨[a], ?_, List.chain'_singleton _, rfl, a, rfl, hc⟩
      intro v hv
      simp only [List.mem_singleton] at hv
      subst hv
      exact ha
    · obtain ⟨j, hj, hw⟩ := exists_pos_of_colSum_ne_zero hnn ha hc
      have hja : j < a := hfwd j a hj ha hw
      obtain ⟨l, hlt, hch, hlast, s, hs, hs0⟩ := ih j hja hj
      refine ⟨l ++ [a], ?_, ?_, by simp, s, ?_, hs0⟩
      · intro v hv
        rcases List.mem_append.1 hv with hv | hv
        · exact hlt v hv
        · simp only [List.mem_singleton] at hv
          subst hv
          exact ha
      · refine List.Chain'.append hch (List.chain'_singleton _) ?_
        intro x hx y hy
        rw [hlast] at hx
        simp only [Option.mem_def, Option.some.injEq, List.head?_cons] at hx hy
        subst hx
        subst hy
        exact hw
      · rw [List.head?_append, hs]
        rfl

/-- Every node with an incoming edge is the start of a walk that ends at a final node. -/
theorem exists_walk_to_final {numNodes : Nat} {W : Mat}
    (hnn : ∀ i j, i < numNodes → j < numNodes → 0 ≤ W i j)
    (hfwd : ∀ i j, i < numNodes → j < numNodes → W i j > 0 → i < j) :
    ∀ (d b : Nat), numNodes - b ≤ d → b < numNodes → colSum numNodes W b ≠ 0 →
      ∃ l : List Nat, (∀ v ∈ l, v < numNodes) ∧ List.Chain' (fun x y => W x y > 0) l ∧
        l.head? = some b ∧
        ∃ t, l.getLast? = some t ∧ rowSum numNodes W t = 0 ∧ colSum numNodes W t ≠ 0 := by
  intro d
  induction d with
  | zero => intro b hd hb; omega
  | succ d ih =>
    intro b hd hb hcol
    by_cases hr : rowSum numNodes W b = 0
    · refine ⟨[b], ?_, List.chain'_singleton _, rfl, b, rfl, hr, hcol⟩
      intro v hv
      simp only [List.mem_singleton] at hv
      subst hv
      exact hb
    · obtain ⟨c, hc, hw⟩ := exists_pos_of_rowSum_ne_zero hnn hb hr
      have hbc : b < c := hfwd b c hb hc hw
      have hcc : colSum numNodes W c ≠ 0 := ne_of_gt (colSum_pos hnn hb hc hw)
      obtain ⟨l, hlt, hch, hhead, t, ht, ht0⟩ := ih c (by omega) hc hcc
      refine ⟨b :: l, ?_, ?_, rfl, t, ?_, ht0⟩
      · intro v hv
        rcases List.mem_cons.1 hv with rfl | hv
        · exact hb
        · exact hlt v hv
      · rw [List.chain'_cons']
        refine ⟨?_, hch⟩
        intro y hy
        rw [hhead] at hy
        simp only [Option.mem_def, Option.some.injEq] at hy
        subst hy
        exact hw
      · obtain ⟨rest, hrest⟩ := List.head?_eq_some_iff.1 hhead
        rw [hrest, List.getLast?_cons_cons, ← hrest]
        exact ht

/-- With non-negative entries and edges from lower to higher index, a matrix whose
enumeration is empty has no edge. -/
theorem no_edge_of_enumerated_nil {fuel numNodes : Nat} {W : Mat}
    (hnn : ∀ i j, i < numNodes → j < numNodes → 0 ≤ W i j)
    (hfwd : ∀ i j, i < numNodes → j < numNodes → W i j > 0 → i < j)
    (hf : numNodes ≤ fuel) (hnil : enumerated fuel numNodes W = []) :
    ∀ a b, a < numNodes → b < numNodes → ¬ (W a b > 0) := by
  intro a b ha hb hw
  obtain ⟨l1, hlt1, hch1, hlast1, s, hs, hs0⟩ := exists_walk_from_source hnn hfwd a ha
  obtain ⟨l2, hlt2, hch2, hhead2, t, ht, ht0⟩ :=
    exists_walk_to_final hnn hfwd numNodes b (by omega) hb
      (ne_of_gt (colSum_pos hnn ha hb hw))
  have hne1 : l1 ≠ [] := by
    rintro rfl
    simp at hlast1
  have hne2 : l2 ≠ [] := by
    rintro rfl
    simp at hhead2
  have hwalk : IsSourceFinalWalk numNodes W (l1 ++ l2) := by
    refine ⟨?_, ?_, ?_, ?_, ?_⟩
    · have h1 := List.length_pos.2 hne1
      have h2 := List.length_pos.2 hne2
      simp only [List.length_append]
      omega
    · intro v hv
      rcases List.mem_append.1 hv with hv | hv
      · exact hlt1 v hv
      · exact hlt2 v hv
    · refine List.Chain'.append hch1 hch2 ?_
      intro x hx y hy
      rw [hlast1] at hx
      rw [hhead2] at hy
      simp only [Option.mem_def, Option.some.injEq] at hx hy
      subst hx
      subst hy
      exact hw
    · intro s1 hs1
      rw [List.head?_append, hs] at hs1
      simp only [Option.or_some, Option.mem_def, Option.some.injEq] at hs1
      subst hs1
      exact hs0
    · intro t1 ht1
      rw [List.getLast?_append, ht] at ht1
      simp only [Option.or_some, Option.mem_def, Option.some.injEq] at ht1
      subst ht1
      exact ht0
  have hmem := (mem_enumerated_nodes hnn hfwd hf (l1 ++ l2)).2 hwalk
  rw [hnil] at hmem
  simp at hmem

/-- Why the greedy loop stops: the selections hold `numNodes` nodes or more, or the
enumeration of the matrix without their nodes is empty. -/
theorem greedyLoop_stop (fuel numNodes : Nat) (W : Mat) (hns : NoSelfLoop numNodes W)
    (hf : numNodes ≤ fuel) :
    ∀ (rounds : Nat) (cp : List Path) (cur : Nat) (bid : Int) (prev : List Path)
      (best : Path),
      cur < rounds → pathAt cp bid = some best → 1 ≤ best.nodes.length →
      cur + (prev.flatMap Path.nodes).length = numNodes →
      ∃ extra,
        greedyLoop fuel numNodes rounds cp cur bid
            (removeNodes W (prev.flatMap Path.nodes)) (prev ++ [best]) =
          some (prev ++ [best] ++ extra) ∧
        (numNodes ≤ ((prev ++ [best] ++ extra).flatMap Path.nodes).length ∨
          enumerated fuel numNodes
            (removeNodes W ((prev ++ [best] ++ extra).flatMap Path.nodes)) = []) := by
  intro rounds
  induction rounds with
  | zero => intro cp cur bid prev best h; omega
  | succ rounds ih =>
    intro cp cur bid prev best hcur hat hlen hsum
    have hW : removeNodes (removeNodes W (prev.flatMap Path.nodes)) best.nodes =
        removeNodes W ((prev ++ [best]).flatMap Path.nodes) := by
      rw [removeNodes_append]; simp
    have hE := computePaths_eq fuel numNodes _
      (hns.removeNodes ((prev ++ [best]).flatMap Path.nodes)) hf
    have hnum : best.getNumNodes = best.nodes.length := rfl
    have hlen1 : ((prev ++ [best]).flatMap Path.nodes).length =
        (prev.flatMap Path.nodes).length + best.nodes.length := by
      simp
    simp only [greedyLoop, hat]
    by_cases hstop : best.getNumNodes ≥ cur
    · refine ⟨[], by simp [hstop], Or.inl ?_⟩
      rw [List.append_nil, hlen1]
      omega
    · rw [if_neg hstop, hW, hE]
      simp only []
      by_cases hne : (enumerated fuel numNodes
          (removeNodes W ((prev ++ [best]).flatMap Path.nodes))).length > 0
      · rw [if_pos hne]
        obtain ⟨k, next, _, hnext, _⟩ := enumerated_choice
          (hns.removeNodes ((prev ++ [best]).flatMap Path.nodes))
          (List.length_pos.1 hne)
        have hwalk := enumerated_walkPath
          (hns.removeNodes ((prev ++ [best]).flatMap Path.nodes)) (pathAt_mem hnext)
        rw [hnext]
        simp only []
        obtain ⟨extra, hres, hstopc⟩ := ih _ (cur - best.getNumNodes) _ (prev ++ [best]) next
          (by omega) hnext (by have := hwalk.two_le; omega) (by rw [hlen1]; omega)
        refine ⟨next :: extra, ?_, ?_⟩
        · rw [hres]; simp
        · have hassoc : prev ++ [best] ++ next :: extra = prev ++ [best] ++ [next] ++ extra := by
            simp
          rw [hassoc]
          exact hstopc
      · rw [if_neg hne]
        refine ⟨[], by simp, Or.inr ?_⟩
        rw [List.append_nil]
        exact List.length_eq_zero.1 (by omega)

/-- The result of the constructor with the reason why the selection stopped. -/
theorem Graph_stop (fuel numNodes : Nat) (W : Mat) (hns : NoSelfLoop numNodes W)
    (hf : numNodes < fuel) :
    ∃ sel, Graph fuel numNodes W = some (addIsolated (List.range numNodes) sel) ∧
      GreedyRounds fuel numNodes W sel ∧
      (numNodes ≤ (sel.flatMap Path.nodes).length ∨
        enumerated fuel numNodes (removeNodes W (sel.flatMap Path.nodes)) = []) := by
  have hE := computePaths_eq fuel numNodes W hns (le_of_lt hf)
  have h0 : removeNodes W [] = W := rfl
  unfold Graph
  rw [hE]
  simp only []
  by_cases hne : (enumerated fuel numNodes W).length > 0
  · rw [if_pos hne]
    obtain ⟨k, best, _, hbest, _⟩ := enumerated_choice hns (List.length_pos.1 hne)
    have hwalk := enumerated_walkPath hns (pathAt_mem hbest)
    rw [hbest]
    simp only []
    obtain ⟨extra, hres, hsel⟩ := greedyLoop_spec fuel numNodes W hns (le_of_lt hf) fuel
      (enumerated fuel numNodes W) numNodes (bestPathId (enumerated fuel numNodes W)) []
      best hf hbest (by have := hwalk.two_le; omega)
    obtain ⟨extra1, hres1, hstop⟩ := greedyLoop_stop fuel numNodes W hns (le_of_lt hf) fuel
      (enumerated fuel numNodes W) numNodes (bestPathId (enumerated fuel numNodes W)) []
      best hf hbest (by have := hwalk.two_le; omega) (by simp)
    rw [hres] at hres1
    have hex : extra = extra1 := by
      have := Option.some.inj hres1
      exact List.append_cancel_left this
    subst hex
    simp only [List.flatMap_nil, List.nil_append] at hres hsel hstop
    rw [h0] at hres
    rw [hres]
    refine ⟨best :: extra, by simp, ?_, by simpa using hstop⟩
    intro pre p post h
    cases pre with
    | nil =>
      simp only [List.nil_append, List.cons.injEq] at h
      rw [← h.1]
      simpa [roundChoice, h0] using hbest
    | cons a pre =>
      simp only [List.cons_append, List.cons.injEq] at h
      have := hsel pre p post h.2
      rw [← h.1]
      simpa using this
  · rw [if_neg hne]
    refine ⟨[], rfl, ?_, Or.inr ?_⟩
    · intro pre p post h
      exact absurd h (by simp)
    · simp only [List.flatMap_nil]
      rw [h0]
      exact List.length_eq_zero.1 (by omega)

theorem removeNodes_nonneg {numNodes : Nat} {W : Mat}
    (hnn : ∀ i j, i < numNodes → j < numNodes → 0 ≤ W i j) (Z : List Nat) :
    ∀ i j, i < numNodes → j < numNodes → 0 ≤ removeNodes W Z i j := by
  intro i j hi hj
  rw [removeNodes_apply]
  split_ifs
  · exact le_refl _
  · exact hnn i j hi hj

theorem removeNodes_forward {numNodes : Nat} {W : Mat}
    (hfwd : ∀ i j, i < numNodes → j < numNodes → W i j > 0 → i < j) (Z : List Nat) :
    ∀ i j, i < numNodes → j < numNodes → removeNodes W Z i j > 0 → i < j := by
  intro i j hi hj hpos
  have := removeNodes_pos hpos
  rw [this.2.2] at hpos
  exact hfwd i j hi hj hpos

/-- C19 (greedy maximality): for a matrix with non-negative entries whose edges all go from
a lower to a higher index, the constructor returns; whenever `[a]` and `[b]` are node lists
of returned paths, `W a b = 0`; and if the matrix has an edge, a returned path has two or
more nodes. -/
theorem greedy_maximality (fuel numNodes : Nat) (W : Mat)
    (hnn : ∀ i j, i < numNodes → j < numNodes → 0 ≤ W i j)
    (hfwd : ∀ i j, i < numNodes → j < numNodes → W i j > 0 → i < j)
    (hf : numNodes < fuel) :
    ∃ res, Graph fuel numNodes W = some res ∧
      (∀ p ∈ res, ∀ q ∈ res, ∀ a b, p.nodes = [a] → q.nodes = [b] → W a b = 0) ∧
      ((∃ i j, i < numNodes ∧ j < numNodes ∧ W i j > 0) →
        ∃ p ∈ res, 2 ≤ p.nodes.length) := by
  have hns : NoSelfLoop numNodes W := fun i hi hpos => lt_irrefl _ (hfwd i i hi hi hpos)
  obtain ⟨sel, hres, hsel, hstop⟩ := Graph_stop fuel numNodes W hns hf
  have hnd := hsel.disjoint_nodes hns
  have hlt : ∀ v ∈ sel.flatMap Path.nodes, v < numNodes := by
    intro v hv
    obtain ⟨p, hp, hvp⟩ := List.mem_flatMap.1 hv
    exact (hsel.walkPath hns hp).lt v hvp
  have hsingle : ∀ p ∈ addIsolated (List.range numNodes) sel, ∀ a, p.nodes = [a] →
      a < numNodes ∧ a ∉ sel.flatMap Path.nodes := by
    intro p hp a ha
    rcases mem_addIsolated.1 hp with hp1 | ⟨v, hv, hout, rfl⟩
    · have := (hsel.walkPath hns hp1).two_le
      rw [ha] at this
      simp at this
    · simp only [List.cons.injEq, and_true] at ha
      subst ha
      exact ⟨hv, hout⟩
  refine ⟨_, hres, ?_, ?_⟩
  · intro p hp q hq a b ha hb
    obtain ⟨haN, haout⟩ := hsingle p hp a ha
    obtain ⟨hbN, hbout⟩ := hsingle q hq b hb
    rcases hstop with hfull | hnil
    · exact absurd (mem_of_nodup_lt_length hnd hlt hfull a haN) haout
    · have hno := no_edge_of_enumerated_nil (removeNodes_nonneg hnn _)
        (removeNodes_forward hfwd _) (le_of_lt hf) hnil a b haN hbN
      rw [removeNodes_apply, if_neg (by
        rintro (h | h)
        · exact haout h
        · exact hbout h)] at hno
      exact le_antisymm (not_lt.1 hno) (hnn a b haN hbN)
  · rintro ⟨i, j, hi, hj, hw⟩
    have hne : sel ≠ [] := by
      rintro rfl
      rcases hstop with hfull | hnil
      · simp only [List.flatMap_nil, List.length_nil] at hfull
        omega
      · exact no_edge_of_enumerated_nil hnn hfwd (le_of_lt hf) hnil i j hi hj hw
    obtain ⟨p, hp⟩ := List.exists_mem_of_ne_nil _ hne
    exact ⟨p, mem_addIsolated.2 (Or.inl hp), (hsel.walkPath hns hp).two_le⟩

theorem greedy_maximality_witness :
    ∃ res, Graph 6 5 generateCase2 = some res ∧
      (∀ p ∈ res, ∀ q ∈ res, ∀ a b, p.nodes = [a] → q.nodes = [b] →
        generateCase2 a b = 0) ∧
      ((∃ i j, i < 5 ∧ j < 5 ∧ generateCase2 i j > 0) → ∃ p ∈ res, 2 ≤ p.nodes.length) :=
  greedy_maximality 6 5 generateCase2 generateCase2_nonneg generateCase2_forward (by decide)

end Graph
